import Mathlib

/-!
Verification of the Nice2Predict inference-and-learning engine.

This file contains a shallow embedding, in Lean 4, of the core data model and
operations of the Nice2Predict structured-prediction engine
(src/n2p/inference/graph_inference.cpp, src/n2p/inference/label_checker.cpp,
src/base/stringset.cpp, src/src/inference/lock_free_weight.h and their headers),
together with theorems about the embedded definitions.

Modelling conventions:
* C++ `double` weights and scores are modelled as `ℚ` (exact arithmetic; none of
  the proved properties depends on floating-point rounding).  The only
  transcendental operation used by the code, `exp` in `PLLearn`, is modelled as
  an explicit function parameter `expF`, since its exact values never matter for
  the statements proved here.
* Unsigned 64-bit arithmetic (`uint64`) is modelled as `Nat` with explicit
  `% 2^64` wrap-around; C++ `int` node indices are modelled as `Nat` where they
  index vectors and as `Int` where they denote label ids (label ids can be -1).
* `google::dense_hash_map`, `std::unordered_map` and `std::map` values are
  modelled as association lists (`List (κ × ν)`) in insertion order; `std::set`
  and `std::multiset` iterate in ascending order and are modelled as sorted
  lists where the iteration order matters and as plain lists otherwise.
* Binary model files are modelled as lists of tokens, one token per `fwrite` of
  an `int` or a `double` and one per byte of bulk character data.
-/

namespace N2P

/-- 2^64, the modulus of C++ `uint64` arithmetic. -/
def U64MOD : Nat := 18446744073709551616

/-- `UINT64_MAX`. -/
def UINT64MAX : Nat := 18446744073709551615

/-- Conversion of a C++ `int` (or `int64`) value to `uint64`, i.e. reduction
modulo 2^64 of the two's complement value. -/
def toU64 (x : Int) : Nat := (x % (18446744073709551616 : Int)).toNat

/-- `HashInt` from graph_inference.cpp lines 91-99: the 64-bit mixing function
(finalizer of MurmurHash3) applied to `x+1`, with all arithmetic mod 2^64. -/
def HashInt (x : Nat) : Nat :=
  let x := (x + 1) % U64MOD
  let x := x ^^^ (x >>> 33)
  let x := (x * 0xff51afd7ed558ccd) % U64MOD
  let x := x ^^^ (x >>> 33)
  let x := (x * 0xc4ceb9fe1a85ec53) % U64MOD
  let x := x ^^^ (x >>> 33)
  x

/-- The 64-bit hash of a factor, given the list of label ids of its elements in
the order they are enumerated: `hash += HashInt(label)` with `uint64`
wrap-around, starting from 0 (graph_inference.cpp lines 638-648,
`GetAffectedFactorFeatures`, and lines 414-421, `GetNodeScore`). -/
def factorHash (labels : List Int) : Nat :=
  labels.foldl (fun h l => (h + HashInt (toU64 l)) % U64MOD) 0

/-! ### Association list helpers (model of the C++ hash maps) -/

/-- Lookup in an association list (model of `map.find`). -/
def alookup {κ ν : Type} [DecidableEq κ] (k : κ) : List (κ × ν) → Option ν
  | [] => none
  | (k', v) :: rest => if k = k' then some v else alookup k rest

/-- Lookup with a default (model of `FindWithDefault` from base/maputil.h). -/
def FindWithDefault {κ ν : Type} [DecidableEq κ] (m : List (κ × ν)) (k : κ)
    (deflt : ν) : ν :=
  (alookup k m).getD deflt

/-- Update the value at a key only if the key is already present (model of
`map.find(k); if (it != map.end()) it->second = ...`). -/
def updateExisting {κ ν : Type} [DecidableEq κ] (k : κ) (f : ν → ν) :
    List (κ × ν) → List (κ × ν)
  | [] => []
  | (k', v) :: rest =>
      if k = k' then (k', f v) :: rest else (k', v) :: updateExisting k f rest

/-- Insert-or-assign at a key (model of `map[k] = v`): assigns in place if the
key exists, otherwise appends a fresh entry at the end (dense_hash_map and
unordered_map iteration order is modelled as insertion order). -/
def assignKey {κ ν : Type} [DecidableEq κ] (k : κ) (v : ν) :
    List (κ × ν) → List (κ × ν)
  | [] => [(k, v)]
  | (k', v') :: rest =>
      if k = k' then (k', v) :: rest else (k', v') :: assignKey k v rest

/-- Add to the value at a key, treating a missing key as 0 (model of
`map[k] += v` on a map with numeric values). -/
def addToKey {κ : Type} {ν : Type} [DecidableEq κ] [Add ν] [Zero ν]
    (k : κ) (v : ν) (m : List (κ × ν)) : List (κ × ν) :=
  assignKey k (FindWithDefault m k 0 + v) m

/-! ### Core data model (graph_inference.h / graph_inference.cpp) -/

/-- `GraphFeature` (graph_inference.h lines 130-147): a typed ordered pair of
label ids. -/
structure GraphFeature where
  a_ : Int
  b_ : Int
  type_ : Int
deriving DecidableEq

/-- `GraphQuery::Arc` (graph_inference.cpp lines 183-193). -/
structure Arc where
  node_a : Nat
  node_b : Nat
  type : Int
deriving DecidableEq

/-- `FactorFeaturesLevel` (graph_inference.h lines 67-128): one level of the
multi-level factor candidate tree.  `factor_features` holds (weight, factor)
pairs; `next_level` maps a label id to a child level. -/
inductive FFLevel where
  | mk : List (ℚ × List Int) → List (Int × FFLevel) → FFLevel

/-- The `factor_features` list of a level. -/
def FFLevel.factor_features : FFLevel → List (ℚ × List Int)
  | .mk fs _ => fs

/-- The `next_level` children of a level. -/
def FFLevel.next_level : FFLevel → List (Int × FFLevel)
  | .mk _ nl => nl

/-- `FactorFeaturesLevel::GetFactors` (graph_inference.h lines 101-115).
Descends the tree along the given labels; at the deepest level reached, copies
the first `beam_size` factors.  The C++ advances an erased `multiset` iterator;
its intended value, the element after the erased head, is `giv_labels.tail`'s
head (the value is never used when `giv_labels` becomes empty, so the default 0
is immaterial). -/
def FFLevel.GetFactors : FFLevel → List Int → Int → Nat → List (List Int)
  | lvl, giv_labels, next_level_label, beam_size =>
    match giv_labels with
    | [] => (lvl.factor_features.take beam_size).map (·.2)
    | _ :: rest =>
      if lvl.next_level.isEmpty then
        (lvl.factor_features.take beam_size).map (·.2)
      else
        match alookup next_level_label lvl.next_level with
        | none => (lvl.factor_features.take beam_size).map (·.2)
        | some child => child.GetFactors rest (rest.headD 0) beam_size

/-- The model state of `GraphInference` (graph_inference.h lines 159-247),
restricted to the fields read or written by inference and learning. -/
structure Engine where
  features_ : List (GraphFeature × ℚ)
  factors_set_ : List (List Int)
  factor_features_ : List (Nat × ℚ)
  best_features_for_a_type_ : List ((Int × Int) × List (ℚ × Int))
  best_features_for_b_type_ : List ((Int × Int) × List (ℚ × Int))
  best_features_for_type_ : List (Int × List (ℚ × GraphFeature))
  best_factor_features_first_level_ : List (Int × FFLevel)
  label_frequency_ : List (Int × Int)
  unknown_label_ : Int
  valid_labels_ : List (Int × Bool)
  regularizer_ : ℚ
  svm_margin_ : ℚ
  beam_size_ : Nat

/-- `LabelChecker::IsLabelValid` (label_checker.h lines 32-34). -/
def IsLabelValid (e : Engine) (label : Int) : Bool :=
  FindWithDefault e.valid_labels_ label false

/-- The model state of `GraphQuery` (graph_inference.cpp lines 102-209): the
per-request adjacency, scope and factor incidence tables. -/
structure GraphQuery where
  arcs_ : List Arc
  arcs_adjacent_to_node_ : List (List Arc)
  arcs_connecting_node_pair_ : List ((Nat × Nat) × List Arc)
  nodes_in_scope_ : List (List Nat)
  scopes_per_nodes_ : List (List Nat)
  factors_ : List (List Nat)
  factors_of_a_node_ : List (List Nat)

/-- `GraphNodeAssignment::Assignment` (graph_inference.cpp lines 988-992),
default `(must_infer = false, label = -1)`. -/
structure Assignment where
  must_infer : Bool
  label : Int
deriving DecidableEq

/-- The default-constructed `Assignment`. -/
def defaultAssignment : Assignment := ⟨false, -1⟩

/-- `GraphNodeAssignment::LabelPenalty` (graph_inference.cpp lines 996-1000),
default `(label = -2, penalty = 0)`. -/
structure LabelPenalty where
  label : Int
  penalty : ℚ
deriving DecidableEq

/-- The default-constructed `LabelPenalty`. -/
def defaultPenalty : LabelPenalty := ⟨-2, 0⟩

/-- The label of node `n` (`assignments_[n].label`). -/
def labelAt (asg : List Assignment) (n : Nat) : Int :=
  (asg.getD n defaultAssignment).label

/-- The `must_infer` flag of node `n`. -/
def mustInferAt (asg : List Assignment) (n : Nat) : Bool :=
  (asg.getD n defaultAssignment).must_infer

/-- `arcs_adjacent_to_node_[n]`. -/
def adjAt (q : GraphQuery) (n : Nat) : List Arc :=
  q.arcs_adjacent_to_node_.getD n []

/-- `factors_of_a_node_[n]`. -/
def factorsOfNodeAt (q : GraphQuery) (n : Nat) : List Nat :=
  q.factors_of_a_node_.getD n []

/-- `scopes_per_nodes_[n]`. -/
def scopesAt (q : GraphQuery) (n : Nat) : List Nat :=
  q.scopes_per_nodes_.getD n []

/-- `nodes_in_scope_[s]`. -/
def scopeNodesAt (q : GraphQuery) (s : Nat) : List Nat :=
  q.nodes_in_scope_.getD s []

/-- `factors_[i]` (a multiset of node indices, iterated in ascending order). -/
def factorAt (q : GraphQuery) (i : Nat) : List Nat :=
  q.factors_.getD i []

/-- Set the label of node `n` (`assignments_[n].label = l`). -/
def setLabel (asg : List Assignment) (n : Nat) (l : Int) : List Assignment :=
  asg.set n ⟨mustInferAt asg n, l⟩

/-- `GraphNodeAssignment::GetNodePenalty` (graph_inference.cpp lines 395-397). -/
def GetNodePenalty (asg : List Assignment) (pens : List LabelPenalty) (node : Nat) : ℚ :=
  let p := pens.getD node defaultPenalty
  if labelAt asg node = p.label then p.penalty else 0

/-- Sum of arc-feature weights over a list of arcs under given endpoint labels
(the common loop body of the scoring primitives): missing features contribute
nothing. -/
def arcFeatureSum (e : Engine) (asg : List Assignment) (arcs : List Arc) (init : ℚ) : ℚ :=
  arcs.foldl
    (fun s arc =>
      match alookup (GraphFeature.mk (labelAt asg arc.node_a) (labelAt asg arc.node_b) arc.type) e.features_ with
      | some w => s + w
      | none => s) init

/-- `factorHash` continued from a nonzero initial accumulator (used where the
C++ seeds `hash` with `HashInt(node_label)`). -/
def factorHashFrom (init : Nat) (labels : List Int) : Nat :=
  labels.foldl (fun h l => (h + HashInt (toU64 l)) % U64MOD) init

/-- `GraphNodeAssignment::GetNodeScore` (graph_inference.cpp lines 399-429):
the score contributed by all arcs adjacent to a node plus all factors
containing it, minus the node's penalty. -/
def GetNodeScore (e : Engine) (q : GraphQuery) (asg : List Assignment)
    (pens : List LabelPenalty) (node : Nat) : ℚ :=
  let arcPart := arcFeatureSum e asg (adjAt q node) (-(GetNodePenalty asg pens node))
  (factorsOfNodeAt q node).foldl
    (fun s fi =>
      match alookup (factorHash ((factorAt q fi).map (labelAt asg))) e.factor_features_ with
      | some w => s + w
      | none => s) arcPart

/-- `GraphNodeAssignment::GetNodeScoreGivenAssignmentToANode`
(graph_inference.cpp lines 432-480): as `GetNodeScore` but with label
`node_assignment` substituted at node `node_assigned`; in the factor part, all
occurrences of `node` itself contribute the single seed `HashInt(node_label)`. -/
def GetNodeScoreGivenAssignmentToANode (e : Engine) (q : GraphQuery)
    (asg : List Assignment) (pens : List LabelPenalty)
    (node : Nat) (node_assigned : Nat) (node_assignment : Int) : ℚ :=
  let sub := fun n => if n = node_assigned then node_assignment else labelAt asg n
  let arcPart := (adjAt q node).foldl
    (fun s arc =>
      match alookup (GraphFeature.mk (sub arc.node_a) (sub arc.node_b) arc.type) e.features_ with
      | some w => s + w
      | none => s) (-(GetNodePenalty asg pens node))
  let node_label := if node = node_assigned then node_assignment else labelAt asg node
  (factorsOfNodeAt q node).foldl
    (fun s fi =>
      let h := factorHashFrom (HashInt (toU64 node_label))
        (((factorAt q fi).filter (fun v => v ≠ node)).map (labelAt asg))
      match alookup h e.factor_features_ with
      | some w => s + w
      | none => s) arcPart

/-- `GraphNodeAssignment::GetNodeScoreOnAssignedNodes` (graph_inference.cpp
lines 482-500): restricts the arc sum to arcs whose other endpoint is flagged
assigned; factors are not considered. -/
def GetNodeScoreOnAssignedNodes (e : Engine) (q : GraphQuery)
    (asg : List Assignment) (pens : List LabelPenalty)
    (node : Nat) (assigned : List Bool) : ℚ :=
  ((adjAt q node).filter
      (fun arc => (arc.node_a = node ∨ assigned.getD arc.node_a false) ∧
                  (arc.node_b = node ∨ assigned.getD arc.node_b false))).foldl
    (fun s arc =>
      match alookup (GraphFeature.mk (labelAt asg arc.node_a) (labelAt asg arc.node_b) arc.type) e.features_ with
      | some w => s + w
      | none => s) (-(GetNodePenalty asg pens node))

/-- `GraphNodeAssignment::HasDuplicationConflictsAtNode` (graph_inference.cpp
lines 502-514). -/
def HasDuplicationConflictsAtNode (e : Engine) (q : GraphQuery)
    (asg : List Assignment) (node : Nat) : Bool :=
  let node_label := labelAt asg node
  if node_label = e.unknown_label_ then false
  else
    (scopesAt q node).any (fun scope =>
      (scopeNodesAt q scope).any (fun other =>
        other ≠ node && labelAt asg other = node_label))

/-- Inner loop of `GetNodeWithDuplicationConflict`: scan conflicting nodes
carrying the current candidate (`some (-1)` = none found yet); `none` models the
C++ `return -1` that exits all loops once two distinct conflict nodes appear. -/
def findConflictNode (node : Nat) (node_label : Int) (asg : List Assignment) :
    Option Int → List Nat → Option Int
  | none, _ => none
  | some conflict, [] => some conflict
  | some conflict, other :: rest =>
    if other ≠ node ∧ labelAt asg other = node_label then
      if conflict = -1 then findConflictNode node node_label asg (some (Int.ofNat other)) rest
      else if conflict ≠ Int.ofNat other then none
      else findConflictNode node node_label asg (some conflict) rest
    else findConflictNode node node_label asg (some conflict) rest

/-- `GraphNodeAssignment::GetNodeWithDuplicationConflict` (graph_inference.cpp
lines 517-534): the unique other node sharing a scope and the same label, or
`-1` if none or several. -/
def GetNodeWithDuplicationConflict (q : GraphQuery) (asg : List Assignment)
    (node : Nat) : Int :=
  ((scopesAt q node).foldl
      (fun conflict scope =>
        findConflictNode node (labelAt asg node) asg conflict (scopeNodesAt q scope))
      (some (-1))).getD (-1)

/-- `GraphNodeAssignment::GetNodePairScore` (graph_inference.cpp lines
537-550). -/
def GetNodePairScore (e : Engine) (q : GraphQuery)
    (node1 node2 : Nat) (label1 label2 : Int) : ℚ :=
  (FindWithDefault q.arcs_connecting_node_pair_ (node1, node2) []).foldl
    (fun s arc =>
      let f := if arc.node_a = node1 then GraphFeature.mk label1 label2 arc.type
               else GraphFeature.mk label2 label1 arc.type
      match alookup f e.features_ with
      | some w => s + w
      | none => s) 0

/-- Tail of `std::unique`: drop elements equal to the last kept element `x`. -/
def eraseAdjDupFrom (x : Int) : List Int → List Int
  | [] => []
  | y :: rest => if x = y then eraseAdjDupFrom x rest else y :: eraseAdjDupFrom y rest

/-- `std::unique` on an already materialized list: drop adjacent duplicates. -/
def eraseAdjDup : List Int → List Int
  | [] => []
  | x :: rest => x :: eraseAdjDupFrom x rest

/-- `GraphNodeAssignment::GetLabelCandidates` (graph_inference.cpp lines
567-594): for each adjacent arc gather the top `beam_size` candidate labels
from the pre-indexed tables, then sort ascending and deduplicate. -/
def GetLabelCandidates (e : Engine) (q : GraphQuery) (asg : List Assignment)
    (node : Nat) (beam_size : Nat) : List Int :=
  let gathered := (adjAt q node).foldl
    (fun acc arc =>
      let acc :=
        if arc.node_a = node then
          acc ++ ((FindWithDefault e.best_features_for_b_type_
                    (labelAt asg arc.node_b, arc.type) []).take beam_size).map (·.2)
        else acc
      if arc.node_b = node then
        acc ++ ((FindWithDefault e.best_features_for_a_type_
                  (labelAt asg arc.node_a, arc.type) []).take beam_size).map (·.2)
      else acc) []
  eraseAdjDup (gathered.insertionSort (fun x y => x ≤ y))

/-- `GraphNodeAssignment::GetFactorCandidates` (graph_inference.cpp lines
556-565). -/
def GetFactorCandidates (e : Engine) (factor_size : Nat) (giv_labels : List Int)
    (beam_size : Nat) : List (List Int) :=
  let v := FindWithDefault e.best_factor_features_first_level_ (Int.ofNat factor_size)
    (FFLevel.mk [] [])
  v.GetFactors giv_labels (giv_labels.headD 0) beam_size

/-- `GraphNodeAssignment::ReplaceLabelsWithUnknown` (graph_inference.cpp lines
596-602): replace the label of every node (given or inferred) whose label is
absent from the label-frequency table with the unknown label. -/
def ReplaceLabelsWithUnknown (e : Engine) (asg : List Assignment) : List Assignment :=
  asg.map (fun a =>
    if alookup a.label e.label_frequency_ = none then ⟨a.must_infer, e.unknown_label_⟩
    else a)

/-- `GraphNodeAssignment::GetTotalScore` (graph_inference.cpp lines 604-624):
the sum of arc-feature weights over all arcs minus all penalties (factor
features are not included by this function). -/
def GetTotalScore (e : Engine) (q : GraphQuery) (asg : List Assignment)
    (pens : List LabelPenalty) : ℚ :=
  arcFeatureSum e asg q.arcs_ 0 -
    ((List.range asg.length).foldl (fun s i => s + GetNodePenalty asg pens i) 0)

/-- `GraphNodeAssignment::GetAffectedFeatures` (graph_inference.cpp lines
626-636): add `gradient_weight` to the gradient entry of the feature of every
arc under the current labels. -/
def GetAffectedFeatures (q : GraphQuery) (asg : List Assignment)
    (affected : List (GraphFeature × ℚ)) (gradient_weight : ℚ) :
    List (GraphFeature × ℚ) :=
  q.arcs_.foldl
    (fun m arc =>
      addToKey (GraphFeature.mk (labelAt asg arc.node_a) (labelAt asg arc.node_b) arc.type)
        gradient_weight m) affected

/-- `GraphNodeAssignment::GetAffectedFactorFeatures` (graph_inference.cpp lines
638-648): add `gradient_weight` at the factor hash of every factor under the
current labels. -/
def GetAffectedFactorFeatures (q : GraphQuery) (asg : List Assignment)
    (affected : List (Nat × ℚ)) (gradient_weight : ℚ) : List (Nat × ℚ) :=
  q.factors_.foldl
    (fun m f => addToKey (factorHash (f.map (labelAt asg))) gradient_weight m) affected

/-- `GraphNodeAssignment::GetNeighboringAffectedFeatures` (graph_inference.cpp
lines 652-672): gradient contributions of the arcs adjacent to `node` with
`label` substituted at `node`. -/
def GetNeighboringAffectedFeatures (q : GraphQuery) (asg : List Assignment)
    (affected : List (GraphFeature × ℚ)) (node : Nat) (label : Int)
    (gradient_weight : ℚ) : List (GraphFeature × ℚ) :=
  (adjAt q node).foldl
    (fun m arc =>
      let la := if arc.node_a = node then label else labelAt asg arc.node_a
      let lb := if arc.node_b = node then label else labelAt asg arc.node_b
      addToKey (GraphFeature.mk la lb arc.type) gradient_weight m) affected

/-- `GraphNodeAssignment::GetFactorAffectedFeaturesOfNode` (graph_inference.cpp
lines 674-691): gradient contributions at the hashes of the factors containing
`node`, with `label` substituted for `node` (all occurrences of `node`
contributing the single seed `HashInt(label)`). -/
def GetFactorAffectedFeaturesOfNode (q : GraphQuery) (asg : List Assignment)
    (affected : List (Nat × ℚ)) (node : Nat) (label : Int)
    (gradient_weight : ℚ) : List (Nat × ℚ) :=
  (factorsOfNodeAt q node).foldl
    (fun m fi =>
      let h := factorHashFrom (HashInt (toU64 label))
        (((factorAt q fi).filter (fun v => v ≠ node)).map (labelAt asg))
      addToKey h gradient_weight m) affected

/-! ### UpdatablePriorityQueue (base/updatable_priority_queue.h) -/

/-- Sorted-set insert of a `(value, key)` pair under the lexicographic pair
order of `std::set<std::pair<int, int>>`; a present pair is not duplicated. -/
def insertPairSorted (p : Int × Nat) : List (Int × Nat) → List (Int × Nat)
  | [] => [p]
  | q :: rest =>
    if p = q then q :: rest
    else if p.1 < q.1 ∨ (p.1 = q.1 ∧ p.2 < q.2) then p :: q :: rest
    else q :: insertPairSorted p rest

/-- Sorted-set erase of an exact `(value, key)` pair. -/
def erasePairSorted (p : Int × Nat) : List (Int × Nat) → List (Int × Nat)
  | [] => []
  | q :: rest => if p = q then rest else q :: erasePairSorted p rest

/-- `UpdatablePriorityQueue` over `int` keys and `int` values
(base/updatable_priority_queue.h lines 24-64). -/
structure UPQueue where
  value_for_key_ : List (Nat × Int)
  permanently_removed_keys_ : List Nat
  keys_sorted_by_value_ : List (Int × Nat)

/-- The empty queue. -/
def emptyUPQueue : UPQueue := ⟨[], [], []⟩

/-- `UpdatablePriorityQueue::GetValue`: 0 for an unknown key. -/
def UPQueue.GetValue (q : UPQueue) (key : Nat) : Int :=
  FindWithDefault q.value_for_key_ key 0

/-- `UpdatablePriorityQueue::SetValue`: reposition the key in the sorted set
unless permanently removed, and record the value. -/
def UPQueue.SetValue (q : UPQueue) (key : Nat) (value : Int) : UPQueue :=
  let sorted :=
    if key ∈ q.permanently_removed_keys_ then q.keys_sorted_by_value_
    else insertPairSorted (value, key) (erasePairSorted (q.GetValue key, key) q.keys_sorted_by_value_)
  ⟨assignKey key value q.value_for_key_, q.permanently_removed_keys_, sorted⟩

/-- `UpdatablePriorityQueue::PermanentlyRemoveKeyFromQueue`. -/
def UPQueue.PermanentlyRemoveKeyFromQueue (q : UPQueue) (key : Nat) : UPQueue :=
  ⟨q.value_for_key_, key :: q.permanently_removed_keys_,
    erasePairSorted (q.GetValue key, key) q.keys_sorted_by_value_⟩

/-- `UpdatablePriorityQueue::IsEmpty`. -/
def UPQueue.IsEmpty (q : UPQueue) : Bool := q.keys_sorted_by_value_.isEmpty

/-- `UpdatablePriorityQueue::GetKeyWithMinValue` (the key of the least
`(value, key)` pair). -/
def UPQueue.GetKeyWithMinValue (q : UPQueue) : Nat :=
  (q.keys_sorted_by_value_.headD (0, 0)).2

/-! ### Inference passes (graph_inference.cpp) -/

/-- `kInitialAssignmentBeamSize` (graph_inference.cpp line 63). -/
def kInitialAssignmentBeamSize : Nat := 4

/-- `kStartPerNodeBeamSize` = `kStartPerArcBeamSize` (lines 65, 68). -/
def kStartBeamSize : Nat := 4

/-- `kMaxPerNodeBeamSize` = `kMaxPerArcBeamSize` (lines 66, 69). -/
def kMaxBeamSize : Nat := 64

/-- `kLoopyBPBeamSize` (line 70). -/
def kLoopyBPBeamSize : Nat := 32

/-- Candidate scan of `InitialGreedyAssignmentPass` (graph_inference.cpp lines
726-737): best label among the candidates by score on assigned neighbours,
skipping invalid and scope-conflicting ones; strict improvement only. -/
def greedyBestLabel (e : Engine) (q : GraphQuery) (asg : List Assignment)
    (pens : List LabelPenalty) (node : Nat) (assigned : List Bool)
    (candidates : List Int) : Int :=
  let best0 := (GetNodeScoreOnAssignedNodes e q asg pens node assigned, labelAt asg node)
  (candidates.foldl
    (fun best c =>
      let asg' := setLabel asg node c
      if ¬IsLabelValid e c then best
      else if HasDuplicationConflictsAtNode e q asg' node then best
      else
        let score := GetNodeScoreOnAssignedNodes e q asg' pens node assigned
        if score > best.1 then (score, c) else best) best0).2

/-- One iteration of the greedy-pass main loop (graph_inference.cpp lines
710-740): extract the node with most assigned neighbours, decrement the
priorities of its neighbours, and (for an infer node with candidates) assign
its best label and mark it assigned. -/
def greedyStep (e : Engine) (q : GraphQuery) (pens : List LabelPenalty)
    (st : UPQueue × List Bool × List Assignment) :
    UPQueue × List Bool × List Assignment :=
  let (pq, assigned, asg) := st
  let node := pq.GetKeyWithMinValue
  let pq := pq.PermanentlyRemoveKeyFromQueue node
  let pq := (adjAt q node).foldl
    (fun pq arc =>
      if arc.node_a = node then pq.SetValue arc.node_b (pq.GetValue arc.node_b - 1)
      else if arc.node_b = node then pq.SetValue arc.node_a (pq.GetValue arc.node_a - 1)
      else pq) pq
  if ¬mustInferAt asg node then (pq, assigned, asg)
  else
    let candidates := GetLabelCandidates e q asg node kInitialAssignmentBeamSize
    if candidates = [] then (pq, assigned, asg)
    else
      let asg := setLabel asg node (greedyBestLabel e q asg pens node assigned candidates)
      (pq, assigned.set node true, asg)

/-- The greedy-pass main loop, driven by the queue until empty; the fuel bounds
the iteration count (each iteration permanently removes one key, and only node
indices touched by the initialization or by arc endpoints ever enter the
queue, so the fuel below suffices for every reachable input). -/
def greedyLoop (e : Engine) (q : GraphQuery) (pens : List LabelPenalty) :
    Nat → UPQueue × List Bool × List Assignment → UPQueue × List Bool × List Assignment
  | 0, st => st
  | fuel + 1, st =>
    if st.1.IsEmpty then st
    else greedyLoop e q pens fuel (greedyStep e q pens st)

/-- `GraphNodeAssignment::InitialGreedyAssignmentPass` (graph_inference.cpp
lines 693-742). -/
def InitialGreedyAssignmentPass (e : Engine) (q : GraphQuery)
    (pens : List LabelPenalty) (asg : List Assignment) : List Assignment :=
  let assigned := asg.map (fun a => !a.must_infer)
  let pq := (List.range asg.length).foldl
    (fun pq node =>
      if mustInferAt asg node then
        let score := ((adjAt q node).filter
          (fun arc => assigned.getD arc.node_a false || assigned.getD arc.node_b false)).length
        pq.SetValue node (-(Int.ofNat score))
      else pq) emptyUPQueue
  let fuel := asg.length +
    2 * q.arcs_adjacent_to_node_.foldl (fun n l => n + l.length) 0 + 1
  (greedyLoop e q pens fuel (pq, assigned, asg)).2.2

/-- Per-node step of `LocalPerNodeOptimizationPass` (graph_inference.cpp lines
746-774): set the node's label to the best-scoring candidate (strict
improvement; invalid and scope-conflicting candidates skipped). -/
def perNodeStep (e : Engine) (q : GraphQuery) (pens : List LabelPenalty)
    (beam_size : Nat) (asg : List Assignment) (node : Nat) : List Assignment :=
  if ¬mustInferAt asg node then asg
  else
    let candidates := GetLabelCandidates e q asg node beam_size
    if candidates = [] then asg
    else
      let best0 := (GetNodeScore e q asg pens node, labelAt asg node)
      let best := candidates.foldl
        (fun best c =>
          let asg' := setLabel asg node c
          if ¬IsLabelValid e c then best
          else if HasDuplicationConflictsAtNode e q asg' node then best
          else
            let score := GetNodeScore e q asg' pens node
            if score > best.1 then (score, c) else best) best0
      setLabel asg node best.2

/-- `GraphNodeAssignment::LocalPerNodeOptimizationPass` (graph_inference.cpp
lines 744-775). -/
def LocalPerNodeOptimizationPass (e : Engine) (q : GraphQuery)
    (pens : List LabelPenalty) (beam_size : Nat) (asg : List Assignment) :
    List Assignment :=
  (List.range asg.length).foldl (perNodeStep e q pens beam_size) asg

/-- The candidate scan of the duplicate-name-resolving per-node step
(graph_inference.cpp lines 786-812).  The accumulator carries
`(best_score, best_label, best_node2)` with `best_node2 = -1` when the best
move is a plain substitution. -/
def dupCandidateStep (e : Engine) (q : GraphQuery) (pens : List LabelPenalty)
    (asg : List Assignment) (node : Nat) (initial_label : Int)
    (best : ℚ × Int × Int) (c : Int) : ℚ × Int × Int :=
  let asg' := setLabel asg node c
  if ¬IsLabelValid e c then best
  else if HasDuplicationConflictsAtNode e q asg' node then
    let node2 := GetNodeWithDuplicationConflict q asg' node
    if node2 = -1 ∨ ¬mustInferAt asg' node2.toNat then best
    else
      let n2 := node2.toNat
      let asg2 := setLabel asg' n2 initial_label
      let score := GetNodeScore e q asg2 pens node + GetNodeScore e q asg2 pens n2
      let correct := ¬HasDuplicationConflictsAtNode e q asg2 n2 ∧
                     ¬HasDuplicationConflictsAtNode e q asg2 node
      if correct then
        let score := score - GetNodeScore e q asg' pens n2
        if score > best.1 then (score, c, node2) else best
      else best
  else
    let score := GetNodeScore e q asg' pens node
    if score > best.1 then (score, c, -1) else best

/-- Per-node step of the duplicate-name-resolving variant (graph_inference.cpp
lines 777-820). -/
def perNodeDupStep (e : Engine) (q : GraphQuery) (pens : List LabelPenalty)
    (beam_size : Nat) (asg : List Assignment) (node : Nat) : List Assignment :=
  if ¬mustInferAt asg node then asg
  else
    let candidates := GetLabelCandidates e q asg node beam_size
    if candidates = [] then asg
    else
      let initial_label := labelAt asg node
      let best0 : ℚ × Int × Int := (GetNodeScore e q asg pens node, initial_label, -1)
      let best := candidates.foldl (dupCandidateStep e q pens asg node initial_label) best0
      let asg := setLabel asg node best.2.1
      if best.2.2 ≠ -1 then setLabel asg best.2.2.toNat initial_label else asg

/-- `GraphNodeAssignment::LocalPerNodeOptimizationPassWithDuplicateNameResolution`
(graph_inference.cpp lines 777-820). -/
def LocalPerNodeOptimizationPassWithDuplicateNameResolution (e : Engine)
    (q : GraphQuery) (pens : List LabelPenalty) (beam_size : Nat)
    (asg : List Assignment) : List Assignment :=
  (List.range asg.length).foldl (perNodeDupStep e q pens beam_size) asg

/-- Per-arc step of `LocalPerArcOptimizationPass` (graph_inference.cpp lines
824-866): propose the top `beam_size` label pairs for the arc's type and keep
the best scope-legal, validator-legal one by joint node score. -/
def perArcStep (e : Engine) (q : GraphQuery) (pens : List LabelPenalty)
    (beam_size : Nat) (skip_degree : Int) (asg : List Assignment) (arc : Arc) :
    List Assignment :=
  if arc.node_a = arc.node_b then asg
  else if ¬mustInferAt asg arc.node_a ∨ ¬mustInferAt asg arc.node_b then asg
  else if Int.ofNat (adjAt q arc.node_a).length > skip_degree then asg
  else if Int.ofNat (adjAt q arc.node_b).length > skip_degree then asg
  else
    let candidates := FindWithDefault e.best_features_for_type_ arc.type []
    if candidates = [] then asg
    else
      let best0 : Int × Int × ℚ :=
        (labelAt asg arc.node_a, labelAt asg arc.node_b,
          GetNodeScore e q asg pens arc.node_a + GetNodeScore e q asg pens arc.node_b)
      let best := (candidates.take beam_size).foldl
        (fun best cand =>
          let asg' := setLabel (setLabel asg arc.node_a cand.2.a_) arc.node_b cand.2.b_
          if HasDuplicationConflictsAtNode e q asg' arc.node_a ∨
             HasDuplicationConflictsAtNode e q asg' arc.node_b then best
          else if ¬IsLabelValid e cand.2.a_ then best
          else if ¬IsLabelValid e cand.2.b_ then best
          else
            let score := GetNodeScore e q asg' pens arc.node_a +
                         GetNodeScore e q asg' pens arc.node_b
            if score > best.2.2 then (cand.2.a_, cand.2.b_, score) else best) best0
      setLabel (setLabel asg arc.node_a best.1) arc.node_b best.2.1

/-- `GraphNodeAssignment::LocalPerArcOptimizationPass` (graph_inference.cpp
lines 822-867). -/
def LocalPerArcOptimizationPass (e : Engine) (q : GraphQuery)
    (pens : List LabelPenalty) (beam_size : Nat) (skip_degree : Int)
    (asg : List Assignment) : List Assignment :=
  q.arcs_.foldl (perArcStep e q pens beam_size skip_degree) asg

/-! ### Factorial and permutation enumeration (graph_inference.cpp lines 77-87
and 938-954) -/

/-- `CalculateFactorial`'s descending product loop with overflow check; the C++
returns `-1`, which as `uint64` is `UINT64_MAX`, as soon as the next
multiplication would overflow. -/
def calcFactorialAux : Nat → Nat → Nat
  | 0, result => result
  | i + 1, result =>
    if result > UINT64MAX / (i + 1) then UINT64MAX
    else calcFactorialAux i (result * (i + 1))

/-- `CalculateFactorial` (graph_inference.cpp lines 77-87): `n!` as `uint64`,
or `UINT64_MAX` (the `uint64` reading of the returned `-1`) on overflow. -/
def CalculateFactorial (n : Nat) : Nat := calcFactorialAux n 1

/-- The C++ branch guard `num_permutations < 0` compares an unsigned 64-bit
value against 0 and is therefore identically false. -/
def numPermutationsLtZero : Bool := false

/-- The condition under which `LocalPerFactorOptimizationPass` samples random
permutations instead of enumerating lexicographically (graph_inference.cpp
line 941): `num_permutations < 0 || num_permutations > permutations_beam_size`
on `uint64` values. -/
def usesSampling (k : Nat) (permutations_beam_size : Nat) : Bool :=
  numPermutationsLtZero || decide (CalculateFactorial k > permutations_beam_size)

/-- Extract the first element greater than `p` from an ascending list,
substituting `p` in its place (the swap step of `std::next_permutation`,
operating on the reversed non-increasing suffix). -/
def replaceFirstGreater (p : Int) : List Int → Int × List Int
  | [] => (p, [])
  | x :: xs =>
    if p < x then (x, p :: xs)
    else
      let r := replaceFirstGreater p xs
      (r.1, x :: r.2)

/-- Scan for the pivot of `std::next_permutation`.  The first argument is the
(non-increasing) suffix already scanned, the second the reverse of the rest of
the sequence; when the next element `p` is smaller than the suffix head, the
pivot is found and the successor permutation is assembled. -/
def nextPermAux (suff : List Int) : List Int → Option (List Int)
  | [] => none
  | p :: rest =>
    match suff with
    | [] => nextPermAux [p] rest
    | s :: _ =>
      if p < s then
        let r := replaceFirstGreater p suff.reverse
        some (rest.reverse ++ r.1 :: r.2)
      else nextPermAux (p :: suff) rest

/-- `std::next_permutation` on a list of label ids: the lexicographic successor
permutation, or `none` when the list is already the lexicographically last
permutation (the C++ then returns `false`, ending the enumeration loop). -/
def nextPermutation (l : List Int) : Option (List Int) := nextPermAux [] l.reverse

/-- The lexicographic enumeration loop (graph_inference.cpp lines 948-953):
a `do`/`while` that evaluates the current permutation, then continues while
`std::next_permutation` succeeds and fewer than `beam` permutations have been
evaluated.  Returns the list of evaluated permutations in order. -/
def lexPermLoopAux (beam : Nat) : Nat → Nat → List Int → List (List Int)
  | 0, _, cur => [cur]
  | fuel + 1, count, cur =>
    match nextPermutation cur with
    | some nxt =>
      if count + 1 < beam then cur :: lexPermLoopAux beam fuel (count + 1) nxt
      else [cur]
    | none => [cur]

/-- Entry point of the lexicographic enumeration loop; the structural fuel
`beam - count` is exact: the loop body continues only while `count + 1 < beam`,
so the fuel never runs out before the loop condition fails. -/
def lexPermLoop (beam : Nat) (count : Nat) (cur : List Int) : List (List Int) :=
  lexPermLoopAux beam (beam - count) count cur

/-- The random-sampling loop (graph_inference.cpp lines 942-946): evaluate the
current label sequence, then shuffle, exactly `beam` times.  `shuffle i`
models the `std::random_shuffle` call of iteration `i` (the C++ library
shuffle driven by the global generator). -/
def samplePermLoopAux (shuffle : Nat → List Int → List Int) (beam : Nat) :
    Nat → Nat → List Int → List (List Int)
  | 0, _, _ => []
  | fuel + 1, count, cur =>
    if count < beam then
      cur :: samplePermLoopAux shuffle beam fuel (count + 1) (shuffle count cur)
    else []

/-- Entry point of the sampling loop; the structural fuel `beam - count` is
exact: the loop continues only while `count < beam`. -/
def samplePermLoop (shuffle : Nat → List Int → List Int) (beam : Nat)
    (count : Nat) (cur : List Int) : List (List Int) :=
  samplePermLoopAux shuffle beam (beam - count) count cur

/-- The sequence of label assignments evaluated for one candidate factor
(graph_inference.cpp lines 938-954): random-shuffle samples when
`usesSampling`, otherwise lexicographic enumeration from the ascending sort. -/
def permutationSequence (permutations_beam_size : Nat)
    (shuffle : Nat → List Int → List Int) (candidate_inf_labels : List Int) :
    List (List Int) :=
  if usesSampling candidate_inf_labels.length permutations_beam_size then
    samplePermLoop shuffle permutations_beam_size 0 candidate_inf_labels
  else
    lexPermLoop permutations_beam_size 0
      (candidate_inf_labels.insertionSort (fun x y => x ≤ y))

/-- `GraphNodeAssignment::PerformPermutationOptimization` (graph_inference.cpp
lines 962-985).  The state is `(assignments, best_assignments, best_score)`;
the labels written to the factor's infer nodes persist even when the
permutation is rejected for a scope conflict, exactly as in the C++ (which
returns without reverting). -/
def PerformPermutationOptimization (e : Engine) (q : GraphQuery)
    (pens : List LabelPenalty) (inf_nodes : List Nat)
    (candidate_inf_labels : List Int)
    (st : List Assignment × List Int × ℚ) : List Assignment × List Int × ℚ :=
  let asg := (inf_nodes.zip candidate_inf_labels).foldl
    (fun a p => setLabel a p.1 p.2) st.1
  if inf_nodes.any (fun n => HasDuplicationConflictsAtNode e q asg n) then
    (asg, st.2)
  else
    let score := inf_nodes.foldl (fun s n => s + GetNodeScore e q asg pens n) 0
    if score > st.2.2 then (asg, inf_nodes.map (labelAt asg), score)
    else (asg, st.2)

/-- Ascending (multiset) insert, modelling `std::multiset<int>::insert`. -/
def insertSortedInt (x : Int) : List Int → List Int
  | [] => [x]
  | y :: rest => if x ≤ y then x :: y :: rest else y :: insertSortedInt x rest

/-- Evaluation of one candidate factor (graph_inference.cpp lines 906-956):
split the candidate into covered given labels and free labels, skip it when a
free label is validator-invalid, and otherwise evaluate every permutation of
the free labels in the permutation sequence. -/
def factorCandidateStep (e : Engine) (q : GraphQuery) (pens : List LabelPenalty)
    (permutations_beam_size : Nat) (shuffle : Nat → List Int → List Int)
    (inf_nodes : List Nat) (giv_labels : List Int)
    (st : List Assignment × List Int × ℚ) (fc : List Int) :
    List Assignment × List Int × ℚ :=
  let split := fc.foldl
    (fun (p : List Int × List Int) l =>
      if l ∈ p.1 then (p.1.erase l, p.2) else (p.1, p.2 ++ [l]))
    (giv_labels, [])
  let candidate_inf_labels := split.2
  if ¬candidate_inf_labels.all (fun l => IsLabelValid e l) then st
  else
    (permutationSequence permutations_beam_size shuffle candidate_inf_labels).foldl
      (fun st perm => PerformPermutationOptimization e q pens inf_nodes perm st)
      st

/-- Per-factor step of `LocalPerFactorOptimizationPass` (graph_inference.cpp
lines 872-959): split the factor into infer nodes and given labels, fetch
candidate factors, filter those covering the given labels, and evaluate the
permutation sequence of each candidate's free labels, finally committing the
best assignment found. -/
def perFactorStep (e : Engine) (q : GraphQuery) (pens : List LabelPenalty)
    (factors_limit : Nat) (permutations_beam_size : Nat)
    (shuffle : Nat → List Int → List Int) (asg : List Assignment)
    (factor : List Nat) : List Assignment :=
  let inf_nodes := factor.filter (fun v => mustInferAt asg v)
  let giv_labels := factor.foldl
    (fun g v => if mustInferAt asg v then g else insertSortedInt (labelAt asg v) g) []
  let factors := GetFactorCandidates e factor.length giv_labels factors_limit
  let best_score := inf_nodes.foldl (fun s n => s + GetNodeScore e q asg pens n) 0
  let best_assignments := inf_nodes.map (labelAt asg)
  let factors_candidates := factors.filter
    (fun fc => giv_labels.all (fun l => giv_labels.count l ≤ fc.count l))
  let final := factors_candidates.foldl
    (factorCandidateStep e q pens permutations_beam_size shuffle inf_nodes giv_labels)
    (asg, best_assignments, best_score)
  (inf_nodes.zip final.2.1).foldl (fun a p => setLabel a p.1 p.2) final.1

/-- `GraphNodeAssignment::LocalPerFactorOptimizationPass` (graph_inference.cpp
lines 870-960). -/
def LocalPerFactorOptimizationPass (e : Engine) (q : GraphQuery)
    (pens : List LabelPenalty) (factors_limit : Nat)
    (permutations_beam_size : Nat) (shuffle : Nat → List Int → List Int)
    (asg : List Assignment) : List Assignment :=
  q.factors_.foldl (perFactorStep e q pens factors_limit permutations_beam_size shuffle) asg

/-! ### Loopy belief propagation (graph_inference.cpp lines 1017-1192) -/

/-- `LoopyBPInference::IncomingMessage` (lines 1081-1086), default
`(label = -1, score = 0)`. -/
structure IncomingMessage where
  label : Int
  score : ℚ
deriving DecidableEq

/-- The default-constructed `IncomingMessage`. -/
def defaultMessage : IncomingMessage := ⟨-1, 0⟩

/-- `LoopyBPInference::BPScore` (lines 1088-1092). -/
structure BPScore where
  total_score : ℚ
  incoming_node_to_message : List (Nat × IncomingMessage)

/-- The default-constructed (`empty_bp_score_`) entry. -/
def emptyBPScore : BPScore := ⟨0, []⟩

/-- The mutable state of `LoopyBPInference`: the `(node, label) → BPScore` map
in insertion order and the per-node label lists. -/
structure BPState where
  node_label_to_score_ : List ((Nat × Int) × BPScore)
  labels_at_node_ : List (List Int)

/-- `labels_at_node_[n]`. -/
def bpLabelsAt (st : BPState) (n : Nat) : List Int :=
  st.labels_at_node_.getD n []

/-- `LoopyBPInference::PutPossibleLabelAtNode` (lines 1166-1182): first-time
insertion of a `(node, label)` entry, seeded with the negated penalty when the
label is the node's penalized label, and one default incoming message per
adjacent-arc neighbour. -/
def PutPossibleLabelAtNode (q : GraphQuery) (pens : List LabelPenalty)
    (st : BPState) (node : Nat) (label : Int) : BPState :=
  if (alookup (node, label) st.node_label_to_score_).isSome then st
  else
    let pen := pens.getD node defaultPenalty
    let total := if label = pen.label then -pen.penalty else 0
    let incoming := (adjAt q node).foldl
      (fun inc arc =>
        let inc := if arc.node_a = node then assignKey arc.node_b defaultMessage inc else inc
        if arc.node_b = node then assignKey arc.node_a defaultMessage inc else inc) []
    ⟨st.node_label_to_score_ ++ [((node, label), ⟨total, incoming⟩)],
      st.labels_at_node_.set node (bpLabelsAt st node ++ [label])⟩

/-- `LoopyBPInference::PutPossibleLabelsAtAdjacentNodes` (lines 1142-1164). -/
def PutPossibleLabelsAtAdjacentNodes (e : Engine) (q : GraphQuery)
    (asg : List Assignment) (pens : List LabelPenalty) (st : BPState)
    (node : Nat) (label : Int) (beam_size : Nat) : BPState :=
  (adjAt q node).foldl
    (fun st arc =>
      let st :=
        if arc.node_a = node ∧ mustInferAt asg arc.node_b then
          ((FindWithDefault e.best_features_for_a_type_ (label, arc.type) []).take
            beam_size).foldl (fun st v => PutPossibleLabelAtNode q pens st arc.node_b v.2) st
        else st
      if arc.node_b = node ∧ mustInferAt asg arc.node_a then
        ((FindWithDefault e.best_features_for_b_type_ (label, arc.type) []).take
          beam_size).foldl (fun st v => PutPossibleLabelAtNode q pens st arc.node_a v.2) st
      else st) st

/-- `LoopyBPInference::InitPossibleLabels` (lines 1184-1191). -/
def InitPossibleLabels (e : Engine) (q : GraphQuery) (asg : List Assignment)
    (pens : List LabelPenalty) : BPState :=
  (List.range asg.length).foldl
    (fun st i =>
      if mustInferAt asg i then
        PutPossibleLabelsAtAdjacentNodes e q asg pens
          (PutPossibleLabelAtNode q pens st i (labelAt asg i))
          i (labelAt asg i) kLoopyBPBeamSize
      else st)
    ⟨[], asg.map (fun _ => [])⟩

/-- `LoopyBPInference::GetBestMessageFromNode` (lines 1101-1119). -/
def GetBestMessageFromNode (e : Engine) (q : GraphQuery) (asg : List Assignment)
    (st : BPState) (from_node to_node : Nat) (to_label : Int) : IncomingMessage :=
  if ¬mustInferAt asg from_node then
    let from_label := labelAt asg from_node
    ⟨from_label, GetNodePairScore e q from_node to_node from_label to_label⟩
  else
    (bpLabelsAt st from_node).foldl
      (fun best from_label =>
        match alookup (from_node, from_label) st.node_label_to_score_ with
        | none => best
        | some entry =>
          let node_score := entry.total_score -
            (FindWithDefault entry.incoming_node_to_message to_node defaultMessage).score
          let current_score := node_score +
            GetNodePairScore e q from_node to_node from_label to_label
          if current_score > best.score then ⟨from_label, current_score⟩ else best)
      ⟨-1, 0⟩

/-- One message update inside `PullMessagesFromAdjacentNodes` (lines
1130-1136): recompute the incoming message from `from_node` to the
`(node, label)` entry against the current state, add the score delta to the
entry's total, and store the new message. -/
def pullOneMessage (e : Engine) (q : GraphQuery) (asg : List Assignment)
    (st : BPState) (node : Nat) (label : Int) (from_node : Nat) : BPState :=
  match alookup (node, label) st.node_label_to_score_ with
  | none => st
  | some entry =>
    let old_msg := FindWithDefault entry.incoming_node_to_message from_node defaultMessage
    let new_msg := GetBestMessageFromNode e q asg st from_node node label
    let entry' : BPScore :=
      ⟨entry.total_score + (new_msg.score - old_msg.score),
        assignKey from_node new_msg entry.incoming_node_to_message⟩
    ⟨updateExisting (node, label) (fun _ => entry') st.node_label_to_score_,
      st.labels_at_node_⟩

/-- `LoopyBPInference::PullMessagesFromAdjacentNodes` (lines 1121-1140): for
every node, every label at that node, and every incoming neighbour (in stored
order), refresh the message. -/
def PullMessagesFromAdjacentNodes (e : Engine) (q : GraphQuery)
    (asg : List Assignment) (st : BPState) : BPState :=
  (List.range asg.length).foldl
    (fun st node =>
      (bpLabelsAt st node).foldl
        (fun st label =>
          let keys : List Nat :=
            match alookup (node, label) st.node_label_to_score_ with
            | none => []
            | some entry => entry.incoming_node_to_message.map (fun kv => kv.1)
          keys.foldl (fun st from_node => pullOneMessage e q asg st node label from_node) st)
        st)
    st

/-- Descending order used by `TraceBack`'s sort (line 1041):
`std::greater<std::pair<double, IntPair>>`, i.e. lexicographic `≥` on
`(score, (node, label))`. -/
def traceEntryGE (x y : ℚ × (Nat × Int)) : Prop :=
  x.1 > y.1 ∨ (x.1 = y.1 ∧ (x.2.1 > y.2.1 ∨ (x.2.1 = y.2.1 ∧ x.2.2 ≥ y.2.2)))

instance : DecidableRel traceEntryGE := fun x y => by
  unfold traceEntryGE
  exact inferInstance

/-- The breadth-first propagation of `TraceBack` (lines 1043-1059): pop a
`(node, label)` pair, skip it if the node is visited, otherwise mark the node,
assign the label when the node is an infer node, and enqueue the best-incoming
`(neighbour, message label)` pairs of its entry. -/
def traceBFS (asg0 : List Assignment) (st : BPState) :
    Nat → List (Nat × Int) → List Bool → List Assignment →
    List Bool × List Assignment
  | 0, _, visited, asg => (visited, asg)
  | _ + 1, [], visited, asg => (visited, asg)
  | fuel + 1, (node, label) :: queue, visited, asg =>
    if visited.getD node false then traceBFS asg0 st fuel queue visited asg
    else
      let visited := visited.set node true
      let asg := if mustInferAt asg0 node then setLabel asg node label else asg
      let entry := FindWithDefault st.node_label_to_score_ (node, label) emptyBPScore
      let queue := queue ++ entry.incoming_node_to_message.map
        (fun kv => (kv.1, kv.2.label))
      traceBFS asg0 st fuel queue visited asg

/-- `LoopyBPInference::TraceBack` (lines 1034-1061).  The fuel bounds the total
number of queue pops per anchor; each pop either discards a visited node or
marks a new one and enqueues at most the maximal incoming-list length, so the
bound below suffices for every reachable input. -/
def TraceBack (asg : List Assignment) (st : BPState) : List Assignment :=
  let scores := st.node_label_to_score_.map (fun kv => (kv.2.total_score, kv.1))
  let sorted := scores.insertionSort traceEntryGE
  let maxInc := st.node_label_to_score_.foldl
    (fun m kv => max m kv.2.incoming_node_to_message.length) 0
  let fuel := 1 + asg.length * (1 + maxInc) + st.node_label_to_score_.length
  (sorted.foldl
    (fun (acc : List Bool × List Assignment) sc =>
      traceBFS asg st fuel [sc.2] acc.1 acc.2)
    (asg.map (fun _ => false), asg)).2

/-- `LoopyBPInference::Run` (lines 1026-1032). -/
def LoopyBPRun (e : Engine) (q : GraphQuery) (pens : List LabelPenalty)
    (steps_per_pass : Nat) (asg : List Assignment) : List Assignment :=
  let st0 := InitPossibleLabels e q asg pens
  let st := (List.range steps_per_pass).foldl
    (fun st _ => PullMessagesFromAdjacentNodes e q asg st) st0
  TraceBack asg st

/-! ### Inference pipeline and training (graph_inference.cpp lines 1327-1556) -/

/-- The command-line flags read by the inference pipeline (graph_inference.cpp
lines 42-55). -/
structure Flags where
  initial_greedy_assignment_pass : Bool
  duplicate_name_resolution : Bool
  graph_per_node_passes : Nat
  graph_per_arc_passes : Nat
  graph_per_factor_passes : Nat
  graph_loopy_bp_passes : Nat
  graph_loopy_bp_steps_per_pass : Nat
  skip_per_arc_optimization_for_nodes_above_degree : Int
  factors_limit : Nat
  permutations_beam_size : Nat

/-- The default flag values (graph_inference.cpp lines 42-55). -/
def defaultFlags : Flags :=
  ⟨true, true, 8, 5, 1, 0, 3, 32, 128, 64⟩

/-- One iteration of the iterated-local-search loop of
`PerformAssignmentOptimization` (graph_inference.cpp lines 1342-1383):
optional BP, per-node, per-arc and per-factor passes, with per-node and
per-arc beams doubling up to 64, and an early exit when the total score did
not change.  The fuel counts the remaining iterations of the
`pass < passes` loop. -/
def optimizationLoop (e : Engine) (q : GraphQuery) (pens : List LabelPenalty)
    (flags : Flags) (shuffle : Nat → List Int → List Int) :
    Nat → Nat → ℚ → Nat → Nat → List Assignment → List Assignment
  | 0, _, _, _, _, asg => asg
  | fuel + 1, pass, score, node_beam, arc_beam, asg =>
    let asg1 :=
      if pass < flags.graph_loopy_bp_passes then
        LoopyBPRun e q pens flags.graph_loopy_bp_steps_per_pass asg
      else asg
    let asg2 :=
      if pass < flags.graph_per_node_passes then
        if flags.duplicate_name_resolution then
          LocalPerNodeOptimizationPassWithDuplicateNameResolution e q pens node_beam asg1
        else LocalPerNodeOptimizationPass e q pens node_beam asg1
      else asg1
    let node_beam' :=
      if pass < flags.graph_per_node_passes then min (node_beam * 2) kMaxBeamSize
      else node_beam
    let asg3 :=
      if pass < flags.graph_per_arc_passes then
        LocalPerArcOptimizationPass e q pens arc_beam
          flags.skip_per_arc_optimization_for_nodes_above_degree asg2
      else asg2
    let arc_beam' :=
      if pass < flags.graph_per_arc_passes then min (arc_beam * 2) kMaxBeamSize
      else arc_beam
    let asg4 :=
      if pass < flags.graph_per_factor_passes then
        LocalPerFactorOptimizationPass e q pens flags.factors_limit
          flags.permutations_beam_size shuffle asg3
      else asg3
    let updated_score := GetTotalScore e q asg4 pens
    if updated_score = score then asg4
    else optimizationLoop e q pens flags shuffle fuel (pass + 1) updated_score
      node_beam' arc_beam' asg4

/-- `GraphInference::PerformAssignmentOptimization` (graph_inference.cpp lines
1327-1388): rare-label replacement (when an unknown label is configured),
optional greedy seeding, then the iterated local search. -/
def PerformAssignmentOptimization (e : Engine) (q : GraphQuery) (flags : Flags)
    (shuffle : Nat → List Int → List Int) (asg : List Assignment)
    (pens : List LabelPenalty) : List Assignment :=
  let asg := if e.unknown_label_ ≥ 0 then ReplaceLabelsWithUnknown e asg else asg
  let asg :=
    if flags.initial_greedy_assignment_pass then InitialGreedyAssignmentPass e q pens asg
    else asg
  let score := GetTotalScore e q asg pens
  let passes := max flags.graph_per_node_passes
    (max flags.graph_loopy_bp_passes flags.graph_per_arc_passes)
  optimizationLoop e q pens flags shuffle passes 0 score kStartBeamSize kStartBeamSize asg

/-- `GraphInference::MapInference` (graph_inference.cpp lines 1390-1395). -/
def MapInference (e : Engine) (q : GraphQuery) (flags : Flags)
    (shuffle : Nat → List Int → List Int) (asg : List Assignment)
    (pens : List LabelPenalty) : List Assignment :=
  PerformAssignmentOptimization e q flags shuffle asg pens

/-- `GraphNodeAssignment::ClearPenalty` (graph_inference.cpp lines 255-257). -/
def ClearPenalty (asg : List Assignment) : List LabelPenalty :=
  asg.map (fun _ => defaultPenalty)

/-- `GraphNodeAssignment::SetUpEqualityPenalty` (graph_inference.cpp lines
245-253): clear, then penalize every infer node at its current label. -/
def SetUpEqualityPenalty (asg : List Assignment) (penalty : ℚ) : List LabelPenalty :=
  asg.map (fun a => if a.must_infer then ⟨a.label, penalty⟩ else defaultPenalty)

/-- The `1e-9` gradient threshold of `SSVMLearn`/`PLLearn`. -/
def gradEps : ℚ := 1 / 1000000000

/-- `LockFreeWeights::atomicAddRegularized` (src/inference/lock_free_weight.h
lines 42-52), single-update semantics of the CAS loop: add, then clamp into
`[min, max]`. -/
def atomicAddRegularized (w value_added lo hi : ℚ) : ℚ :=
  let desired := w + value_added
  let desired := if desired < lo then lo else desired
  if desired > hi then hi else desired

/-- The arc-feature gradient application loop shared by `SSVMLearn` (lines
1477-1485) and `PLLearn` (lines 1536-1543): each gradient entry larger than
`1e-9` in magnitude is added, box-projected into `[0, regularizer]`, to the
weight of an existing feature; entries for unknown features are discarded. -/
def applyFeatureGradients (features : List (GraphFeature × ℚ))
    (grads : List (GraphFeature × ℚ)) (regularizer : ℚ) :
    List (GraphFeature × ℚ) :=
  grads.foldl
    (fun fs g =>
      if g.2 < -gradEps ∨ g.2 > gradEps then
        updateExisting g.1 (fun w => atomicAddRegularized w g.2 0 regularizer) fs
      else fs) features

/-- The factor-feature gradient application loop shared by `SSVMLearn` (lines
1487-1498) and `PLLearn` (lines 1545-1555): add, then clamp into
`[0, regularizer]`; entries for unknown factor hashes are discarded. -/
def applyFactorGradients (factor_features : List (Nat × ℚ))
    (grads : List (Nat × ℚ)) (regularizer : ℚ) : List (Nat × ℚ) :=
  grads.foldl
    (fun fs g =>
      if g.2 < -gradEps ∨ g.2 > gradEps then
        updateExisting g.1
          (fun w =>
            let w := w + g.2
            let w := if w < 0 then 0 else w
            if w > regularizer then regularizer else w) fs
      else fs) factor_features

/-- `GraphInference::SSVMLearn` (graph_inference.cpp lines 1455-1499): run
loss-augmented inference from the reference assignment, then apply `+η` at the
reference labelling and `−η` at the loss-augmented labelling to the existing
arc- and factor-feature weights, box-projected into `[0, regularizer]`. -/
def SSVMLearn (e : Engine) (q : GraphQuery) (asg : List Assignment)
    (learning_rate : ℚ) (flags : Flags)
    (shuffle : Nat → List Int → List Int) : Engine :=
  let pens := SetUpEqualityPenalty asg e.svm_margin_
  let new_assignment := PerformAssignmentOptimization e q flags shuffle asg pens
  let affected_features := GetAffectedFeatures q asg [] learning_rate
  let factor_affected_features := GetAffectedFactorFeatures q asg [] learning_rate
  let affected_features := GetAffectedFeatures q new_assignment affected_features (-learning_rate)
  let factor_affected_features :=
    GetAffectedFactorFeatures q new_assignment factor_affected_features (-learning_rate)
  { e with
    features_ := applyFeatureGradients e.features_ affected_features e.regularizer_,
    factor_features_ := applyFactorGradients e.factor_features_ factor_affected_features e.regularizer_ }

/-- The per-node candidate list of `PLLearn` (graph_inference.cpp lines
1517-1522): the label candidates for the node with the node's current label
appended (appended unconditionally, so it may repeat a candidate). -/
def plCandidates (e : Engine) (q : GraphQuery) (asg : List Assignment) (i : Nat) :
    List Int :=
  GetLabelCandidates e q asg i e.beam_size_ ++ [labelAt asg i]

/-- The estimated normalization constant of `PLLearn` (graph_inference.cpp
lines 1520-1525): seeded with the negated node penalty, then summing
`exp(node score with the candidate label)` over the candidate list.  `expF`
models the C `exp` function. -/
def plNormalizationConstant (e : Engine) (q : GraphQuery) (asg : List Assignment)
    (pens : List LabelPenalty) (expF : ℚ → ℚ) (i : Nat) : ℚ :=
  (plCandidates e q asg i).foldl
    (fun z label => z + expF (GetNodeScoreGivenAssignmentToANode e q asg pens i i label))
    (-(GetNodePenalty asg pens i))

/-- The per-node accumulation of `PLLearn` (graph_inference.cpp lines
1517-1530): over all candidate labels of node `i` (current label appended),
add `−η · p_label` to the neighbouring arc features and the factor hashes. -/
def plNodeGrad (e : Engine) (q : GraphQuery) (asg : List Assignment)
    (pens : List LabelPenalty) (expF : ℚ → ℚ) (learning_rate : ℚ) (i : Nat)
    (acc : List (GraphFeature × ℚ) × List (Nat × ℚ)) :
    List (GraphFeature × ℚ) × List (Nat × ℚ) :=
  (plCandidates e q asg i).foldl
    (fun acc label =>
      let marginal_probability :=
        expF (GetNodeScoreGivenAssignmentToANode e q asg pens i i label) /
          plNormalizationConstant e q asg pens expF i
      (GetNeighboringAffectedFeatures q asg acc.1 i label
         (-learning_rate * marginal_probability),
       GetFactorAffectedFeaturesOfNode q asg acc.2 i label
         (-learning_rate * marginal_probability)))
    acc

/-- The gradient maps accumulated by `PLLearn` before application
(graph_inference.cpp lines 1509-1535): per infer node, `−η · p_label` on the
neighbouring arc features and factor hashes for each candidate label, then
`+beam_size · η` at the reference labelling over all arcs and factors. -/
def plGradients (e : Engine) (q : GraphQuery) (asg : List Assignment)
    (pens : List LabelPenalty) (expF : ℚ → ℚ) (learning_rate : ℚ) :
    List (GraphFeature × ℚ) × List (Nat × ℚ) :=
  let perNode := (List.range asg.length).foldl
    (fun (acc : List (GraphFeature × ℚ) × List (Nat × ℚ)) i =>
      if mustInferAt asg i then plNodeGrad e q asg pens expF learning_rate i acc
      else acc)
    ([], [])
  (GetAffectedFeatures q asg perNode.1 ((e.beam_size_ : ℚ) * learning_rate),
   GetAffectedFactorFeatures q asg perNode.2 ((e.beam_size_ : ℚ) * learning_rate))

/-- `GraphInference::PLLearn` (graph_inference.cpp lines 1501-1556). -/
def PLLearn (e : Engine) (q : GraphQuery) (asg : List Assignment)
    (pens : List LabelPenalty) (expF : ℚ → ℚ) (learning_rate : ℚ) : Engine :=
  let grads := plGradients e q asg pens expF learning_rate
  { e with
    features_ := applyFeatureGradients e.features_ grads.1 e.regularizer_,
    factor_features_ := applyFactorGradients e.factor_features_ grads.2 e.regularizer_ }

/-- `GraphInference::InitializeFeatureWeights` (graph_inference.cpp lines
1437-1445): set `regularizer = 1/regularization` and every arc- and
factor-feature weight to `regularizer · 0.5`. -/
def InitializeFeatureWeights (e : Engine) (regularization : ℚ) : Engine :=
  let reg := 1 / regularization
  { e with
    regularizer_ := reg,
    features_ := e.features_.map (fun kv => (kv.1, reg * (1 / 2))),
    factor_features_ := e.factor_features_.map (fun kv => (kv.1, reg * (1 / 2))) }

/-- `GraphInference::SSVMInit` (graph_inference.cpp lines 1447-1449). -/
def SSVMInit (e : Engine) (margin : ℚ) : Engine :=
  { e with svm_margin_ := margin }

/-- `GraphInference::PLInit` (graph_inference.cpp lines 1451-1453). -/
def PLInit (e : Engine) (beam_size : Nat) : Engine :=
  { e with beam_size_ := beam_size }

/-! ### NBest candidates (graph_inference.cpp lines 284-333) -/

/-- The comparator used by `GetCandidatesForNode` (graph_inference.cpp lines
304-306): `right.second < left.second`, i.e. descending by score. -/
def candGE (x y : Int × ℚ) : Prop := x.2 ≥ y.2

instance : DecidableRel candGE := fun x y => by
  unfold candGE
  exact inferInstance

instance : IsTotal (Int × ℚ) candGE :=
  ⟨fun a b => le_total b.2 a.2⟩

instance : IsTrans (Int × ℚ) candGE :=
  ⟨fun _ _ _ hab hbc => le_trans hbc hab⟩

/-- `GraphNodeAssignment::GetCandidatesForNode` (graph_inference.cpp lines
284-307): score every validator-valid candidate label (beam
`kMaxPerArcBeamSize`) by the node score with the label substituted, and sort
descending by score. -/
def GetCandidatesForNode (e : Engine) (q : GraphQuery) (asg : List Assignment)
    (pens : List LabelPenalty) (node : Nat) : List (Int × ℚ) :=
  let candidates := GetLabelCandidates e q asg node kMaxBeamSize
  let scored := candidates.foldl
    (fun acc candidate =>
      if ¬IsLabelValid e candidate then acc
      else acc ++ [(candidate, GetNodeScore e q (setLabel asg node candidate) pens node)])
    []
  scored.insertionSort candGE

/-- `GraphNodeAssignment::GetNBestCandidates` (graph_inference.cpp lines
310-333): for every infer node, the scored candidate list truncated to the
first `n` entries. -/
def GetNBestCandidates (e : Engine) (q : GraphQuery) (asg : List Assignment)
    (pens : List LabelPenalty) (n : Nat) : List (Nat × List (Int × ℚ)) :=
  (List.range asg.length).foldl
    (fun acc i =>
      if mustInferAt asg i then
        acc ++ [(i, (GetCandidatesForNode e q asg pens i).take n)]
      else acc)
    []

/-! ### Label checker (label_checker.h / label_checker.cpp) -/

/-- Byte strings (C strings are NUL-terminated byte sequences; a `ByteStr`
holds the bytes before the terminator). -/
abbrev ByteStr := List Nat

/-- `LabelChecker::CheckingRule` (label_checker.h lines 44-49): the sign and
the rule body.  The compiled `std::regex` is modelled by the match oracle
passed to the evaluation functions. -/
structure CheckingRule where
  valid_ : Bool
  re_str_ : ByteStr

/-- The metacharacter bytes of `LabelChecker::IsRegEx` (label_checker.cpp
lines 105-118): `. ? + * ( ) [ ] { } \ | $ ^`. -/
def regexMetachars : List Nat :=
  [46, 63, 43, 42, 40, 41, 91, 93, 123, 125, 92, 124, 36, 94]

/-- `LabelChecker::IsRegEx`: a body is a regex iff it contains a
metacharacter. -/
def IsRegEx (s : ByteStr) : Bool := s.any (fun c => c ∈ regexMetachars)

/-- `LabelChecker::IsLabelValid` (label_checker.h lines 32-34) applied to a
`valid_labels_` table. -/
def checkerValidLookup (valid_labels : List (Int × Bool)) (label : Int) : Bool :=
  FindWithDefault valid_labels label false

/-- `LabelChecker::IsStringLabelValid` (label_checker.cpp lines 88-103): fold
the rules in order over an initially-valid verdict; `rm` models
`std::regex_match` on (body, string). -/
def IsStringLabelValid (rm : ByteStr → ByteStr → Bool) (rules : List CheckingRule)
    (s : ByteStr) : Bool :=
  rules.foldl
    (fun valid rule =>
      if IsRegEx rule.re_str_ then
        if rm rule.re_str_ s then rule.valid_ else valid
      else
        if rule.re_str_ = s then rule.valid_ else valid)
    true

/-! ### String dictionary (base/stringset.h / base/stringset.cpp) -/

/-- `StringSet` (base/stringset.h lines 23-74): the flat byte arena, the
open-addressing hash table and its load counter. -/
structure StringSet where
  m_data : List Nat
  m_hashes : List Int
  m_hashTableLoad : Nat
deriving DecidableEq

/-- The default-constructed `StringSet`. -/
def emptyStringSet : StringSet := ⟨[], [], 0⟩

/-- `StringSet::getString`: the bytes at arena offset `index` up to the NUL
terminator. -/
def getString (data : List Nat) (index : Nat) : ByteStr :=
  (data.drop index).takeWhile (fun b => b ≠ 0)

/-- The `static_cast<unsigned int>(s[i])` of `StringSet::stringHash`: bytes
at or above 128 are sign-extended `char` values reinterpreted as 32-bit
unsigned. -/
def byteToUInt (b : Nat) : Nat := if b < 128 then b else 4294967040 + b

/-- Truncation of a `uint64` value to a signed 32-bit `int`. -/
def toInt32 (x : Nat) : Int :=
  let r := x % 4294967296
  if r < 2147483648 then Int.ofNat r else Int.ofNat r - 4294967296

/-- `StringSet::stringHash` (base/stringset.cpp lines 72-78): djb2 over the
bytes in 64-bit unsigned arithmetic, multiplied by 13 and truncated to `int`. -/
def stringHash (s : ByteStr) : Int :=
  toInt32 ((s.foldl (fun h b => (h * 33 + byteToUInt b) % U64MOD) 5381 * 13) % U64MOD)

/-- The probe start `hash % m_hashes.size()`: the `int` hash is converted to
`size_t` (sign extension) before the modulo. -/
def probeStart (hash : Int) (size : Nat) : Nat := toU64 hash % size

/-- The linear-probing loop of `StringSet::findStringL` (base/stringset.cpp
lines 57-70).  The fuel exceeds the table size, so the scan covers the whole
table; the table always keeps an empty slot, making the fuel sufficient. -/
def probeFind (data : List Nat) (hashes : List Int) (s : ByteStr) :
    Nat → Nat → Int
  | 0, _ => -1
  | fuel + 1, p =>
    let entry := hashes.getD p (-1)
    if entry = -1 then -1
    else if getString data entry.toNat = s then entry
    else probeFind data hashes s fuel (if p + 1 = hashes.length then 0 else p + 1)

/-- `StringSet::findStringL` / `StringSet::findString`: index of the string,
or `-1`. -/
def findString (ss : StringSet) (s : ByteStr) : Int :=
  if ss.m_hashes.length = 0 then -1
  else probeFind ss.m_data ss.m_hashes s (ss.m_hashes.length + 1)
    (probeStart (stringHash s) ss.m_hashes.length)

/-- The linear-probing loop of `StringSet::addHashNoRehash` (base/stringset.cpp
lines 88-97): place `value` in the first empty slot. -/
def probeInsert (hashes : List Int) (value : Int) : Nat → Nat → List Int
  | 0, _ => hashes
  | fuel + 1, p =>
    if hashes.getD p (-1) = -1 then hashes.set p value
    else probeInsert hashes value fuel (if p + 1 = hashes.length then 0 else p + 1)

/-- `StringSet::addHashNoRehash`. -/
def addHashNoRehash (ss : StringSet) (hash : Int) (value : Int) : StringSet :=
  ⟨ss.m_data,
    probeInsert ss.m_hashes value (ss.m_hashes.length + 1)
      (probeStart hash ss.m_hashes.length),
    ss.m_hashTableLoad + 1⟩

/-- The walk of `StringSet::getAllStrings` with structural fuel; each step
advances the offset past one NUL-terminated string. -/
def stringStartsAux (data : List Nat) : Nat → Nat → List Nat
  | 0, _ => []
  | fuel + 1, pos =>
    if pos < data.length then
      pos :: stringStartsAux data fuel (pos + (getString data pos).length + 1)
    else []

/-- The arena offsets of all interned strings, in arena order
(`StringSet::getAllStrings`, base/stringset.cpp lines 110-118).  The fuel
`data.length + 1` exceeds the number of strings, so the walk always reaches
the end of the arena. -/
def stringStarts (data : List Nat) (pos : Nat) : List Nat :=
  stringStartsAux data (data.length + 1) pos

/-- `StringSet::rehashAll` (base/stringset.cpp lines 99-108): reset the load
and reinsert every interned string in arena order. -/
def rehashAll (ss : StringSet) : StringSet :=
  (stringStarts ss.m_data 0).foldl
    (fun ss pos => addHashNoRehash ss (stringHash (getString ss.m_data pos)) (Int.ofNat pos))
    ⟨ss.m_data, ss.m_hashes, 0⟩

/-- The growth loop of `StringSet::addHash` (base/stringset.cpp lines 80-86):
while the load reaches half the table, reallocate to `2·size + 3` and rehash.
The fuel bounds the doubling iterations and suffices for every input. -/
def growIfNeeded : Nat → StringSet → StringSet
  | 0, ss => ss
  | fuel + 1, ss =>
    if ss.m_hashTableLoad * 2 ≥ ss.m_hashes.length then
      growIfNeeded fuel
        (rehashAll ⟨ss.m_data, List.replicate (ss.m_hashes.length * 2 + 3) (-1),
          ss.m_hashTableLoad⟩)
    else ss

/-- `StringSet::addHash`. -/
def addHash (ss : StringSet) (hash : Int) (value : Int) : StringSet :=
  addHashNoRehash (growIfNeeded (ss.m_hashTableLoad * 2 + 4) ss) hash value

/-- `StringSet::addString` / `addStringL` (base/stringset.cpp lines 28-55):
return the existing index, or append the bytes (with terminator) to the arena
and index the new offset. -/
def addString (ss : StringSet) (s : ByteStr) : StringSet × Int :=
  let pos := findString ss s
  if pos = -1 then
    let pos := ss.m_data.length
    let ss := addHash ss (stringHash s) (Int.ofNat pos)
    (⟨ss.m_data ++ s ++ [0], ss.m_hashes, ss.m_hashTableLoad⟩, Int.ofNat pos)
  else (ss, pos)

/-! ### LabelSet (n2p/inference/label_set.h) -/

/-- `LabelSet` (label_set.h lines 24-76): the per-request label table layered
over the engine's `StringSet`. -/
structure LabelSet where
  ss_size_ : Nat
  added_labels_by_name_ : List (ByteStr × Nat)
  added_labels_by_label_id_ : List ByteStr
  validity_by_label_id_ : List Bool

/-- `LabelSet::AddLabelName` (label_set.h lines 31-47): look up the global
dictionary first, then the request-local table, inserting on a miss.
`checkerValid` models `LabelChecker::IsStringLabelValid` of the engine's
checker. -/
def AddLabelName (ss : StringSet) (checkerValid : ByteStr → Bool)
    (ls : LabelSet) (label_name : ByteStr) : LabelSet × Int :=
  let label_id := findString ss label_name
  if label_id ≥ 0 then (ls, label_id)
  else
    match alookup label_name ls.added_labels_by_name_ with
    | some idx => (ls, Int.ofNat (idx + ls.ss_size_))
    | none =>
      let idx := ls.added_labels_by_label_id_.length
      (⟨ls.ss_size_,
        ls.added_labels_by_name_ ++ [(label_name, idx)],
        ls.added_labels_by_label_id_ ++ [label_name],
        ls.validity_by_label_id_ ++ [checkerValid label_name]⟩,
       Int.ofNat (idx + ls.ss_size_))

/-- `MAX_NAME_LEN` (graph_inference.cpp line 74). -/
def MAX_NAME_LEN : Nat := 1024

/-- `std::string::c_str` handed to a `const char*` consumer: the bytes before
the first embedded NUL. -/
def cstrOf (s : ByteStr) : ByteStr := s.takeWhile (fun b => b ≠ 0)

/-- One incoming `NodeAssignment` proto message. -/
structure NodeAssignmentProto where
  node_index : Nat
  label : ByteStr
  given : Bool

/-- One provided node assignment of `FromNodeAssignmentsProto`
(graph_inference.cpp lines 262-269): intern the label truncated to
`MAX_NAME_LEN` bytes, and store the `(label, infer)` pair only when the node
index is below the query's node count. -/
def fromProtoStep (ss : StringSet) (checkerValid : ByteStr → Bool)
    (variables_count : Nat) (st : LabelSet × List Assignment)
    (entry : NodeAssignmentProto) : LabelSet × List Assignment :=
  let r := AddLabelName ss checkerValid st.1 (cstrOf (entry.label.take MAX_NAME_LEN))
  let aset : Assignment := ⟨!entry.given, r.2⟩
  if entry.node_index < variables_count then
    (r.1, st.2.set entry.node_index aset)
  else (r.1, st.2)

/-- `GraphNodeAssignment::FromNodeAssignmentsProto` (graph_inference.cpp lines
259-271): size the node vector to the query's node count and fold the provided
assignments. -/
def FromNodeAssignmentsProto (ss : StringSet) (checkerValid : ByteStr → Bool)
    (q : GraphQuery) (entries : List NodeAssignmentProto) (ls : LabelSet) :
    LabelSet × List Assignment :=
  let variables_count := q.arcs_adjacent_to_node_.length
  entries.foldl (fromProtoStep ss checkerValid variables_count)
    (ls, List.replicate variables_count defaultAssignment)

/-- The default-constructed proto entry (used only for out-of-range list
indexing in specification statements). -/
def defaultProtoEntry : NodeAssignmentProto := ⟨0, [], true⟩

/-- Observation function: the final request-local label table after interning
every provided label of the request, in order. -/
def fromProtoLS (ss : StringSet) (checkerValid : ByteStr → Bool) :
    LabelSet → List NodeAssignmentProto → LabelSet
  | ls, [] => ls
  | ls, entry :: rest =>
    fromProtoLS ss checkerValid
      (AddLabelName ss checkerValid ls (cstrOf (entry.label.take MAX_NAME_LEN))).1 rest

/-- Observation function: the label id interned for each provided assignment,
in request order. -/
def fromProtoIds (ss : StringSet) (checkerValid : ByteStr → Bool) :
    LabelSet → List NodeAssignmentProto → List Int
  | _, [] => []
  | ls, entry :: rest =>
    let r := AddLabelName ss checkerValid ls (cstrOf (entry.label.take MAX_NAME_LEN))
    r.2 :: fromProtoIds ss checkerValid r.1 rest

/-- The resolution relation of `LabelSet::AddLabelName`: the name resolves to a
global dictionary id, or (when absent from the dictionary) to its
request-local id shifted by the dictionary size. -/
def resolvesTo (ss : StringSet) (ls : LabelSet) (name : ByteStr) (id : Int) : Prop :=
  (findString ss name = id ∧ 0 ≤ id) ∨
  (¬(findString ss name ≥ 0) ∧
    ∃ k, alookup name ls.added_labels_by_name_ = some k ∧ id = Int.ofNat (k + ls.ss_size_))

/-! ### Label checker rule application (label_checker.cpp lines 60-86) -/

/-- The regex-rule inner loop body of `ApplyRulesOnAllValuesInSS`
(label_checker.cpp lines 67-77): a string longer than 100 bytes is marked
invalid; otherwise a matching string gets the rule's sign. -/
def applyRegexRuleOnLabel (rm : ByteStr → ByteStr → Bool) (rule : CheckingRule)
    (data : List Nat) (vl : List (Int × Bool)) (label : Nat) : List (Int × Bool) :=
  let s := getString data label
  if s.length > 100 then assignKey (Int.ofNat label) false vl
  else if rm rule.re_str_ s then assignKey (Int.ofNat label) rule.valid_ vl
  else vl

/-- One rule of `ApplyRulesOnAllValuesInSS` (label_checker.cpp lines 64-85):
a regex rule folds over all interned strings, a literal rule marks the single
interned string equal to its body. -/
def applyRuleInSS (rm : ByteStr → ByteStr → Bool) (ss : StringSet)
    (strings : List Nat) (vl : List (Int × Bool)) (rule : CheckingRule) :
    List (Int × Bool) :=
  if IsRegEx rule.re_str_ then
    strings.foldl (applyRegexRuleOnLabel rm rule ss.m_data) vl
  else
    let label := findString ss rule.re_str_
    if label ≥ 0 then assignKey label rule.valid_ vl else vl

/-- `LabelChecker::ApplyRulesOnAllValuesInSS`: build the `valid_labels_` map by
folding the rules in file order over all interned strings (`rm` models
`std::regex_match`). -/
def ApplyRulesOnAllValuesInSS (rm : ByteStr → ByteStr → Bool)
    (rules : List CheckingRule) (ss : StringSet) : List (Int × Bool) :=
  rules.foldl (applyRuleInSS rm ss (stringStarts ss.m_data 0)) []

/-! ### Model persistence (graph_inference.cpp lines 1212-1318,
base/stringset.cpp lines 120-140) -/

/-- One token of a binary model file: an `int` write or a `double` write; the
byte payload of the string arena is written as one `ti` token per byte. -/
inductive Tok where
  | ti : Int → Tok
  | td : ℚ → Tok
deriving DecidableEq

/-- `StringSet::saveToFile` (base/stringset.cpp lines 120-126): the data size,
the arena bytes, and the hash-table size hint. -/
def saveStringsFile (ss : StringSet) : List Tok :=
  Tok.ti (Int.ofNat ss.m_data.length) ::
    ss.m_data.map (fun b => Tok.ti (Int.ofNat b)) ++
      [Tok.ti (Int.ofNat ss.m_hashes.length)]

/-- Read `n` byte tokens. -/
def readBytes : Nat → List Tok → Option (ByteStr × List Tok)
  | 0, toks => some ([], toks)
  | n + 1, Tok.ti b :: rest =>
    (readBytes n rest).map (fun p => (b.toNat :: p.1, p.2))
  | _ + 1, _ => none

/-- `StringSet::loadFromFile` (base/stringset.cpp lines 128-140): read the
arena back, read the hash-size hint, and rebuild the hash table from scratch. -/
def loadStringsFile (toks : List Tok) : Option StringSet :=
  match toks with
  | Tok.ti n :: rest =>
    if n < 0 then none
    else
      match readBytes n.toNat rest with
      | none => none
      | some (data, rest) =>
        match rest with
        | [Tok.ti hashSize] =>
          if hashSize < 0 then none
          else some (rehashAll ⟨data, List.replicate hashSize.toNat (-1), 0⟩)
        | _ => none
  | _ => none

/-- The persisted state of a model: the four components written by `SaveModel`
plus the unknown-label id resolved by `PrepareForInference`. -/
structure ModelState where
  features : List (GraphFeature × ℚ)
  factorsSet : List (List Int)
  factorFeatures : List (Nat × ℚ)
  labelFrequency : List (Int × Int)
  strings : StringSet
  unknownLabel : Int

/-- `GraphInference::SaveModel` (graph_inference.cpp lines 1272-1318): the
`_features` file (arc features, then one record per factor of `factors_set_`
with the weight found at its hash — the C++ `factor_features_[hash]`
default-constructs 0 for a missing hash), the `_strings` file, and, when an
unknown label is configured, the `_lfreq` file. -/
def SaveModel (m : ModelState) (unknownFlag : ByteStr) :
    List Tok × List Tok × Option (List Tok) :=
  let featuresFile :=
    Tok.ti (Int.ofNat m.features.length) ::
      (m.features.foldr
        (fun kv acc =>
          Tok.ti kv.1.a_ :: Tok.ti kv.1.b_ :: Tok.ti kv.1.type_ :: Tok.td kv.2 :: acc)
        (Tok.ti (Int.ofNat m.factorsSet.length) ::
          m.factorsSet.foldr
            (fun f acc =>
              Tok.ti (Int.ofNat f.length) ::
                (f.foldr (fun v acc2 => Tok.ti v :: acc2)
                  (Tok.td (FindWithDefault m.factorFeatures (factorHash f) 0) :: acc)))
            []))
  let lfreqFile :=
    if unknownFlag = [] then none
    else some
      (Tok.ti (Int.ofNat m.labelFrequency.length) ::
        m.labelFrequency.foldr
          (fun kv acc => Tok.ti kv.1 :: Tok.ti kv.2 :: acc) [])
  (featuresFile, saveStringsFile m.strings, lfreqFile)

/-- Read `n` arc-feature records. -/
def readFeatureEntries : Nat → List Tok → Option (List (GraphFeature × ℚ) × List Tok)
  | 0, toks => some ([], toks)
  | n + 1, Tok.ti a :: Tok.ti b :: Tok.ti t :: Tok.td w :: rest =>
    (readFeatureEntries n rest).map (fun p => ((⟨a, b, t⟩, w) :: p.1, p.2))
  | _ + 1, _ => none

/-- Read `k` label-id tokens of one factor record. -/
def readLabelList : Nat → List Tok → Option (List Int × List Tok)
  | 0, toks => some ([], toks)
  | n + 1, Tok.ti v :: rest =>
    (readLabelList n rest).map (fun p => (v :: p.1, p.2))
  | _ + 1, _ => none

/-- Read `n` factor-feature records as `(hash, weight)` pairs, the hash being
accumulated over the label ids in read order (graph_inference.cpp lines
1230-1244). -/
def readFactorEntries : Nat → List Tok → Option (List (Nat × ℚ) × List Tok)
  | 0, toks => some ([], toks)
  | n + 1, Tok.ti k :: rest =>
    if k < 0 then none
    else
      match readLabelList k.toNat rest with
      | none => none
      | some (labels, rest) =>
        match rest with
        | Tok.td w :: rest =>
          (readFactorEntries n rest).map
            (fun p => ((factorHash labels, w) :: p.1, p.2))
        | _ => none
  | _ + 1, _ => none

/-- The effect of `PrepareForInference` (graph_inference.cpp lines 1641-1726)
on the persisted state: intern the unknown label when configured, and, when
`min_freq_known_label > 0`, drop rare labels from the frequency table and
rewrite every arc feature whose endpoints became rare onto the unknown label,
summing duplicate keys.  The candidate-index building mutates none of the
persisted components. -/
def PrepareForInferencePersist (m : ModelState) (unknownFlag : ByteStr)
    (minFreq : Int) : ModelState :=
  let m :=
    if unknownFlag = [] then m
    else
      let r := addString m.strings unknownFlag
      { m with strings := r.1, unknownLabel := r.2 }
  if m.unknownLabel ≥ 0 ∧ minFreq > 0 then
    let updatedFreq := m.labelFrequency.filter (fun kv => kv.2 ≥ minFreq)
    let updatedMap := m.features.foldl
      (fun acc kv =>
        let a := if alookup kv.1.a_ updatedFreq = none then m.unknownLabel else kv.1.a_
        let b := if alookup kv.1.b_ updatedFreq = none then m.unknownLabel else kv.1.b_
        addToKey (GraphFeature.mk a b kv.1.type_) kv.2 acc)
      []
    { m with labelFrequency := updatedFreq, features := updatedMap }
  else m

/-- Read `n` label-frequency records, assigning them into the map in read
order (graph_inference.cpp lines 1256-1262). -/
def readFreqEntries : Nat → List Tok → List (Int × Int) → Option (List (Int × Int))
  | 0, _, acc => some acc
  | n + 1, Tok.ti a :: Tok.ti b :: rest, acc =>
    readFreqEntries n rest (assignKey a b acc)
  | _ + 1, _, _ => none

/-- `GraphInference::LoadModel` (graph_inference.cpp lines 1212-1270) on a
fresh engine: parse the three files, rebuild the weight maps in read order,
and run the persisted-state part of `PrepareForInference`.  `factors_set_` is
not restored by `LoadModel`. -/
def LoadModel (featuresFile stringsFile : List Tok) (lfreqFile : Option (List Tok))
    (unknownFlag : ByteStr) (minFreq : Int) : Option ModelState :=
  match featuresFile with
  | Tok.ti num_features :: rest =>
    if num_features < 0 then none
    else
      match readFeatureEntries num_features.toNat rest with
      | none => none
      | some (featureEntries, rest) =>
        let factorEntries? : Option (List (Nat × ℚ)) :=
          match rest with
          | [] => some []
          | Tok.ti num_factor :: rest =>
            if num_factor < 0 then none
            else
              match readFactorEntries num_factor.toNat rest with
              | none => none
              | some (entries, _) => some entries
          | _ => none
        match factorEntries? with
        | none => none
        | some factorEntries =>
          let features := featureEntries.foldl (fun m kv => assignKey kv.1 kv.2 m) []
          if features.length ≠ num_features.toNat then none
          else
            match loadStringsFile stringsFile with
            | none => none
            | some ss =>
              let freq? : Option (List (Int × Int)) :=
                if unknownFlag = [] then some []
                else
                  match lfreqFile with
                  | none => none
                  | some (Tok.ti sz :: rest) =>
                    if sz < 0 then none
                    else
                      match readFreqEntries sz.toNat rest [] with
                      | none => none
                      | some freq => if freq.length = sz.toNat then some freq else none
                  | some _ => none
              match freq? with
              | none => none
              | some freq =>
                some (PrepareForInferencePersist
                  ⟨features, [],
                    factorEntries.foldl (fun m kv => assignKey kv.1 kv.2 m) [],
                    freq, ss, -1⟩
                  unknownFlag minFreq)
  | _ => none

/-! ### Specification-side definitions and proof-harness definitions -/

/-- A single training call, as issued by the training driver: a loss-augmented
SSVM step or a pseudolikelihood step. -/
inductive LearnCall where
  | ssvm : GraphQuery → List Assignment → ℚ → Flags → (Nat → List Int → List Int) → LearnCall
  | pl : GraphQuery → List Assignment → List LabelPenalty → (ℚ → ℚ) → ℚ → LearnCall

/-- Dispatch one training call. -/
def runLearnCall (e : Engine) : LearnCall → Engine
  | .ssvm q asg lr flags shuffle => SSVMLearn e q asg lr flags shuffle
  | .pl q asg pens expF lr => PLLearn e q asg pens expF lr

/-- Run a sequence of training calls. -/
def runLearnCalls (e : Engine) (calls : List LearnCall) : Engine :=
  calls.foldl runLearnCall e

/-- The verdict predicted by claim C6 as frozen: invalid for names longer than
100 bytes regardless of the rules, otherwise the sign of the last rule in file
order whose body matches the name (literal bodies by equality, regex bodies by
the match oracle), invalid when no rule matches. -/
def specLastMatchVerdict (rm : ByteStr → ByteStr → Bool)
    (rules : List CheckingRule) (name : ByteStr) : Bool :=
  if name.length > 100 then false
  else
    (rules.foldl
      (fun acc rule =>
        if IsRegEx rule.re_str_ then
          if rm rule.re_str_ name then some rule.valid_ else acc
        else
          if rule.re_str_ = name then some rule.valid_ else acc)
      none).getD false

/-- The verdict of the amended claim C6: the sign of the last rule that
*touches* the id — a literal rule touches the id whose name equals its body
with its own sign; a regex rule touches every id whose name is longer than 100
bytes with sign "invalid" and every id whose name matches with its own sign;
ids touched by no rule are invalid. -/
def lastTouchStep (rm : ByteStr → ByteStr → Bool) (name : ByteStr)
    (acc : Option Bool) (rule : CheckingRule) : Option Bool :=
  if IsRegEx rule.re_str_ then
    if name.length > 100 then some false
    else if rm rule.re_str_ name then some rule.valid_ else acc
  else
    if rule.re_str_ = name then some rule.valid_ else acc

/-- The folded form of the amended C6 verdict. -/
def lastTouchVerdict (rm : ByteStr → ByteStr → Bool)
    (rules : List CheckingRule) (name : ByteStr) : Bool :=
  (rules.foldl (lastTouchStep rm name) none).getD false

/-- The number of arcs adjacent to `node` whose feature, with `label`
substituted at `node`, equals `f` (the multiplicity with which
`GetNeighboringAffectedFeatures` touches `f`). -/
def neighborFeatureCount (q : GraphQuery) (asg : List Assignment) (node : Nat)
    (label : Int) (f : GraphFeature) : Nat :=
  ((adjAt q node).filter
    (fun arc =>
      GraphFeature.mk (if arc.node_a = node then label else labelAt asg arc.node_a)
        (if arc.node_b = node then label else labelAt asg arc.node_b) arc.type = f)).length

/-- The number of arcs of the query whose feature under the current labels
equals `f` (the reference-labelling feature count of `GetAffectedFeatures`). -/
def arcFeatureCount (q : GraphQuery) (asg : List Assignment) (f : GraphFeature) : Nat :=
  (q.arcs_.filter
    (fun arc =>
      GraphFeature.mk (labelAt asg arc.node_a) (labelAt asg arc.node_b) arc.type = f)).length

/-- The number of factors containing `node` whose hash with `label` substituted
at `node` equals `h`. -/
def nodeFactorHashCount (q : GraphQuery) (asg : List Assignment) (node : Nat)
    (label : Int) (h : Nat) : Nat :=
  ((factorsOfNodeAt q node).filter
    (fun fi =>
      factorHashFrom (HashInt (toU64 label))
        (((factorAt q fi).filter (fun v => v ≠ node)).map (labelAt asg)) = h)).length

/-- The number of factors of the query whose hash under the current labels
equals `h`. -/
def factorHashCount (q : GraphQuery) (asg : List Assignment) (h : Nat) : Nat :=
  (q.factors_.filter (fun f => factorHash (f.map (labelAt asg)) = h)).length

/-- The marginal probability `exp(score)/Z` computed by `PLLearn` for node `i`
and candidate label `l`. -/
def plMarginal (e : Engine) (q : GraphQuery) (asg : List Assignment)
    (pens : List LabelPenalty) (expF : ℚ → ℚ) (i : Nat) (l : Int) : ℚ :=
  expF (GetNodeScoreGivenAssignmentToANode e q asg pens i i l) /
    plNormalizationConstant e q asg pens expF i

/-- Closed form of the arc-feature gradient accumulated by `PLLearn` at feature
`f`: the per-node, per-candidate `−η·p` contributions weighted by the number of
adjacent arcs touching `f`, plus `beam_size · η` times the reference count. -/
def plFeatureGradValue (e : Engine) (q : GraphQuery) (asg : List Assignment)
    (pens : List LabelPenalty) (expF : ℚ → ℚ) (learning_rate : ℚ)
    (f : GraphFeature) : ℚ :=
  ((List.range asg.length).map
    (fun i =>
      if mustInferAt asg i then
        ((plCandidates e q asg i).map
          (fun l =>
            -learning_rate * plMarginal e q asg pens expF i l *
              (neighborFeatureCount q asg i l f : ℚ))).sum
      else 0)).sum +
    (e.beam_size_ : ℚ) * learning_rate * (arcFeatureCount q asg f : ℚ)

/-- Closed form of the factor-feature gradient accumulated by `PLLearn` at
hash `h`. -/
def plFactorGradValue (e : Engine) (q : GraphQuery) (asg : List Assignment)
    (pens : List LabelPenalty) (expF : ℚ → ℚ) (learning_rate : ℚ) (h : Nat) : ℚ :=
  ((List.range asg.length).map
    (fun i =>
      if mustInferAt asg i then
        ((plCandidates e q asg i).map
          (fun l =>
            -learning_rate * plMarginal e q asg pens expF i l *
              (nodeFactorHashCount q asg i l h : ℚ))).sum
      else 0)).sum +
    (e.beam_size_ : ℚ) * learning_rate * (factorHashCount q asg h : ℚ)

/-- Relation between an assignment and a later state of it: same length, same
infer flags, and identical labels on every non-infer (given) node. -/
def givenPreserved (asg asg' : List Assignment) : Prop :=
  asg'.length = asg.length ∧
  ∀ i, mustInferAt asg' i = mustInferAt asg i ∧
    (mustInferAt asg i = false → labelAt asg' i = labelAt asg i)

/-- Concrete request entries used to exercise `FromNodeAssignmentsProto`: two
labels with equal truncations and one out-of-range node index. -/
def c10Entries : List NodeAssignmentProto :=
  [⟨0, [97], false⟩, ⟨1, [97], false⟩, ⟨5, [98], false⟩]

/-- A fresh request-local label table over an empty dictionary. -/
def c10LS : LabelSet := ⟨0, [], [], []⟩

/-- A two-node query with no features. -/
def c10Query : GraphQuery := ⟨[], [[], []], [], [], [], [], []⟩

/-- A concrete engine used to exercise `GetNBestCandidates`: one arc-feature
table entry per candidate label, a candidate index proposing labels 7 and 8,
and a validator accepting 7 but rejecting 8. -/
def c8Engine : Engine :=
  ⟨[(⟨7, 5, 3⟩, 2), (⟨8, 5, 3⟩, 1)], [], [], [],
   [((5, 3), [(2, 7), (1, 8)])], [], [], [], -1,
   [(7, true), (8, false)], 1, 0, 4⟩

/-- A two-node query with a single arc of type 3 between the nodes. -/
def c8Query : GraphQuery :=
  ⟨[⟨0, 1, 3⟩], [[⟨0, 1, 3⟩], [⟨0, 1, 3⟩]], [], [], [], [], []⟩

/-- An assignment with one infer node and one given node labelled 5. -/
def c8Asg : List Assignment := [⟨true, -1⟩, ⟨false, 5⟩]

/-- A concrete engine used to exercise `PLLearn`: beam size 2, no candidate
index tables. -/
def c5Engine : Engine :=
  ⟨[(⟨5, 6, 3⟩, 0)], [], [], [], [], [], [], [], -1, [], 1, 0, 2⟩

/-- A three-node query whose only arc connects the two given nodes; the infer
node is isolated. -/
def c5Query : GraphQuery :=
  ⟨[⟨1, 2, 3⟩], [[], [⟨1, 2, 3⟩], [⟨1, 2, 3⟩]], [], [], [], [], []⟩

/-- An assignment with one isolated infer node (label 9) and two given nodes
labelled 5 and 6. -/
def c5Asg : List Assignment := [⟨true, 9⟩, ⟨false, 5⟩, ⟨false, 6⟩]

/-- A string dictionary holding the single string "u" (byte 117), as built by
interning it into an empty dictionary. -/
def c3wStrings : StringSet := (addString emptyStringSet [117]).1

/-- A model state with a rare label (frequency 1): used to show that loading
with `min_freq_known_label = 2` does not restore the frequency table. -/
def c3m : ModelState := ⟨[], [], [], [(5, 1)], c3wStrings, 0⟩

/-- A model state exercising every component of the save/load round trip:
one arc feature, one factor, a frequency entry, and the interned unknown
label "u". -/
def c3wm : ModelState :=
  ⟨[(⟨1, 2, 3⟩, 1)], [[4, 5]], [(factorHash [4, 5], 1)], [(5, 1)], c3wStrings, 0⟩

/-- An engine in unknown-label mode: unknown label 7, label frequency table
containing only label 5. -/
def c1e : Engine :=
  ⟨[], [], [], [], [], [], [], [(5, 1)], 7, [], 1, 0, 4⟩

/-- A one-node query with no arcs. -/
def c1q : GraphQuery := ⟨[], [[]], [], [], [], [], []⟩

/-- An assignment with a single given node carrying the rare label 9. -/
def c1asg : List Assignment := [⟨false, 9⟩]

/-! ## Theorems -/

/-! ### Association list lemmas -/

theorem alookup_assignKey {κ ν : Type} [DecidableEq κ] (k k' : κ) (v : ν)
    (m : List (κ × ν)) :
    alookup k' (assignKey k v m) = if k' = k then some v else alookup k' m := by
  induction m with
  | nil => by_cases h : k' = k <;> simp [assignKey, alookup, h]
  | cons kv rest ih =>
    obtain ⟨a, b⟩ := kv
    by_cases hk : k = a
    · subst hk
      by_cases h : k' = k <;> simp [assignKey, alookup, h]
    · by_cases h : k' = a
      · subst h
        have h2 : ¬k' = k := fun he => hk he.symm
        simp [assignKey, alookup, hk, h2]
      · simp [assignKey, alookup, hk, h, ih]

theorem alookup_updateExisting {κ ν : Type} [DecidableEq κ] (k k' : κ) (f : ν → ν)
    (m : List (κ × ν)) :
    alookup k' (updateExisting k f m) =
      if k' = k then (alookup k m).map f else alookup k' m := by
  induction m with
  | nil => by_cases h : k' = k <;> simp [updateExisting, alookup, h]
  | cons kv rest ih =>
    obtain ⟨a, b⟩ := kv
    by_cases hk : k = a
    · subst hk
      by_cases h : k' = k <;> simp [updateExisting, alookup, h]
    · by_cases h : k' = a
      · subst h
        have h2 : ¬k' = k := fun he => hk he.symm
        simp [updateExisting, alookup, hk, h2]
      · simp [updateExisting, alookup, hk, h, ih]

theorem updateExisting_keys {κ ν : Type} [DecidableEq κ] (k : κ) (f : ν → ν)
    (m : List (κ × ν)) :
    (updateExisting k f m).map Prod.fst = m.map Prod.fst := by
  induction m with
  | nil => rfl
  | cons kv rest ih =>
    obtain ⟨a, b⟩ := kv
    by_cases hk : k = a <;> simp [updateExisting, hk, ih]

theorem mem_updateExisting {κ ν : Type} [DecidableEq κ] (k : κ) (f : ν → ν)
    (m : List (κ × ν)) (kv : κ × ν) (hkv : kv ∈ updateExisting k f m) :
    kv ∈ m ∨ ∃ v, kv = (k, f v) := by
  induction m with
  | nil => simp [updateExisting] at hkv
  | cons kv' rest ih =>
    obtain ⟨a, b⟩ := kv'
    by_cases hk : k = a
    · subst hk
      simp only [updateExisting, if_pos, List.mem_cons] at hkv
      rcases hkv with h | h
      · exact Or.inr ⟨b, h⟩
      · exact Or.inl (List.mem_cons_of_mem _ h)
    · simp only [updateExisting, if_neg hk, List.mem_cons] at hkv
      rcases hkv with h | h
      · exact Or.inl (h ▸ List.mem_cons_self _ _)
      · rcases ih h with h' | h'
        · exact Or.inl (List.mem_cons_of_mem _ h')
        · exact Or.inr h'

theorem FindWithDefault_addToKey {κ : Type} [DecidableEq κ] (k k' : κ) (v : ℚ)
    (m : List (κ × ℚ)) :
    FindWithDefault (addToKey k v m) k' 0 =
      FindWithDefault m k' 0 + if k' = k then v else 0 := by
  unfold addToKey FindWithDefault
  rw [alookup_assignKey]
  by_cases h : k' = k <;> simp [h, FindWithDefault]

/-! ### Claim C4: factor-hash commutativity -/

theorem factorHashFrom_eq_sum (l : List Int) :
    ∀ init : Nat, init < U64MOD →
      factorHashFrom init l = (init + (l.map (fun x => HashInt (toU64 x))).sum) % U64MOD := by
  induction l with
  | nil =>
    intro init h
    simp [factorHashFrom, Nat.mod_eq_of_lt h]
  | cons x xs ih =>
    intro init h
    have hM : 0 < U64MOD := by decide
    have hlt : (init + HashInt (toU64 x)) % U64MOD < U64MOD := Nat.mod_lt _ hM
    calc factorHashFrom init (x :: xs)
        = factorHashFrom ((init + HashInt (toU64 x)) % U64MOD) xs := rfl
      _ = ((init + HashInt (toU64 x)) % U64MOD + (xs.map (fun y => HashInt (toU64 y))).sum) % U64MOD := ih _ hlt
      _ = (init + HashInt (toU64 x) + (xs.map (fun y => HashInt (toU64 y))).sum) % U64MOD := by
          rw [Nat.mod_add_mod]
      _ = (init + ((x :: xs).map (fun y => HashInt (toU64 y))).sum) % U64MOD := by
          simp [Nat.add_assoc]

theorem factorHash_eq_sum (l : List Int) :
    factorHash l = ((l.map (fun x => HashInt (toU64 x))).sum) % U64MOD := by
  have h := factorHashFrom_eq_sum l 0 (by decide)
  simpa [factorHash, factorHashFrom] using h

/-- Claim C4: for every multiset of label ids and any two orders in which its
elements are enumerated, the factor hash (the wrap-around sum of `HashInt` over
the elements) is identical, so scoring and gradient accumulation address the
same factor weight for any permutation of the same label multiset. -/
theorem factorHash_perm_invariant (l1 l2 : List Int) (h : l1.Perm l2) :
    factorHash l1 = factorHash l2 := by
  rw [factorHash_eq_sum, factorHash_eq_sum,
    List.Perm.sum_eq (h.map (fun x => HashInt (toU64 x)))]

/-- Witness for C4 at a concrete permutation pair. -/
theorem factorHash_perm_invariant_witness :
    ([3, 1, 2] : List Int).Perm [1, 2, 3] ∧ factorHash [3, 1, 2] = factorHash [1, 2, 3] :=
  ⟨by decide, factorHash_perm_invariant [3, 1, 2] [1, 2, 3] (by decide)⟩

/-! ### Claims C9 and C2: weight-map keys and the weight box -/

theorem applyFeatureGradients_keys (grads : List (GraphFeature × ℚ)) :
    ∀ (features : List (GraphFeature × ℚ)) (reg : ℚ),
      (applyFeatureGradients features grads reg).map Prod.fst = features.map Prod.fst := by
  induction grads with
  | nil => intro features reg; rfl
  | cons g gs ih =>
    intro features reg
    have hstep : applyFeatureGradients features (g :: gs) reg =
        applyFeatureGradients
          (if g.2 < -gradEps ∨ g.2 > gradEps then
            updateExisting g.1 (fun w => atomicAddRegularized w g.2 0 reg) features
          else features) gs reg := rfl
    rw [hstep]
    by_cases h : g.2 < -gradEps ∨ g.2 > gradEps
    · rw [if_pos h]
      exact (ih _ reg).trans (updateExisting_keys _ _ _)
    · rw [if_neg h]
      exact ih features reg

theorem applyFactorGradients_keys (grads : List (Nat × ℚ)) :
    ∀ (factor_features : List (Nat × ℚ)) (reg : ℚ),
      (applyFactorGradients factor_features grads reg).map Prod.fst =
        factor_features.map Prod.fst := by
  induction grads with
  | nil => intro features reg; rfl
  | cons g gs ih =>
    intro features reg
    have hstep : applyFactorGradients features (g :: gs) reg =
        applyFactorGradients
          (if g.2 < -gradEps ∨ g.2 > gradEps then
            updateExisting g.1
              (fun w =>
                let w := w + g.2
                let w := if w < 0 then 0 else w
                if w > reg then reg else w) features
          else features) gs reg := rfl
    rw [hstep]
    by_cases h : g.2 < -gradEps ∨ g.2 > gradEps
    · rw [if_pos h]
      exact (ih _ reg).trans (updateExisting_keys _ _ _)
    · rw [if_neg h]
      exact ih features reg

theorem alookup_eq_none_of_keys {κ ν : Type} [DecidableEq κ] (k : κ)
    (m : List (κ × ν)) (h : k ∉ m.map Prod.fst) : alookup k m = none := by
  induction m with
  | nil => rfl
  | cons kv rest ih =>
    simp only [List.map_cons, List.mem_cons] at h
    push_neg at h
    simp [alookup, h.1, ih h.2]

theorem keys_of_alookup_some {κ ν : Type} [DecidableEq κ] (k : κ) (v : ν)
    (m : List (κ × ν)) (h : alookup k m = some v) : k ∈ m.map Prod.fst := by
  induction m with
  | nil => simp [alookup] at h
  | cons kv rest ih =>
    by_cases hk : k = kv.1
    · simp [hk]
    · simp only [alookup, if_neg hk] at h
      simp [ih h]

/-- Claim C9: `SSVMLearn` and `PLLearn` never insert or delete keys of the
arc-feature or factor-feature weight maps; a gradient entry whose key is
absent is discarded, so the key lists of both maps are identical before and
after any learn call. -/
theorem learn_preserves_weight_keys (e : Engine) (q : GraphQuery)
    (asg : List Assignment) (learning_rate : ℚ) (flags : Flags)
    (shuffle : Nat → List Int → List Int) (pens : List LabelPenalty)
    (expF : ℚ → ℚ) :
    ((SSVMLearn e q asg learning_rate flags shuffle).features_.map Prod.fst =
        e.features_.map Prod.fst ∧
      (SSVMLearn e q asg learning_rate flags shuffle).factor_features_.map Prod.fst =
        e.factor_features_.map Prod.fst) ∧
    ((PLLearn e q asg pens expF learning_rate).features_.map Prod.fst =
        e.features_.map Prod.fst ∧
      (PLLearn e q asg pens expF learning_rate).factor_features_.map Prod.fst =
        e.factor_features_.map Prod.fst) :=
  ⟨⟨applyFeatureGradients_keys _ _ _, applyFactorGradients_keys _ _ _⟩,
    ⟨applyFeatureGradients_keys _ _ _, applyFactorGradients_keys _ _ _⟩⟩

theorem atomicAddRegularized_box (w v hi : ℚ) (hhi : 0 ≤ hi) :
    0 ≤ atomicAddRegularized w v 0 hi ∧ atomicAddRegularized w v 0 hi ≤ hi := by
  simp only [atomicAddRegularized]
  split_ifs <;> constructor <;> linarith

theorem applyFeatureGradients_box (grads : List (GraphFeature × ℚ)) :
    ∀ (features : List (GraphFeature × ℚ)) (reg : ℚ), 0 ≤ reg →
      (∀ kv ∈ features, 0 ≤ kv.2 ∧ kv.2 ≤ reg) →
      ∀ kv ∈ applyFeatureGradients features grads reg, 0 ≤ kv.2 ∧ kv.2 ≤ reg := by
  induction grads with
  | nil => intro features reg _ hbox kv hkv; exact hbox kv hkv
  | cons g gs ih =>
    intro features reg hreg hbox kv hkv
    have hstep : applyFeatureGradients features (g :: gs) reg =
        applyFeatureGradients
          (if g.2 < -gradEps ∨ g.2 > gradEps then
            updateExisting g.1 (fun w => atomicAddRegularized w g.2 0 reg) features
          else features) gs reg := rfl
    rw [hstep] at hkv
    by_cases h : g.2 < -gradEps ∨ g.2 > gradEps
    · rw [if_pos h] at hkv
      refine ih _ reg hreg ?_ kv hkv
      intro kv' hkv'
      rcases mem_updateExisting _ _ _ _ hkv' with h' | ⟨v, hv⟩
      · exact hbox kv' h'
      · rw [hv]
        exact atomicAddRegularized_box v g.2 reg hreg
    · rw [if_neg h] at hkv
      exact ih features reg hreg hbox kv hkv

theorem applyFactorGradients_box (grads : List (Nat × ℚ)) :
    ∀ (factor_features : List (Nat × ℚ)) (reg : ℚ), 0 ≤ reg →
      (∀ kv ∈ factor_features, 0 ≤ kv.2 ∧ kv.2 ≤ reg) →
      ∀ kv ∈ applyFactorGradients factor_features grads reg, 0 ≤ kv.2 ∧ kv.2 ≤ reg := by
  induction grads with
  | nil => intro features reg _ hbox kv hkv; exact hbox kv hkv
  | cons g gs ih =>
    intro features reg hreg hbox kv hkv
    have hstep : applyFactorGradients features (g :: gs) reg =
        applyFactorGradients
          (if g.2 < -gradEps ∨ g.2 > gradEps then
            updateExisting g.1
              (fun w =>
                let w := w + g.2
                let w := if w < 0 then 0 else w
                if w > reg then reg else w) features
          else features) gs reg := rfl
    rw [hstep] at hkv
    by_cases h : g.2 < -gradEps ∨ g.2 > gradEps
    · rw [if_pos h] at hkv
      refine ih _ reg hreg ?_ kv hkv
      intro kv' hkv'
      rcases mem_updateExisting _ _ _ _ hkv' with h' | ⟨v, hv⟩
      · exact hbox kv' h'
      · rw [hv]
        dsimp only
        split_ifs <;> constructor <;> linarith
    · rw [if_neg h] at hkv
      exact ih features reg hreg hbox kv hkv

/-- Invariant carried across training: the regularizer is `1/λ` and every
weight of both maps lies in `[0, 1/λ]`. -/
theorem runLearnCall_box (lam : ℚ) (hlam : 0 < lam) (c : LearnCall) (e : Engine)
    (hreg : e.regularizer_ = 1 / lam)
    (hf : ∀ kv ∈ e.features_, 0 ≤ kv.2 ∧ kv.2 ≤ 1 / lam)
    (hff : ∀ kv ∈ e.factor_features_, 0 ≤ kv.2 ∧ kv.2 ≤ 1 / lam) :
    (runLearnCall e c).regularizer_ = 1 / lam ∧
    (∀ kv ∈ (runLearnCall e c).features_, 0 ≤ kv.2 ∧ kv.2 ≤ 1 / lam) ∧
    (∀ kv ∈ (runLearnCall e c).factor_features_, 0 ≤ kv.2 ∧ kv.2 ≤ 1 / lam) := by
  have hregpos : (0 : ℚ) ≤ 1 / lam := le_of_lt (by positivity)
  have hrp : (0 : ℚ) ≤ e.regularizer_ := by rw [hreg]; exact hregpos
  have hf' : ∀ kv ∈ e.features_, 0 ≤ kv.2 ∧ kv.2 ≤ e.regularizer_ := by
    rw [hreg]; exact hf
  have hff' : ∀ kv ∈ e.factor_features_, 0 ≤ kv.2 ∧ kv.2 ≤ e.regularizer_ := by
    rw [hreg]; exact hff
  cases c with
  | ssvm q asg lr flags shuffle =>
    refine ⟨hreg, ?_, ?_⟩
    · intro kv hkv
      have h := applyFeatureGradients_box _ e.features_ e.regularizer_ hrp hf' kv hkv
      rwa [hreg] at h
    · intro kv hkv
      have h := applyFactorGradients_box _ e.factor_features_ e.regularizer_ hrp hff' kv hkv
      rwa [hreg] at h
  | pl q asg pens expF lr =>
    refine ⟨hreg, ?_, ?_⟩
    · intro kv hkv
      have h := applyFeatureGradients_box _ e.features_ e.regularizer_ hrp hf' kv hkv
      rwa [hreg] at h
    · intro kv hkv
      have h := applyFactorGradients_box _ e.factor_features_ e.regularizer_ hrp hff' kv hkv
      rwa [hreg] at h

theorem runLearnCalls_box (lam : ℚ) (hlam : 0 < lam) (calls : List LearnCall) :
    ∀ (e : Engine), e.regularizer_ = 1 / lam →
      (∀ kv ∈ e.features_, 0 ≤ kv.2 ∧ kv.2 ≤ 1 / lam) →
      (∀ kv ∈ e.factor_features_, 0 ≤ kv.2 ∧ kv.2 ≤ 1 / lam) →
      (∀ kv ∈ (runLearnCalls e calls).features_, 0 ≤ kv.2 ∧ kv.2 ≤ 1 / lam) ∧
      (∀ kv ∈ (runLearnCalls e calls).factor_features_, 0 ≤ kv.2 ∧ kv.2 ≤ 1 / lam) := by
  induction calls with
  | nil => intro e _ hf hff; exact ⟨hf, hff⟩
  | cons c cs ih =>
    intro e hreg hf hff
    obtain ⟨h1, h2, h3⟩ := runLearnCall_box lam hlam c e hreg hf hff
    exact ih (runLearnCall e c) h1 h2 h3

/-- Claim C2: assuming `InitializeFeatureWeights(λ)` with `λ > 0` was called
before training, after any sequence of training calls (`SSVMLearn` or
`PLLearn`) every arc-feature weight and every factor-feature weight `w`
satisfies `0 ≤ w ≤ 1/λ`. -/
theorem weight_box_invariant (e : Engine) (lam : ℚ) (hlam : 0 < lam)
    (calls : List LearnCall) :
    (∀ kv ∈ (runLearnCalls (InitializeFeatureWeights e lam) calls).features_,
      0 ≤ kv.2 ∧ kv.2 ≤ 1 / lam) ∧
    (∀ kv ∈ (runLearnCalls (InitializeFeatureWeights e lam) calls).factor_features_,
      0 ≤ kv.2 ∧ kv.2 ≤ 1 / lam) := by
  have hhalf : 0 ≤ 1 / lam * (1 / 2) ∧ 1 / lam * (1 / 2) ≤ 1 / lam := by
    constructor
    · positivity
    · have h : (0:ℚ) < 1 / lam := by positivity
      linarith
  refine runLearnCalls_box lam hlam calls _ rfl ?_ ?_
  · intro kv hkv
    simp only [InitializeFeatureWeights, List.mem_map] at hkv
    obtain ⟨kv', _, hkv'⟩ := hkv
    rw [← hkv']
    exact hhalf
  · intro kv hkv
    simp only [InitializeFeatureWeights, List.mem_map] at hkv
    obtain ⟨kv', _, hkv'⟩ := hkv
    rw [← hkv']
    exact hhalf

/-- Witness for C2 at a concrete engine, regularization constant, training
sequence and weight entry. -/
theorem weight_box_invariant_witness :
    (0 : ℚ) < 2 ∧
    ((⟨1, 2, 3⟩ : GraphFeature), (1 : ℚ) / 2 * (1 / 2)) ∈ (runLearnCalls (InitializeFeatureWeights
        ⟨[(⟨1, 2, 3⟩, 5)], [], [(0, 9)], [], [], [], [], [], -1, [], 1, 0, 0⟩ 2) []).features_ ∧
    (0 ≤ (1 : ℚ) / 2 * (1 / 2) ∧ (1 : ℚ) / 2 * (1 / 2) ≤ 1 / 2) := by
  have hmem : ((⟨1, 2, 3⟩ : GraphFeature), (1 : ℚ) / 2 * (1 / 2)) ∈
      (runLearnCalls (InitializeFeatureWeights
        ⟨[(⟨1, 2, 3⟩, 5)], [], [(0, 9)], [], [], [], [], [], -1, [], 1, 0, 0⟩ 2) []).features_ := by
    show ((⟨1, 2, 3⟩ : GraphFeature), (1 : ℚ) / 2 * (1 / 2)) ∈
      [((⟨1, 2, 3⟩ : GraphFeature), (1 : ℚ) / 2 * (1 / 2))]
    exact List.mem_singleton.mpr rfl
  exact ⟨by norm_num, hmem,
    (weight_box_invariant ⟨[(⟨1, 2, 3⟩, 5)], [], [(0, 9)], [], [], [], [], [], -1, [], 1, 0, 0⟩
        2 (by norm_num) []).1 _ hmem⟩

/-! ### Claim C6: label validator verdicts -/

theorem stringStartsAux_ge (data : List Nat) : ∀ (fuel pos p : Nat),
    p ∈ stringStartsAux data fuel pos → pos ≤ p := by
  intro fuel
  induction fuel with
  | zero => intro pos p hp; simp [stringStartsAux] at hp
  | succ n ih =>
    intro pos p hp
    simp only [stringStartsAux] at hp
    by_cases h : pos < data.length
    · rw [if_pos h] at hp
      rcases List.mem_cons.mp hp with h1 | h1
      · omega
      · have := ih _ _ h1
        omega
    · rw [if_neg h] at hp
      simp at hp

theorem stringStartsAux_nodup (data : List Nat) : ∀ (fuel pos : Nat),
    (stringStartsAux data fuel pos).Nodup := by
  intro fuel
  induction fuel with
  | zero => intro pos; simp [stringStartsAux]
  | succ n ih =>
    intro pos
    simp only [stringStartsAux]
    by_cases h : pos < data.length
    · rw [if_pos h]
      refine List.nodup_cons.mpr ⟨?_, ih _⟩
      intro hmem
      have := stringStartsAux_ge data _ _ _ hmem
      omega
    · rw [if_neg h]
      exact List.nodup_nil

theorem stringStarts_nodup (data : List Nat) (pos : Nat) :
    (stringStarts data pos).Nodup :=
  stringStartsAux_nodup data _ _

theorem probeFind_spec (data : List Nat) (hashes : List Int) (s : ByteStr) :
    ∀ (fuel p : Nat), probeFind data hashes s fuel p = -1 ∨
      getString data (probeFind data hashes s fuel p).toNat = s := by
  intro fuel
  induction fuel with
  | zero => intro p; exact Or.inl rfl
  | succ n ih =>
    intro p
    simp only [probeFind]
    by_cases h1 : hashes.getD p (-1) = -1
    · rw [if_pos h1]; exact Or.inl rfl
    · rw [if_neg h1]
      by_cases h2 : getString data (hashes.getD p (-1)).toNat = s
      · rw [if_pos h2]; exact Or.inr h2
      · rw [if_neg h2]; exact ih _

theorem findString_spec (ss : StringSet) (s : ByteStr) :
    findString ss s = -1 ∨ getString ss.m_data (findString ss s).toNat = s := by
  unfold findString
  by_cases h : ss.m_hashes.length = 0
  · rw [if_pos h]; exact Or.inl rfl
  · rw [if_neg h]; exact probeFind_spec _ _ _ _ _

theorem regexFold_notmem (rm : ByteStr → ByteStr → Bool) (rule : CheckingRule)
    (data : List Nat) (id : Nat) (strings : List Nat) (hid : id ∉ strings) :
    ∀ vl, alookup (Int.ofNat id)
        (strings.foldl (applyRegexRuleOnLabel rm rule data) vl) =
      alookup (Int.ofNat id) vl := by
  induction strings with
  | nil => intro vl; rfl
  | cons l ls ih =>
    intro vl
    have hl : l ≠ id := fun h => hid (h ▸ List.mem_cons_self _ _)
    have hid' : id ∉ ls := fun h => hid (List.mem_cons_of_mem _ h)
    rw [List.foldl_cons, ih hid']
    have hne : (Int.ofNat id) ≠ (Int.ofNat l) := fun h => hl (Int.ofNat.inj h).symm
    simp only [applyRegexRuleOnLabel]
    split_ifs <;> simp [alookup_assignKey, hne, Ne.symm hl]

theorem regexFold_mem (rm : ByteStr → ByteStr → Bool) (rule : CheckingRule)
    (data : List Nat) (id : Nat) (name : ByteStr)
    (hname : getString data id = name) :
    ∀ (strings : List Nat), strings.Nodup → id ∈ strings →
    ∀ vl, alookup (Int.ofNat id)
        (strings.foldl (applyRegexRuleOnLabel rm rule data) vl) =
      (if name.length > 100 then some false
       else if rm rule.re_str_ name then some rule.valid_
       else alookup (Int.ofNat id) vl) := by
  intro strings
  induction strings with
  | nil => intro _ hid; simp at hid
  | cons l ls ih =>
    intro hnd hid vl
    rw [List.foldl_cons]
    rcases List.mem_cons.mp hid with h | h
    · have hnotin : id ∉ ls := by
        rw [h]; exact (List.nodup_cons.mp hnd).1
      rw [regexFold_notmem rm rule data id ls hnotin]
      simp only [applyRegexRuleOnLabel, ← h, hname]
      split_ifs <;> simp [alookup_assignKey]
    · have hnd' : ls.Nodup := (List.nodup_cons.mp hnd).2
      rw [ih hnd' h]
      by_cases hlen : name.length > 100
      · simp [hlen]
      · by_cases hrm : rm rule.re_str_ name
        · simp [hlen, hrm]
        · simp only [if_neg hlen, if_neg hrm]
          by_cases hl : l = id
          · rw [hl]
            simp only [applyRegexRuleOnLabel, hname]
            rw [if_neg hlen, if_neg hrm]
          · have hne : (Int.ofNat id) ≠ (Int.ofNat l) := fun h' => hl (Int.ofNat.inj h').symm
            simp only [applyRegexRuleOnLabel]
            split_ifs <;> simp [alookup_assignKey, hne, Ne.symm hl]

theorem applyRule_tracks (rm : ByteStr → ByteStr → Bool) (ss : StringSet)
    (id : Nat) (name : ByteStr) (hname : getString ss.m_data id = name)
    (hmem : id ∈ stringStarts ss.m_data 0)
    (hself : findString ss name = Int.ofNat id) (rule : CheckingRule) :
    ∀ (vl : List (Int × Bool)) (acc : Option Bool),
      alookup (Int.ofNat id) vl = acc →
      alookup (Int.ofNat id)
          (applyRuleInSS rm ss (stringStarts ss.m_data 0) vl rule) =
        lastTouchStep rm name acc rule := by
  intro vl acc hacc
  unfold applyRuleInSS lastTouchStep
  by_cases hre : IsRegEx rule.re_str_
  · rw [if_pos hre, if_pos hre]
    rw [regexFold_mem rm rule ss.m_data id name hname _
      (stringStarts_nodup ss.m_data 0) hmem vl, hacc]
  · rw [if_neg hre, if_neg hre]
    by_cases hbody : rule.re_str_ = name
    · rw [if_pos hbody]
      have hfind : findString ss rule.re_str_ = Int.ofNat id := hbody ▸ hself
      rw [hfind]
      have hge : (Int.ofNat id : Int) ≥ 0 := Int.ofNat_nonneg id
      rw [if_pos hge, alookup_assignKey]
      simp
    · rw [if_neg hbody]
      rcases findString_spec ss rule.re_str_ with hf | hf
      · rw [hf]
        norm_num
        exact hacc
      · by_cases hge : findString ss rule.re_str_ ≥ 0
        · rw [if_pos hge, alookup_assignKey]
          have hne : (Int.ofNat id) ≠ findString ss rule.re_str_ := by
            intro he
            apply hbody
            rw [← hf, ← he]
            simpa using hname
          rw [if_neg hne]
          exact hacc
        · rw [if_neg hge]
          exact hacc

theorem applyRules_tracks (rm : ByteStr → ByteStr → Bool) (ss : StringSet)
    (id : Nat) (name : ByteStr) (hname : getString ss.m_data id = name)
    (hmem : id ∈ stringStarts ss.m_data 0)
    (hself : findString ss name = Int.ofNat id) (rules : List CheckingRule) :
    ∀ (vl : List (Int × Bool)) (acc : Option Bool),
      alookup (Int.ofNat id) vl = acc →
      alookup (Int.ofNat id)
          (rules.foldl (applyRuleInSS rm ss (stringStarts ss.m_data 0)) vl) =
        rules.foldl (lastTouchStep rm name) acc := by
  induction rules with
  | nil => intro vl acc hacc; exact hacc
  | cons r rs ih =>
    intro vl acc hacc
    rw [List.foldl_cons, List.foldl_cons]
    exact ih _ _ (applyRule_tracks rm ss id name hname hmem hself r vl acc hacc)

/-- Amended claim C6: after loading the validator rules, `is_valid(id)` equals
the sign of the last rule that *touches* the id — a literal rule touches the
id whose interned name equals its body with its own sign; a regex rule touches
every id whose name exceeds 100 bytes with "invalid" (whether or not the regex
matches) and every other id whose name matches with its own sign; an id touched
by no rule is invalid.  (The original claim fails because a literal rule can
validate a name longer than 100 bytes, and a later regex rule invalidates such
a name even when it does not match it.) -/
theorem label_checker_verdict (rm : ByteStr → ByteStr → Bool)
    (rules : List CheckingRule) (ss : StringSet) (id : Nat) (name : ByteStr)
    (hname : getString ss.m_data id = name)
    (hmem : id ∈ stringStarts ss.m_data 0)
    (hself : findString ss name = Int.ofNat id) :
    checkerValidLookup (ApplyRulesOnAllValuesInSS rm rules ss) (Int.ofNat id) =
      lastTouchVerdict rm rules name := by
  unfold checkerValidLookup ApplyRulesOnAllValuesInSS lastTouchVerdict FindWithDefault
  rw [applyRules_tracks rm ss id name hname hmem hself rules [] none rfl]

/-- Witness for the amended C6 at a concrete dictionary and rule list. -/
theorem label_checker_verdict_witness :
    getString (addString emptyStringSet [97, 98]).1.m_data 0 = [97, 98] ∧
    0 ∈ stringStarts (addString emptyStringSet [97, 98]).1.m_data 0 ∧
    findString (addString emptyStringSet [97, 98]).1 [97, 98] = Int.ofNat 0 ∧
    checkerValidLookup
        (ApplyRulesOnAllValuesInSS (fun _ _ => false)
          [⟨true, [97, 98]⟩, ⟨false, [99]⟩] (addString emptyStringSet [97, 98]).1)
        (Int.ofNat 0) =
      lastTouchVerdict (fun _ _ => false) [⟨true, [97, 98]⟩, ⟨false, [99]⟩] [97, 98] :=
  ⟨by decide, by decide, by decide,
    label_checker_verdict (fun _ _ => false) [⟨true, [97, 98]⟩, ⟨false, [99]⟩]
      (addString emptyStringSet [97, 98]).1 0 [97, 98]
      (by decide) (by decide) (by decide)⟩

set_option maxRecDepth 40000 in
/-- Counterexample to C6 as frozen: a single positive literal rule whose body
is a 101-byte name validates that name, although the claim asserts that an id
whose name is longer than 100 bytes is invalid regardless of which rules match
it. -/
theorem label_checker_long_name_counterexample :
    checkerValidLookup
        (ApplyRulesOnAllValuesInSS (fun _ _ => false)
          [⟨true, List.replicate 101 97⟩]
          (addString emptyStringSet (List.replicate 101 97)).1)
        (Int.ofNat 0) = true ∧
    getString (addString emptyStringSet (List.replicate 101 97)).1.m_data 0 =
      List.replicate 101 97 ∧
    specLastMatchVerdict (fun _ _ => false) [⟨true, List.replicate 101 97⟩]
      (List.replicate 101 97) = false := by
  refine ⟨by decide, by decide, ?_⟩
  decide

/-! ### Claim C7: permutation enumeration strategy -/

theorem samplePermLoopAux_length (shuffle : Nat → List Int → List Int)
    (beam : Nat) : ∀ (fuel count : Nat) (cur : List Int), fuel = beam - count →
      (samplePermLoopAux shuffle beam fuel count cur).length = beam - count := by
  intro fuel
  induction fuel with
  | zero =>
    intro count cur h
    simp [samplePermLoopAux, ← h]
  | succ n ih =>
    intro count cur h
    have hlt : count < beam := by omega
    simp only [samplePermLoopAux, if_pos hlt, List.length_cons]
    rw [ih (count + 1) _ (by omega)]
    omega

theorem samplePermLoopAux_perm (shuffle : Nat → List Int → List Int)
    (beam : Nat) (hsh : ∀ i l, (shuffle i l).Perm l) :
    ∀ (fuel count : Nat) (cur : List Int),
      ∀ p ∈ samplePermLoopAux shuffle beam fuel count cur, p.Perm cur := by
  intro fuel
  induction fuel with
  | zero => intro count cur p hp; simp [samplePermLoopAux] at hp
  | succ n ih =>
    intro count cur p hp
    simp only [samplePermLoopAux] at hp
    by_cases hlt : count < beam
    · rw [if_pos hlt] at hp
      rcases List.mem_cons.mp hp with h | h
      · exact h ▸ List.Perm.refl _
      · exact (ih _ _ p h).trans (hsh count cur)
    · rw [if_neg hlt] at hp
      simp at hp

theorem replaceFirstGreater_perm (p : Int) : ∀ (l : List Int),
    ((replaceFirstGreater p l).1 :: (replaceFirstGreater p l).2).Perm (p :: l) := by
  intro l
  induction l with
  | nil => simp [replaceFirstGreater]
  | cons x xs ih =>
    by_cases h : p < x
    · simp only [replaceFirstGreater, if_pos h]
      exact List.Perm.swap _ _ _
    · simp only [replaceFirstGreater, if_neg h]
      have h1 : ((replaceFirstGreater p xs).1 :: x :: (replaceFirstGreater p xs).2).Perm
          (x :: (replaceFirstGreater p xs).1 :: (replaceFirstGreater p xs).2) :=
        List.Perm.swap _ _ _
      have h2 : (x :: (replaceFirstGreater p xs).1 ::
          (replaceFirstGreater p xs).2).Perm (x :: p :: xs) := List.Perm.cons x ih
      have h3 : (x :: p :: xs).Perm (p :: x :: xs) := List.Perm.swap _ _ _
      exact (h1.trans h2).trans h3

theorem replaceFirstGreater_gt (p : Int) : ∀ (l : List Int),
    (∃ x ∈ l, p < x) → p < (replaceFirstGreater p l).1 := by
  intro l
  induction l with
  | nil => intro h; simp at h
  | cons x xs ih =>
    intro h
    by_cases hx : p < x
    · simp only [replaceFirstGreater, if_pos hx]
      exact hx
    · simp only [replaceFirstGreater, if_neg hx]
      apply ih
      rcases h with ⟨y, hy, hpy⟩
      rcases List.mem_cons.mp hy with h1 | h1
      · exact absurd (h1 ▸ hpy) hx
      · exact ⟨y, h1, hpy⟩

theorem nextPermAux_perm : ∀ (rem suff r : List Int),
    nextPermAux suff rem = some r → r.Perm (rem.reverse ++ suff) := by
  intro rem
  induction rem with
  | nil => intro suff r h; simp [nextPermAux] at h
  | cons p rest ih =>
    intro suff r h
    cases suff with
    | nil =>
      simp only [nextPermAux] at h
      have := ih [p] r h
      simpa using this
    | cons s ss =>
      simp only [nextPermAux] at h
      by_cases hlt : p < s
      · rw [if_pos hlt] at h
        have hr : r = rest.reverse ++
            (replaceFirstGreater p (s :: ss).reverse).1 ::
              (replaceFirstGreater p (s :: ss).reverse).2 := by
          simpa using h.symm
        have hsrc : (p :: rest).reverse ++ (s :: ss) =
            rest.reverse ++ (p :: (s :: ss)) := by simp
        rw [hr, hsrc]
        refine List.Perm.append (List.Perm.refl _) ?_
        have h1 := replaceFirstGreater_perm p (s :: ss).reverse
        have h2 : (p :: (s :: ss).reverse).Perm (p :: (s :: ss)) :=
          List.Perm.cons p (List.reverse_perm _)
        exact h1.trans h2
      · rw [if_neg hlt] at h
        have := ih (p :: (s :: ss)) r h
        simpa using this

theorem nextPermutation_perm (l l' : List Int) (h : nextPermutation l = some l') :
    l'.Perm l := by
  have := nextPermAux_perm l.reverse [] l' h
  simpa using this

theorem lex_append_left (pre : List Int) (t1 t2 : List Int)
    (h : List.Lex (· < ·) t1 t2) :
    List.Lex (· < ·) (pre ++ t1) (pre ++ t2) := by
  induction pre with
  | nil => exact h
  | cons x xs ih => exact List.Lex.cons ih

theorem nextPermAux_lex : ∀ (rem suff r : List Int),
    nextPermAux suff rem = some r → List.Lex (· < ·) (rem.reverse ++ suff) r := by
  intro rem
  induction rem with
  | nil => intro suff r h; simp [nextPermAux] at h
  | cons p rest ih =>
    intro suff r h
    cases suff with
    | nil =>
      simp only [nextPermAux] at h
      have := ih [p] r h
      simpa using this
    | cons s ss =>
      simp only [nextPermAux] at h
      by_cases hlt : p < s
      · rw [if_pos hlt] at h
        have hr : r = rest.reverse ++
            (replaceFirstGreater p (s :: ss).reverse).1 ::
              (replaceFirstGreater p (s :: ss).reverse).2 := by
          simpa using h.symm
        have hsrc : (p :: rest).reverse ++ (s :: ss) =
            rest.reverse ++ (p :: (s :: ss)) := by simp
        rw [hr, hsrc]
        apply lex_append_left
        apply List.Lex.rel
        apply replaceFirstGreater_gt
        exact ⟨s, by simp, hlt⟩
      · rw [if_neg hlt] at h
        have := ih (p :: (s :: ss)) r h
        have hsrc : (p :: rest).reverse ++ (s :: ss) =
            rest.reverse ++ (p :: (s :: ss)) := by simp
        rw [hsrc]
        exact this

theorem nextPermutation_lex (l l' : List Int) (h : nextPermutation l = some l') :
    List.Lex (· < ·) l l' := by
  have := nextPermAux_lex l.reverse [] l' h
  simpa using this

theorem lexPermLoopAux_head (beam : Nat) : ∀ (fuel count : Nat) (cur : List Int),
    (lexPermLoopAux beam fuel count cur).head? = some cur := by
  intro fuel
  cases fuel with
  | zero => intro count cur; rfl
  | succ n =>
    intro count cur
    cases hnp : nextPermutation cur with
    | none => simp [lexPermLoopAux, hnp]
    | some nxt =>
      by_cases h : count + 1 < beam <;> simp [lexPermLoopAux, hnp, h]

theorem lexPermLoopAux_chain (beam : Nat) : ∀ (fuel count : Nat) (cur : List Int),
    List.Chain' (fun a b => nextPermutation a = some b)
      (lexPermLoopAux beam fuel count cur) := by
  intro fuel
  induction fuel with
  | zero => intro count cur; simp [lexPermLoopAux]
  | succ n ih =>
    intro count cur
    cases hnp : nextPermutation cur with
    | none => simp [lexPermLoopAux, hnp]
    | some nxt =>
      by_cases h : count + 1 < beam
      · simp only [lexPermLoopAux, hnp, if_pos h]
        refine List.chain'_cons'.mpr ⟨?_, ih (count + 1) nxt⟩
        intro y hy
        rw [lexPermLoopAux_head beam n (count + 1) nxt] at hy
        cases hy
        exact hnp
      · simp [lexPermLoopAux, hnp, h]

theorem lexPermLoopAux_perm (beam : Nat) : ∀ (fuel count : Nat) (cur : List Int),
    ∀ p ∈ lexPermLoopAux beam fuel count cur, p.Perm cur := by
  intro fuel
  induction fuel with
  | zero =>
    intro count cur p hp
    rcases List.mem_singleton.mp hp with h
    exact h ▸ List.Perm.refl _
  | succ n ih =>
    intro count cur p hp
    cases hnp : nextPermutation cur with
    | none =>
      simp only [lexPermLoopAux, hnp] at hp
      rcases List.mem_singleton.mp hp with h
      exact h ▸ List.Perm.refl _
    | some nxt =>
      simp only [lexPermLoopAux, hnp] at hp
      by_cases h : count + 1 < beam
      · rw [if_pos h] at hp
        rcases List.mem_cons.mp hp with h1 | h1
        · exact h1 ▸ List.Perm.refl _
        · exact (ih _ nxt p h1).trans (nextPermutation_perm cur nxt hnp)
      · rw [if_neg h] at hp
        rcases List.mem_singleton.mp hp with h1
        exact h1 ▸ List.Perm.refl _

theorem lexPermLoopAux_length (beam : Nat) : ∀ (fuel count : Nat) (cur : List Int),
    (lexPermLoopAux beam fuel count cur).length ≤ max (beam - count) 1 := by
  intro fuel
  induction fuel with
  | zero => intro count cur; simp [lexPermLoopAux]
  | succ n ih =>
    intro count cur
    cases hnp : nextPermutation cur with
    | none => simp [lexPermLoopAux, hnp]
    | some nxt =>
      by_cases h : count + 1 < beam
      · simp only [lexPermLoopAux, hnp, if_pos h, List.length_cons]
        have := ih (count + 1) nxt
        omega
      · simp [lexPermLoopAux, hnp, h]

/-- Counterexample to C7 as frozen: with `permutations_beam_size` equal to
`UINT64_MAX` and 21 free labels, `21!` overflows an unsigned 64-bit integer
(and also exceeds the beam size), yet the branch guard
`num_permutations < 0 || num_permutations > permutations_beam_size` — with the
overflow reported as the `uint64` value `UINT64_MAX` and the signedness test
identically false — selects the exhaustive lexicographic branch, not the
random-sampling branch the claim requires. -/
theorem factorial_overflow_branch_counterexample :
    CalculateFactorial 21 = UINT64MAX ∧
    Nat.factorial 21 > UINT64MAX ∧
    usesSampling 21 UINT64MAX = false := by
  refine ⟨by decide, ?_, by decide⟩
  decide

/-- Amended claim C7: the engine samples random shuffles exactly when the
computed `CalculateFactorial(k)` — which saturates at `UINT64_MAX` on overflow
— exceeds `permutations_beam_size`; in that case it evaluates exactly
`permutations_beam_size` random-shuffle samples of the free labels.  Otherwise
it enumerates distinct permutations in strictly increasing lexicographic
order via `std::next_permutation`, starting from the ascending sort of the
free labels and evaluating at most `max(permutations_beam_size, 1)`
permutations. -/
theorem per_factor_permutation_enumeration (k beam : Nat) (labels : List Int)
    (shuffle : Nat → List Int → List Int) (hk : labels.length = k)
    (hsh : ∀ i l, (shuffle i l).Perm l) :
    (usesSampling k beam = true ↔ CalculateFactorial k > beam) ∧
    (usesSampling k beam = true →
      (permutationSequence beam shuffle labels).length = beam ∧
      ∀ p ∈ permutationSequence beam shuffle labels, p.Perm labels) ∧
    (usesSampling k beam = false →
      (permutationSequence beam shuffle labels).head? =
        some (labels.insertionSort (fun x y => x ≤ y)) ∧
      (∀ p ∈ permutationSequence beam shuffle labels, p.Perm labels) ∧
      List.Chain' (fun a b => nextPermutation a = some b)
        (permutationSequence beam shuffle labels) ∧
      List.Chain' (List.Lex (· < ·)) (permutationSequence beam shuffle labels) ∧
      (permutationSequence beam shuffle labels).length ≤ max beam 1) := by
  subst hk
  refine ⟨by simp [usesSampling, numPermutationsLtZero], ?_, ?_⟩
  · intro hus
    unfold permutationSequence
    rw [hus]
    simp only [if_pos]
    constructor
    · have := samplePermLoopAux_length shuffle beam beam 0 labels (by omega)
      simpa [samplePermLoop] using this
    · intro p hp
      exact samplePermLoopAux_perm shuffle beam hsh _ 0 labels p hp
  · intro hus
    unfold permutationSequence
    rw [hus]
    simp only [Bool.false_eq_true, if_false]
    refine ⟨?_, ?_, ?_, ?_, ?_⟩
    · exact lexPermLoopAux_head beam _ 0 _
    · intro p hp
      exact (lexPermLoopAux_perm beam _ 0 _ p hp).trans
        (List.perm_insertionSort _ _)
    · exact lexPermLoopAux_chain beam _ 0 _
    · exact (lexPermLoopAux_chain beam _ 0 _).imp
        (fun a b hab => nextPermutation_lex a b hab)
    · have := lexPermLoopAux_length beam (beam - 0) 0 (labels.insertionSort (fun x y => x ≤ y))
      simp only [Nat.sub_zero] at this
      exact le_trans this (by omega)

/-- Witness for the amended C7 at a concrete beam and label list. -/
theorem per_factor_permutation_enumeration_witness :
    ([2, 1, 3] : List Int).length = 3 ∧
    (usesSampling 3 2 = true ↔ CalculateFactorial 3 > 2) ∧
    (permutationSequence 2 (fun _ l => l) [2, 1, 3]).length = 2 :=
  ⟨rfl,
    (per_factor_permutation_enumeration 3 2 [2, 1, 3] (fun _ l => l) rfl
      (fun _ l => List.Perm.refl l)).1,
    ((per_factor_permutation_enumeration 3 2 [2, 1, 3] (fun _ l => l) rfl
      (fun _ l => List.Perm.refl l)).2.1 (by decide)).1⟩

/-! ### Claim C10: label truncation and out-of-range assignments -/

theorem alookup_append_some {κ ν : Type} [DecidableEq κ] (k : κ) (v : ν)
    (l1 l2 : List (κ × ν)) (h : alookup k l1 = some v) :
    alookup k (l1 ++ l2) = some v := by
  induction l1 with
  | nil => simp [alookup] at h
  | cons kv rest ih =>
    by_cases hk : k = kv.1
    · simp only [alookup, if_pos hk] at h ⊢
      exact h
    · simp only [alookup, if_neg hk] at h ⊢
      exact ih h

theorem alookup_append_none {κ ν : Type} [DecidableEq κ] (k : κ)
    (l1 l2 : List (κ × ν)) (h : alookup k l1 = none) :
    alookup k (l1 ++ l2) = alookup k l2 := by
  induction l1 with
  | nil => rfl
  | cons kv rest ih =>
    by_cases hk : k = kv.1
    · simp only [alookup, if_pos hk] at h
      exact absurd h (by simp)
    · simp only [alookup, if_neg hk] at h ⊢
      exact ih h

theorem AddLabelName_resolves (ss : StringSet) (cv : ByteStr → Bool)
    (ls : LabelSet) (name : ByteStr) :
    resolvesTo ss (AddLabelName ss cv ls name).1 name (AddLabelName ss cv ls name).2 := by
  unfold AddLabelName resolvesTo
  by_cases h : findString ss name ≥ 0
  · rw [if_pos h]
    exact Or.inl ⟨rfl, h⟩
  · rw [if_neg h]
    cases hl : alookup name ls.added_labels_by_name_ with
    | some k =>
      exact Or.inr ⟨h, k, hl, rfl⟩
    | none =>
      refine Or.inr ⟨h, ls.added_labels_by_label_id_.length, ?_, rfl⟩
      exact alookup_append_none name _ _ hl |>.trans (by simp [alookup])

theorem AddLabelName_preserves (ss : StringSet) (cv : ByteStr → Bool)
    (ls : LabelSet) (name other : ByteStr) (id : Int)
    (h : resolvesTo ss ls name id) :
    resolvesTo ss (AddLabelName ss cv ls other).1 name id := by
  rcases h with h | ⟨hss, k, hk, hid⟩
  · exact Or.inl h
  · unfold AddLabelName
    by_cases hf : findString ss other ≥ 0
    · rw [if_pos hf]
      exact Or.inr ⟨hss, k, hk, hid⟩
    · rw [if_neg hf]
      cases hl : alookup other ls.added_labels_by_name_ with
      | some k2 => exact Or.inr ⟨hss, k, hk, hid⟩
      | none =>
        refine Or.inr ⟨hss, k, ?_, hid⟩
        exact alookup_append_some name k _ _ hk

theorem AddLabelName_of_resolves (ss : StringSet) (cv : ByteStr → Bool)
    (ls : LabelSet) (name : ByteStr) (id : Int) (h : resolvesTo ss ls name id) :
    AddLabelName ss cv ls name = (ls, id) := by
  unfold AddLabelName
  rcases h with ⟨hf, hge⟩ | ⟨hss, k, hk, hid⟩
  · rw [if_pos (hf ▸ hge)]
    rw [hf]
  · rw [if_neg hss, hk, hid]

theorem resolvesTo_unique (ss : StringSet) (ls : LabelSet) (name : ByteStr)
    (id1 id2 : Int) (h1 : resolvesTo ss ls name id1)
    (h2 : resolvesTo ss ls name id2) : id1 = id2 := by
  rcases h1 with ⟨hf1, _⟩ | ⟨hss1, k1, hk1, hid1⟩ <;>
    rcases h2 with ⟨hf2, _⟩ | ⟨hss2, k2, hk2, hid2⟩
  · rw [← hf1, ← hf2]
  · exact absurd (by omega : findString ss name ≥ 0) hss2
  · exact absurd (by omega : findString ss name ≥ 0) hss1
  · rw [hid1, hid2, Option.some_inj.mp (hk1.symm.trans hk2)]

theorem fromProtoLS_preserves (ss : StringSet) (cv : ByteStr → Bool)
    (name : ByteStr) (id : Int) :
    ∀ (entries : List NodeAssignmentProto) (ls : LabelSet),
      resolvesTo ss ls name id →
      resolvesTo ss (fromProtoLS ss cv ls entries) name id := by
  intro entries
  induction entries with
  | nil => intro ls h; exact h
  | cons e rest ih =>
    intro ls h
    exact ih _ (AddLabelName_preserves ss cv ls name _ id h)

theorem fromProtoIds_resolve (ss : StringSet) (cv : ByteStr → Bool) :
    ∀ (entries : List NodeAssignmentProto) (ls : LabelSet) (t : Nat),
      t < entries.length →
      resolvesTo ss (fromProtoLS ss cv ls entries)
        (cstrOf ((entries.getD t defaultProtoEntry).label.take MAX_NAME_LEN))
        ((fromProtoIds ss cv ls entries).getD t 0) := by
  intro entries
  induction entries with
  | nil => intro ls t ht; simp at ht
  | cons e rest ih =>
    intro ls t ht
    cases t with
    | zero =>
      simp only [fromProtoIds, fromProtoLS, List.getD_cons_zero]
      exact fromProtoLS_preserves ss cv _ _ rest _ (AddLabelName_resolves ss cv ls _)
    | succ n =>
      simp only [fromProtoIds, fromProtoLS, List.getD_cons_succ]
      exact ih _ n (by simpa using ht)

theorem fromProto_assignments_length (ss : StringSet) (cv : ByteStr → Bool)
    (vc : Nat) (entries : List NodeAssignmentProto) :
    ∀ (st : LabelSet × List Assignment),
      (entries.foldl (fromProtoStep ss cv vc) st).2.length = st.2.length := by
  induction entries with
  | nil => intro st; rfl
  | cons e rest ih =>
    intro st
    rw [List.foldl_cons, ih]
    unfold fromProtoStep
    by_cases h : e.node_index < vc
    · simp [h]
    · simp [h]

theorem fromProto_ls_component (ss : StringSet) (cv : ByteStr → Bool) (vc : Nat)
    (entries : List NodeAssignmentProto) :
    ∀ (st : LabelSet × List Assignment),
      (entries.foldl (fromProtoStep ss cv vc) st).1 = fromProtoLS ss cv st.1 entries := by
  induction entries with
  | nil => intro st; rfl
  | cons e rest ih =>
    intro st
    rw [List.foldl_cons, ih]
    show fromProtoLS ss cv (fromProtoStep ss cv vc st e).1 rest = _
    have hstep : (fromProtoStep ss cv vc st e).1 =
        (AddLabelName ss cv st.1 (cstrOf (e.label.take MAX_NAME_LEN))).1 := by
      unfold fromProtoStep
      by_cases h : e.node_index < vc
      · rw [if_pos h]
      · rw [if_neg h]
    rw [hstep]
    rfl

/-- Claim C10: when an assignment is built from an incoming request, every
provided label string is truncated to its first `MAX_NAME_LEN` = 1024 bytes
(and cut at the first embedded NUL, as a C string) before being interned, so
two provided labels that agree on their first 1024 bytes receive the same
label id; the assignment vector has exactly the query's node count entries,
and a provided node assignment whose node index is not below the node count
leaves the assignment vector unchanged. -/
theorem from_proto_truncation_and_range (ss : StringSet) (cv : ByteStr → Bool)
    (q : GraphQuery) (entries : List NodeAssignmentProto) (ls : LabelSet)
    (i j : Nat) (hi : i < entries.length) (hj : j < entries.length)
    (hsame : cstrOf ((entries.getD i defaultProtoEntry).label.take MAX_NAME_LEN) =
      cstrOf ((entries.getD j defaultProtoEntry).label.take MAX_NAME_LEN)) :
    (fromProtoIds ss cv ls entries).getD i 0 =
      (fromProtoIds ss cv ls entries).getD j 0 ∧
    (FromNodeAssignmentsProto ss cv q entries ls).1 = fromProtoLS ss cv ls entries ∧
    (FromNodeAssignmentsProto ss cv q entries ls).2.length =
      q.arcs_adjacent_to_node_.length ∧
    (∀ (st : LabelSet × List Assignment) (entry : NodeAssignmentProto),
      ¬(entry.node_index < q.arcs_adjacent_to_node_.length) →
      (fromProtoStep ss cv q.arcs_adjacent_to_node_.length st entry).2 = st.2) := by
  refine ⟨?_, ?_, ?_, ?_⟩
  · have h1 := fromProtoIds_resolve ss cv entries ls i hi
    have h2 := fromProtoIds_resolve ss cv entries ls j hj
    rw [hsame] at h1
    exact resolvesTo_unique ss _ _ _ _ h1 h2
  · exact fromProto_ls_component ss cv _ entries _
  · rw [FromNodeAssignmentsProto, fromProto_assignments_length]
    exact List.length_replicate _ _
  · intro st entry h
    unfold fromProtoStep
    rw [if_neg h]

/-- Witness for C10 at a concrete request with two labels agreeing on their
truncations and one out-of-range node index. -/
theorem from_proto_truncation_and_range_witness :
    (0 : Nat) < c10Entries.length ∧ (1 : Nat) < c10Entries.length ∧
    cstrOf ((c10Entries.getD 0 defaultProtoEntry).label.take MAX_NAME_LEN) =
      cstrOf ((c10Entries.getD 1 defaultProtoEntry).label.take MAX_NAME_LEN) ∧
    (fromProtoIds emptyStringSet (fun _ => true) c10LS c10Entries).getD 0 0 =
      (fromProtoIds emptyStringSet (fun _ => true) c10LS c10Entries).getD 1 0 :=
  ⟨by decide, by decide, by decide,
    (from_proto_truncation_and_range emptyStringSet (fun _ => true) c10Query
      c10Entries c10LS 0 1 (by decide) (by decide) (by decide)).1⟩

/-! ### Claim C8: NBest candidate lists -/

theorem getCandidatesForNode_scored (e : Engine) (q : GraphQuery)
    (asg : List Assignment) (pens : List LabelPenalty) (node : Nat) :
    ∀ (l : List Int) (acc : List (Int × ℚ)),
      l.foldl (fun acc candidate =>
          if ¬IsLabelValid e candidate then acc
          else acc ++
            [(candidate, GetNodeScore e q (setLabel asg node candidate) pens node)]) acc
        = acc ++ (l.filter (fun c => IsLabelValid e c)).map
            (fun c => (c, GetNodeScore e q (setLabel asg node c) pens node)) := by
  intro l
  induction l with
  | nil => intro acc; simp
  | cons a l ih =>
    intro acc
    rw [List.foldl_cons]
    cases h : IsLabelValid e a with
    | true =>
      rw [if_neg (by simp [h]), ih]
      simp [List.filter_cons, h]
    | false =>
      rw [if_pos (by simp [h]), ih]
      simp [List.filter_cons, h]

theorem getCandidatesForNode_eq (e : Engine) (q : GraphQuery)
    (asg : List Assignment) (pens : List LabelPenalty) (node : Nat) :
    GetCandidatesForNode e q asg pens node
      = (((GetLabelCandidates e q asg node kMaxBeamSize).filter
            (fun c => IsLabelValid e c)).map
          (fun c => (c, GetNodeScore e q (setLabel asg node c) pens node))).insertionSort
          candGE := by
  simp only [GetCandidatesForNode]
  rw [getCandidatesForNode_scored e q asg pens node _ []]
  simp

theorem getCandidatesForNode_sorted (e : Engine) (q : GraphQuery)
    (asg : List Assignment) (pens : List LabelPenalty) (node : Nat) :
    List.Sorted candGE (GetCandidatesForNode e q asg pens node) := by
  rw [getCandidatesForNode_eq]
  exact List.sorted_insertionSort candGE _

theorem mem_getCandidatesForNode (e : Engine) (q : GraphQuery)
    (asg : List Assignment) (pens : List LabelPenalty) (node : Nat) (c : Int × ℚ)
    (hc : c ∈ GetCandidatesForNode e q asg pens node) :
    IsLabelValid e c.1 = true ∧
    c.1 ∈ GetLabelCandidates e q asg node kMaxBeamSize ∧
    c.2 = GetNodeScore e q (setLabel asg node c.1) pens node := by
  rw [getCandidatesForNode_eq] at hc
  have hc2 := (List.perm_insertionSort candGE _).mem_iff.mp hc
  obtain ⟨a, haf, hac⟩ := List.mem_map.mp hc2
  obtain ⟨ham, hav⟩ := List.mem_filter.mp haf
  subst hac
  exact ⟨by simpa using hav, ham, rfl⟩

theorem getNBest_fold (e : Engine) (q : GraphQuery) (asg : List Assignment)
    (pens : List LabelPenalty) (n : Nat) :
    ∀ (l : List Nat) (acc : List (Nat × List (Int × ℚ))),
      l.foldl (fun acc i =>
          if mustInferAt asg i then
            acc ++ [(i, (GetCandidatesForNode e q asg pens i).take n)]
          else acc) acc
        = acc ++ (l.filter (fun i => mustInferAt asg i)).map
            (fun i => (i, (GetCandidatesForNode e q asg pens i).take n)) := by
  intro l
  induction l with
  | nil => intro acc; simp
  | cons a l ih =>
    intro acc
    rw [List.foldl_cons]
    cases h : mustInferAt asg a with
    | true =>
      rw [if_pos rfl, ih]
      simp [List.filter_cons, h]
    | false =>
      rw [if_neg (by simp), ih]
      simp [List.filter_cons, h]

theorem getNBestCandidates_eq (e : Engine) (q : GraphQuery) (asg : List Assignment)
    (pens : List LabelPenalty) (n : Nat) :
    GetNBestCandidates e q asg pens n
      = ((List.range asg.length).filter (fun i => mustInferAt asg i)).map
          (fun i => (i, (GetCandidatesForNode e q asg pens i).take n)) := by
  simp only [GetNBestCandidates]
  rw [getNBest_fold e q asg pens n _ []]
  simp

/-- Claim C8: the NBest response contains exactly one entry per node with
`must_infer = true`, carrying that node's scored candidate list truncated to
the first `n` entries; the list is sorted descending by score, and each entry
in it pairs a validator-valid label from the node's candidate index with the
node score obtained by substituting that label at the node. -/
theorem nbest_response_spec (e : Engine) (q : GraphQuery) (asg : List Assignment)
    (pens : List LabelPenalty) (n : Nat) :
    (∀ i, i < asg.length → mustInferAt asg i = true →
        (i, (GetCandidatesForNode e q asg pens i).take n)
          ∈ GetNBestCandidates e q asg pens n) ∧
    (∀ entry ∈ GetNBestCandidates e q asg pens n,
      mustInferAt asg entry.1 = true ∧
      entry.2 = (GetCandidatesForNode e q asg pens entry.1).take n ∧
      entry.2.length ≤ n ∧
      List.Sorted candGE entry.2 ∧
      (∀ c ∈ entry.2,
        IsLabelValid e c.1 = true ∧
        c.1 ∈ GetLabelCandidates e q asg entry.1 kMaxBeamSize ∧
        c.2 = GetNodeScore e q (setLabel asg entry.1 c.1) pens entry.1)) := by
  constructor
  · intro i hi hinf
    rw [getNBestCandidates_eq]
    exact List.mem_map.mpr ⟨i, List.mem_filter.mpr ⟨List.mem_range.mpr hi, hinf⟩, rfl⟩
  · intro entry hentry
    rw [getNBestCandidates_eq] at hentry
    obtain ⟨i, hif, hei⟩ := List.mem_map.mp hentry
    obtain ⟨hir, hinf⟩ := List.mem_filter.mp hif
    subst hei
    refine ⟨by simpa using hinf, rfl, ?_, ?_, ?_⟩
    · rw [List.length_take]
      exact min_le_left _ _
    · exact List.Pairwise.sublist (List.take_sublist n _)
        (getCandidatesForNode_sorted e q asg pens i)
    · intro c hc
      exact mem_getCandidatesForNode e q asg pens i c
        ((List.take_sublist n _).subset hc)

/-- Witness for C8 at a concrete engine and query: node 0 is an infer node,
its candidate index offers labels 7 (valid) and 8 (invalid), and with `n = 1`
the response lists exactly the pair `(7, 2)`. -/
theorem nbest_response_spec_witness :
    (0, [((7 : Int), GetNodeScore c8Engine c8Query (setLabel c8Asg 0 7) [] 0)])
        ∈ GetNBestCandidates c8Engine c8Query c8Asg [] 1 ∧
    IsLabelValid c8Engine 7 = true ∧
    (7 : Int) ∈ GetLabelCandidates c8Engine c8Query c8Asg 0 kMaxBeamSize := by
  have hmem : (0, [((7 : Int), GetNodeScore c8Engine c8Query (setLabel c8Asg 0 7) [] 0)])
      ∈ GetNBestCandidates c8Engine c8Query c8Asg [] 1 := by
    have hval : GetNBestCandidates c8Engine c8Query c8Asg [] 1
        = [(0, [((7 : Int), GetNodeScore c8Engine c8Query (setLabel c8Asg 0 7) [] 0)])] := rfl
    rw [hval]
    exact List.mem_singleton.mpr rfl
  have h := (nbest_response_spec c8Engine c8Query c8Asg [] 1).2
    (0, [((7 : Int), GetNodeScore c8Engine c8Query (setLabel c8Asg 0 7) [] 0)]) hmem
  have hc := h.2.2.2.2
    ((7 : Int), GetNodeScore c8Engine c8Query (setLabel c8Asg 0 7) [] 0)
    (List.mem_singleton.mpr rfl)
  exact ⟨hmem, hc.1, hc.2.1⟩

/-! ### Claim C5: pseudolikelihood learning -/

theorem foldl_add_sum {α : Type} (g : α → ℚ) :
    ∀ (l : List α) (init : ℚ),
      l.foldl (fun z x => z + g x) init = init + (l.map g).sum := by
  intro l
  induction l with
  | nil => intro init; simp
  | cons a l ih =>
    intro init
    rw [List.foldl_cons, ih]
    simp only [List.map_cons, List.sum_cons]
    ring

theorem FindWithDefault_foldl_addToKey {α κ : Type} [DecidableEq κ]
    (key : α → κ) (w : ℚ) :
    ∀ (l : List α) (m : List (κ × ℚ)) (f : κ),
      FindWithDefault (l.foldl (fun m x => addToKey (key x) w m) m) f 0
        = FindWithDefault m f 0
          + w * (((l.filter (fun x => key x = f)).length : ℚ)) := by
  intro l
  induction l with
  | nil => intro m f; simp
  | cons a l ih =>
    intro m f
    rw [List.foldl_cons, ih, FindWithDefault_addToKey, List.filter_cons]
    by_cases h : key a = f
    · rw [if_pos h.symm, if_pos (by simp [h])]
      simp only [List.length_cons]
      push_cast
      ring
    · rw [if_neg (fun he => h he.symm), if_neg (by simp [h])]
      ring

theorem GetAffectedFeatures_val (q : GraphQuery) (asg : List Assignment)
    (m : List (GraphFeature × ℚ)) (w : ℚ) (f : GraphFeature) :
    FindWithDefault (GetAffectedFeatures q asg m w) f 0
      = FindWithDefault m f 0 + w * (arcFeatureCount q asg f : ℚ) := by
  have h := FindWithDefault_foldl_addToKey
    (fun arc : Arc =>
      GraphFeature.mk (labelAt asg arc.node_a) (labelAt asg arc.node_b) arc.type)
    w q.arcs_ m f
  simpa [GetAffectedFeatures, arcFeatureCount] using h

theorem GetAffectedFactorFeatures_val (q : GraphQuery) (asg : List Assignment)
    (m : List (Nat × ℚ)) (w : ℚ) (h : Nat) :
    FindWithDefault (GetAffectedFactorFeatures q asg m w) h 0
      = FindWithDefault m h 0 + w * (factorHashCount q asg h : ℚ) := by
  have hgen := FindWithDefault_foldl_addToKey
    (fun f : List Nat => factorHash (f.map (labelAt asg))) w q.factors_ m h
  simpa [GetAffectedFactorFeatures, factorHashCount] using hgen

theorem GetNeighboringAffectedFeatures_val (q : GraphQuery) (asg : List Assignment)
    (m : List (GraphFeature × ℚ)) (node : Nat) (label : Int) (w : ℚ)
    (f : GraphFeature) :
    FindWithDefault (GetNeighboringAffectedFeatures q asg m node label w) f 0
      = FindWithDefault m f 0 + w * (neighborFeatureCount q asg node label f : ℚ) := by
  have h := FindWithDefault_foldl_addToKey
    (fun arc : Arc =>
      GraphFeature.mk (if arc.node_a = node then label else labelAt asg arc.node_a)
        (if arc.node_b = node then label else labelAt asg arc.node_b) arc.type)
    w (adjAt q node) m f
  simpa [GetNeighboringAffectedFeatures, neighborFeatureCount] using h

theorem GetFactorAffectedFeaturesOfNode_val (q : GraphQuery) (asg : List Assignment)
    (m : List (Nat × ℚ)) (node : Nat) (label : Int) (w : ℚ) (h : Nat) :
    FindWithDefault (GetFactorAffectedFeaturesOfNode q asg m node label w) h 0
      = FindWithDefault m h 0 + w * (nodeFactorHashCount q asg node label h : ℚ) := by
  have hgen := FindWithDefault_foldl_addToKey
    (fun fi : Nat =>
      factorHashFrom (HashInt (toU64 label))
        (((factorAt q fi).filter (fun v => v ≠ node)).map (labelAt asg)))
    w (factorsOfNodeAt q node) m h
  simpa [GetFactorAffectedFeaturesOfNode, nodeFactorHashCount] using hgen

theorem plInnerFold_fst (q : GraphQuery) (asg : List Assignment) (i : Nat)
    (w : Int → ℚ) :
    ∀ (cands : List Int) (acc : List (GraphFeature × ℚ) × List (Nat × ℚ))
      (f : GraphFeature),
      FindWithDefault
          ((cands.foldl (fun acc label =>
              (GetNeighboringAffectedFeatures q asg acc.1 i label (w label),
               GetFactorAffectedFeaturesOfNode q asg acc.2 i label (w label))) acc).1)
          f 0
        = FindWithDefault acc.1 f 0
          + (cands.map (fun l => w l * (neighborFeatureCount q asg i l f : ℚ))).sum := by
  intro cands
  induction cands with
  | nil => intro acc f; simp
  | cons a l ih =>
    intro acc f
    rw [List.foldl_cons, ih]
    simp only [GetNeighboringAffectedFeatures_val, List.map_cons, List.sum_cons]
    ring

theorem plInnerFold_snd (q : GraphQuery) (asg : List Assignment) (i : Nat)
    (w : Int → ℚ) :
    ∀ (cands : List Int) (acc : List (GraphFeature × ℚ) × List (Nat × ℚ))
      (h : Nat),
      FindWithDefault
          ((cands.foldl (fun acc label =>
              (GetNeighboringAffectedFeatures q asg acc.1 i label (w label),
               GetFactorAffectedFeaturesOfNode q asg acc.2 i label (w label))) acc).2)
          h 0
        = FindWithDefault acc.2 h 0
          + (cands.map (fun l => w l * (nodeFactorHashCount q asg i l h : ℚ))).sum := by
  intro cands
  induction cands with
  | nil => intro acc h; simp
  | cons a l ih =>
    intro acc h
    rw [List.foldl_cons, ih]
    simp only [GetFactorAffectedFeaturesOfNode_val, List.map_cons, List.sum_cons]
    ring

theorem plNodeGrad_fst_val (e : Engine) (q : GraphQuery) (asg : List Assignment)
    (pens : List LabelPenalty) (expF : ℚ → ℚ) (learning_rate : ℚ) (i : Nat)
    (acc : List (GraphFeature × ℚ) × List (Nat × ℚ)) (f : GraphFeature) :
    FindWithDefault (plNodeGrad e q asg pens expF learning_rate i acc).1 f 0
      = FindWithDefault acc.1 f 0
        + ((plCandidates e q asg i).map
            (fun l => -learning_rate * plMarginal e q asg pens expF i l *
              (neighborFeatureCount q asg i l f : ℚ))).sum := by
  have h := plInnerFold_fst q asg i
    (fun label => -learning_rate *
      (expF (GetNodeScoreGivenAssignmentToANode e q asg pens i i label) /
        plNormalizationConstant e q asg pens expF i))
    (plCandidates e q asg i) acc f
  simpa [plNodeGrad, plMarginal] using h

theorem plNodeGrad_snd_val (e : Engine) (q : GraphQuery) (asg : List Assignment)
    (pens : List LabelPenalty) (expF : ℚ → ℚ) (learning_rate : ℚ) (i : Nat)
    (acc : List (GraphFeature × ℚ) × List (Nat × ℚ)) (h : Nat) :
    FindWithDefault (plNodeGrad e q asg pens expF learning_rate i acc).2 h 0
      = FindWithDefault acc.2 h 0
        + ((plCandidates e q asg i).map
            (fun l => -learning_rate * plMarginal e q asg pens expF i l *
              (nodeFactorHashCount q asg i l h : ℚ))).sum := by
  have hgen := plInnerFold_snd q asg i
    (fun label => -learning_rate *
      (expF (GetNodeScoreGivenAssignmentToANode e q asg pens i i label) /
        plNormalizationConstant e q asg pens expF i))
    (plCandidates e q asg i) acc h
  simpa [plNodeGrad, plMarginal] using hgen

theorem plOuterFold_fst (e : Engine) (q : GraphQuery) (asg : List Assignment)
    (pens : List LabelPenalty) (expF : ℚ → ℚ) (learning_rate : ℚ) :
    ∀ (l : List Nat) (acc : List (GraphFeature × ℚ) × List (Nat × ℚ))
      (f : GraphFeature),
      FindWithDefault
          ((l.foldl (fun (acc : List (GraphFeature × ℚ) × List (Nat × ℚ)) i =>
              if mustInferAt asg i then plNodeGrad e q asg pens expF learning_rate i acc
              else acc) acc).1) f 0
        = FindWithDefault acc.1 f 0
          + (l.map (fun i =>
              if mustInferAt asg i then
                ((plCandidates e q asg i).map
                  (fun l' => -learning_rate * plMarginal e q asg pens expF i l' *
                    (neighborFeatureCount q asg i l' f : ℚ))).sum
              else 0)).sum := by
  intro l
  induction l with
  | nil => intro acc f; simp
  | cons a l ih =>
    intro acc f
    rw [List.foldl_cons, ih]
    simp only [List.map_cons, List.sum_cons]
    cases h : mustInferAt asg a with
    | true =>
      rw [if_pos rfl, if_pos rfl, plNodeGrad_fst_val]
      ring
    | false =>
      rw [if_neg (by simp), if_neg (by simp)]
      ring

theorem plOuterFold_snd (e : Engine) (q : GraphQuery) (asg : List Assignment)
    (pens : List LabelPenalty) (expF : ℚ → ℚ) (learning_rate : ℚ) :
    ∀ (l : List Nat) (acc : List (GraphFeature × ℚ) × List (Nat × ℚ))
      (h : Nat),
      FindWithDefault
          ((l.foldl (fun (acc : List (GraphFeature × ℚ) × List (Nat × ℚ)) i =>
              if mustInferAt asg i then plNodeGrad e q asg pens expF learning_rate i acc
              else acc) acc).2) h 0
        = FindWithDefault acc.2 h 0
          + (l.map (fun i =>
              if mustInferAt asg i then
                ((plCandidates e q asg i).map
                  (fun l' => -learning_rate * plMarginal e q asg pens expF i l' *
                    (nodeFactorHashCount q asg i l' h : ℚ))).sum
              else 0)).sum := by
  intro l
  induction l with
  | nil => intro acc h; simp
  | cons a l ih =>
    intro acc h
    rw [List.foldl_cons, ih]
    simp only [List.map_cons, List.sum_cons]
    cases hm : mustInferAt asg a with
    | true =>
      rw [if_pos rfl, if_pos rfl, plNodeGrad_snd_val]
      ring
    | false =>
      rw [if_neg (by simp), if_neg (by simp)]
      ring

theorem plGradients_fst_val (e : Engine) (q : GraphQuery) (asg : List Assignment)
    (pens : List LabelPenalty) (expF : ℚ → ℚ) (learning_rate : ℚ)
    (f : GraphFeature) :
    FindWithDefault (plGradients e q asg pens expF learning_rate).1 f 0
      = plFeatureGradValue e q asg pens expF learning_rate f := by
  simp only [plGradients]
  rw [GetAffectedFeatures_val,
    plOuterFold_fst e q asg pens expF learning_rate (List.range asg.length) ([], []) f]
  simp only [plFeatureGradValue]
  simp [FindWithDefault, alookup]

theorem plGradients_snd_val (e : Engine) (q : GraphQuery) (asg : List Assignment)
    (pens : List LabelPenalty) (expF : ℚ → ℚ) (learning_rate : ℚ) (h : Nat) :
    FindWithDefault (plGradients e q asg pens expF learning_rate).2 h 0
      = plFactorGradValue e q asg pens expF learning_rate h := by
  simp only [plGradients]
  rw [GetAffectedFactorFeatures_val,
    plOuterFold_snd e q asg pens expF learning_rate (List.range asg.length) ([], []) h]
  simp only [plFactorGradValue]
  simp [FindWithDefault, alookup]

/-- Claim C5 (amended): in pseudolikelihood learning the candidate list of an
infer node is the label-candidate list with the current label appended (a
duplicate is not removed); the normalizer is seeded with the negated node
penalty before summing `exp` of the per-candidate node scores; and the
accumulated gradient at any arc feature (resp. factor hash) is the sum of the
per-node, per-candidate `−η·p` contributions weighted by the arc (resp.
factor) multiplicities, plus `beam_size · η` — not `|C| · η` — times the
reference-labelling count. -/
theorem pl_learn_candidates_normalizer_coefficient (e : Engine) (q : GraphQuery)
    (asg : List Assignment) (pens : List LabelPenalty) (expF : ℚ → ℚ)
    (learning_rate : ℚ) :
    (∀ i, plCandidates e q asg i
        = GetLabelCandidates e q asg i e.beam_size_ ++ [labelAt asg i]) ∧
    (∀ i, plNormalizationConstant e q asg pens expF i
        = -(GetNodePenalty asg pens i)
          + ((plCandidates e q asg i).map
              (fun l => expF (GetNodeScoreGivenAssignmentToANode e q asg pens i i l))).sum) ∧
    (∀ f, FindWithDefault (plGradients e q asg pens expF learning_rate).1 f 0
        = plFeatureGradValue e q asg pens expF learning_rate f) ∧
    (∀ h, FindWithDefault (plGradients e q asg pens expF learning_rate).2 h 0
        = plFactorGradValue e q asg pens expF learning_rate h) := by
  refine ⟨fun i => rfl, fun i => ?_, plGradients_fst_val e q asg pens expF learning_rate,
    plGradients_snd_val e q asg pens expF learning_rate⟩
  unfold plNormalizationConstant
  rw [foldl_add_sum]

/-- Counterexample for C5 as stated: with beam size 2, an isolated infer node
and a single arc between two given nodes, the accumulated gradient at the
arc's reference feature is `beam_size · η = 2`, while the claimed coefficient
`|C| · η` over the candidate set-union `C` (one element) predicts `1`. -/
theorem pl_coefficient_counterexample :
    FindWithDefault (plGradients c5Engine c5Query c5Asg [] (fun _ => (1 : ℚ)) 1).1
        ⟨5, 6, 3⟩ 0 = 2 ∧
    (plCandidates c5Engine c5Query c5Asg 0).dedup.length = 1 ∧
    mustInferAt c5Asg 0 = true ∧
    (2 : ℚ) ≠ (((plCandidates c5Engine c5Query c5Asg 0).dedup.length : ℚ) * 1 *
      (arcFeatureCount c5Query c5Asg ⟨5, 6, 3⟩ : ℚ)) := by
  refine ⟨?_, by decide, by decide, ?_⟩
  · rw [plGradients_fst_val]
    have hcount : arcFeatureCount c5Query c5Asg ⟨5, 6, 3⟩ = 1 := by decide
    have hn : ∀ l : Int, neighborFeatureCount c5Query c5Asg 0 l ⟨5, 6, 3⟩ = 0 :=
      fun l => rfl
    have hrange : c5Asg.length = 3 := rfl
    have hb : c5Engine.beam_size_ = 2 := rfl
    have h0 : mustInferAt c5Asg 0 = true := by decide
    have h1 : mustInferAt c5Asg 1 = false := by decide
    have h2 : mustInferAt c5Asg 2 = false := by decide
    simp only [plFeatureGradValue, hcount, hrange, hb]
    rw [show List.range 3 = [0, 1, 2] from rfl]
    simp only [List.map_cons, List.map_nil, List.sum_cons, List.sum_nil, h0, h1, h2,
      if_true, if_false, hn, Nat.cast_zero, mul_zero, Nat.cast_one]
    have hz : ((plCandidates c5Engine c5Query c5Asg 0).map (fun _ => (0 : ℚ))).sum = 0 := by
      apply List.sum_eq_zero
      intro x hx
      exact (List.mem_map.mp hx).choose_spec.2.symm
    rw [hz]
    norm_num
  · have h1 : (plCandidates c5Engine c5Query c5Asg 0).dedup.length = 1 := by decide
    have h2 : arcFeatureCount c5Query c5Asg ⟨5, 6, 3⟩ = 1 := by decide
    rw [h1, h2]
    norm_num

/-! ### Claim C3: model persistence round trip -/

theorem readFeatureEntries_spec :
    ∀ (l : List (GraphFeature × ℚ)) (tail : List Tok),
      readFeatureEntries l.length
          (l.foldr (fun kv acc =>
            Tok.ti kv.1.a_ :: Tok.ti kv.1.b_ :: Tok.ti kv.1.type_ :: Tok.td kv.2 :: acc)
            tail)
        = some (l, tail) := by
  intro l
  induction l with
  | nil => intro tail; rfl
  | cons kv rest ih =>
    intro tail
    obtain ⟨⟨a, b, t⟩, w⟩ := kv
    simp [readFeatureEntries, ih]

theorem readLabelList_spec :
    ∀ (f : List Int) (tail : List Tok),
      readLabelList f.length (f.foldr (fun v acc2 => Tok.ti v :: acc2) tail)
        = some (f, tail) := by
  intro f
  induction f with
  | nil => intro tail; rfl
  | cons v rest ih =>
    intro tail
    simp [readLabelList, ih]

theorem readFactorEntries_spec (ff : List (Nat × ℚ)) :
    ∀ (fs : List (List Int)),
      readFactorEntries fs.length
          (fs.foldr (fun f acc =>
            Tok.ti (f.length : Int) ::
              (f.foldr (fun v acc2 => Tok.ti v :: acc2)
                (Tok.td (FindWithDefault ff (factorHash f) 0) :: acc))) [])
        = some (fs.map (fun f => (factorHash f, FindWithDefault ff (factorHash f) 0)), []) := by
  intro fs
  induction fs with
  | nil => rfl
  | cons f rest ih =>
    simp [readFactorEntries, readLabelList_spec]
    exact ih

theorem readBytes_spec :
    ∀ (data : List Nat) (tail : List Tok),
      readBytes data.length (data.map (fun b => Tok.ti ((b : Nat) : Int)) ++ tail)
        = some (data, tail) := by
  intro data
  induction data with
  | nil => intro tail; rfl
  | cons b rest ih =>
    intro tail
    show (readBytes rest.length (rest.map (fun b => Tok.ti ((b : Nat) : Int)) ++ tail)).map
        (fun p => (((b : Nat) : Int).toNat :: p.1, p.2)) = some (b :: rest, tail)
    rw [ih tail]
    simp

theorem loadStringsFile_save (ss : StringSet) :
    loadStringsFile (saveStringsFile ss)
      = some (rehashAll ⟨ss.m_data, List.replicate ss.m_hashes.length (-1), 0⟩) := by
  show (match readBytes ss.m_data.length
      (ss.m_data.map (fun b => Tok.ti ((b : Nat) : Int)) ++ [Tok.ti (ss.m_hashes.length : Int)]) with
    | none => none
    | some (data, rest) =>
      match rest with
      | [Tok.ti hashSize] =>
        if hashSize < 0 then none
        else some (rehashAll ⟨data, List.replicate hashSize.toNat (-1), 0⟩)
      | _ => none) = _
  rw [readBytes_spec]
  simp

theorem readFreqEntries_spec :
    ∀ (l : List (Int × Int)) (acc : List (Int × Int)),
      readFreqEntries l.length
          (l.foldr (fun kv a => Tok.ti kv.1 :: Tok.ti kv.2 :: a) []) acc
        = some (l.foldl (fun a kv => assignKey kv.1 kv.2 a) acc) := by
  intro l
  induction l with
  | nil => intro acc; rfl
  | cons kv rest ih =>
    intro acc
    obtain ⟨a, b⟩ := kv
    simp only [List.foldr_cons, List.length_cons, readFreqEntries, List.foldl_cons, ih]

theorem assignKey_not_found {κ ν : Type} [DecidableEq κ] (k : κ) (v : ν) :
    ∀ (m : List (κ × ν)), alookup k m = none → assignKey k v m = m ++ [(k, v)] := by
  intro m
  induction m with
  | nil => intro h; rfl
  | cons kv rest ih =>
    intro h
    obtain ⟨a, b⟩ := kv
    by_cases hk : k = a
    · simp [alookup, hk] at h
    · simp only [assignKey, if_neg hk, List.cons_append]
      rw [ih (by simpa [alookup, hk] using h)]

theorem foldl_assignKey_fresh {κ ν : Type} [DecidableEq κ] :
    ∀ (l : List (κ × ν)) (acc : List (κ × ν)),
      (l.map Prod.fst).Nodup →
      (∀ kv ∈ l, alookup kv.1 acc = none) →
      l.foldl (fun m kv => assignKey kv.1 kv.2 m) acc = acc ++ l := by
  intro l
  induction l with
  | nil => intro acc _ _; simp
  | cons kv rest ih =>
    intro acc hnd hfresh
    obtain ⟨k0, v0⟩ := kv
    rw [List.foldl_cons]
    have hndh : k0 ∉ rest.map Prod.fst ∧ (rest.map Prod.fst).Nodup := by
      simpa using hnd
    have hstep : assignKey k0 v0 acc = acc ++ [(k0, v0)] :=
      assignKey_not_found k0 v0 acc (hfresh (k0, v0) (List.mem_cons_self _ _))
    have hfresh' : ∀ kv' ∈ rest, alookup kv'.1 (acc ++ [(k0, v0)]) = none := by
      intro kv' hkv'
      rw [alookup_append_none kv'.1 acc [(k0, v0)]
        (hfresh kv' (List.mem_cons_of_mem _ hkv'))]
      have hne : kv'.1 ≠ k0 :=
        fun he => hndh.1 (he ▸ List.mem_map_of_mem Prod.fst hkv')
      simp [alookup, hne]
    rw [hstep, ih (acc ++ [(k0, v0)]) hndh.2 hfresh']
    simp

theorem foldl_assignKey_uniform {κ : Type} [DecidableEq κ] (v : κ → ℚ) :
    ∀ (l : List (κ × ℚ)) (acc : List (κ × ℚ)) (k : κ),
      (∀ kv ∈ l, kv.2 = v kv.1) →
      alookup k (l.foldl (fun m kv => assignKey kv.1 kv.2 m) acc)
        = if k ∈ l.map Prod.fst then some (v k) else alookup k acc := by
  intro l
  induction l with
  | nil => intro acc k _; simp
  | cons kv rest ih =>
    intro acc k hunif
    obtain ⟨k0, v0⟩ := kv
    rw [List.foldl_cons, ih _ k (fun kv' h => hunif kv' (List.mem_cons_of_mem _ h))]
    by_cases hmem : k ∈ rest.map Prod.fst
    · rw [if_pos hmem, if_pos (by simp [hmem])]
    · rw [if_neg hmem, alookup_assignKey]
      by_cases hk : k = k0
      · subst hk
        rw [if_pos rfl, if_pos (by simp)]
        have hv := hunif (k, v0) (List.mem_cons_self _ _)
        simp only at hv
        rw [hv]
      · rw [if_neg hk, if_neg (by simp [hk, hmem])]

/-- Claim C3 (amended): save-then-load reproduces the arc-feature map, the
string dictionary and — in unknown-label mode — the label-frequency table
verbatim, and reproduces the factor weight looked up at the hash of every
factor of `factors_set_`, provided the weight-map and frequency keys are
duplicate-free, the dictionary's hash table is the canonical rebuild of its
arena, the configured unknown label is already interned (or unknown mode is
fully off), and `min_freq_known_label ≤ 0`; with a positive
`min_freq_known_label` the load-time `PrepareForInference` filters the
frequency table and rewrites rare-label features, so the round trip is not
bit-identical in general. -/
theorem save_load_round_trip (m : ModelState) (unknownFlag : ByteStr) (minFreq : Int)
    (hfeat : (m.features.map Prod.fst).Nodup)
    (hfreqN : (m.labelFrequency.map Prod.fst).Nodup)
    (hstr : rehashAll ⟨m.strings.m_data, List.replicate m.strings.m_hashes.length (-1), 0⟩
      = m.strings)
    (hunk : (unknownFlag = [] ∧ m.labelFrequency = [] ∧ m.unknownLabel = -1) ∨
      (unknownFlag ≠ [] ∧ addString m.strings unknownFlag = (m.strings, m.unknownLabel)))
    (hmf : minFreq ≤ 0) :
    ∃ m', LoadModel (SaveModel m unknownFlag).1 (SaveModel m unknownFlag).2.1
        (SaveModel m unknownFlag).2.2 unknownFlag minFreq = some m' ∧
      m'.features = m.features ∧
      m'.strings = m.strings ∧
      m'.labelFrequency = m.labelFrequency ∧
      m'.unknownLabel = m.unknownLabel ∧
      ∀ f ∈ m.factorsSet,
        FindWithDefault m'.factorFeatures (factorHash f) 0
          = FindWithDefault m.factorFeatures (factorHash f) 0 := by
  have hfreshF : ∀ kv ∈ m.features, alookup kv.1 ([] : List (GraphFeature × ℚ)) = none :=
    fun kv _ => rfl
  have hfreshQ : ∀ kv ∈ m.labelFrequency, alookup kv.1 ([] : List (Int × Int)) = none :=
    fun kv _ => rfl
  have hrebF := foldl_assignKey_fresh m.features [] hfeat hfreshF
  have hrebQ := foldl_assignKey_fresh m.labelFrequency [] hfreqN hfreshQ
  have hFF : ∀ f ∈ m.factorsSet,
      FindWithDefault
          ((m.factorsSet.map
            (fun f => (factorHash f, FindWithDefault m.factorFeatures (factorHash f) 0))).foldl
            (fun mm kv => assignKey kv.1 kv.2 mm) [])
          (factorHash f) 0
        = FindWithDefault m.factorFeatures (factorHash f) 0 := by
    intro f hf
    have hu := foldl_assignKey_uniform (fun h => FindWithDefault m.factorFeatures h 0)
      (m.factorsSet.map
        (fun f => (factorHash f, FindWithDefault m.factorFeatures (factorHash f) 0)))
      [] (factorHash f)
      (by
        intro kv hkv
        obtain ⟨g, _, rfl⟩ := List.mem_map.mp hkv
        rfl)
    have hmem : factorHash f ∈ (m.factorsSet.map
        (fun f => (factorHash f, FindWithDefault m.factorFeatures (factorHash f) 0))).map
          Prod.fst :=
      List.mem_map.mpr ⟨(factorHash f, FindWithDefault m.factorFeatures (factorHash f) 0),
        List.mem_map.mpr ⟨f, hf, rfl⟩, rfl⟩
    rw [FindWithDefault, hu, if_pos hmem]
    rfl
  rcases hunk with ⟨huf, hlf, hul⟩ | ⟨huf, hadd⟩
  · subst huf
    refine ⟨⟨m.features, [],
      (m.factorsSet.map
        (fun f => (factorHash f, FindWithDefault m.factorFeatures (factorHash f) 0))).foldl
        (fun mm kv => assignKey kv.1 kv.2 mm) [],
      [], m.strings, -1⟩, ?_, rfl, rfl, hlf.symm, hul.symm, hFF⟩
    simp [SaveModel, LoadModel, PrepareForInferencePersist, Int.toNat_ofNat,
      readFeatureEntries_spec, readFactorEntries_spec, loadStringsFile_save,
      hrebF, hstr]
    rfl
  · refine ⟨⟨m.features, [],
      (m.factorsSet.map
        (fun f => (factorHash f, FindWithDefault m.factorFeatures (factorHash f) 0))).foldl
        (fun mm kv => assignKey kv.1 kv.2 mm) [],
      m.labelFrequency, m.strings, m.unknownLabel⟩, ?_, rfl, rfl, rfl, rfl, hFF⟩
    simp [SaveModel, LoadModel, PrepareForInferencePersist, Int.toNat_ofNat,
      readFeatureEntries_spec, readFactorEntries_spec, loadStringsFile_save,
      readFreqEntries_spec, hrebF, hrebQ, hstr, hadd, huf]
    have hc : ¬(0 ≤ m.unknownLabel ∧ 0 < minFreq) := by omega
    simp [hc]
    rfl

/-- Witness for the amended C3 at a concrete model with one arc feature, one
factor, one frequency entry and the interned unknown label "u". -/
theorem save_load_round_trip_witness :
    (c3wm.features.map Prod.fst).Nodup ∧
    (∃ m', LoadModel (SaveModel c3wm [117]).1 (SaveModel c3wm [117]).2.1
        (SaveModel c3wm [117]).2.2 [117] 0 = some m' ∧
      m'.features = c3wm.features ∧
      m'.strings = c3wm.strings ∧
      m'.labelFrequency = c3wm.labelFrequency ∧
      m'.unknownLabel = c3wm.unknownLabel ∧
      ∀ f ∈ c3wm.factorsSet,
        FindWithDefault m'.factorFeatures (factorHash f) 0
          = FindWithDefault c3wm.factorFeatures (factorHash f) 0) :=
  ⟨by decide, save_load_round_trip c3wm [117] 0 (by decide) (by decide) (by decide)
    (Or.inr ⟨by decide, by decide⟩) (by decide)⟩

/-- Counterexample for C3 as stated: with unknown-label mode on and
`min_freq_known_label = 2`, loading the saved model drops the rare frequency
entry `(5, 1)`, so the label-frequency table is not reproduced. -/
theorem save_load_lfreq_counterexample :
    (LoadModel (SaveModel c3m [117]).1 (SaveModel c3m [117]).2.1
        (SaveModel c3m [117]).2.2 [117] 2).map ModelState.labelFrequency
      = some [] ∧
    c3m.labelFrequency = [(5, 1)] ∧
    (some ([] : List (Int × Int))) ≠ some [(5, 1)] :=
  ⟨by decide, by decide, by decide⟩

/-! ### Claim C1: given-label handling across inference -/

theorem getD_set {α : Type} (d a : α) :
    ∀ (l : List α) (n i : Nat),
      (l.set n a).getD i d = if i = n ∧ n < l.length then a else l.getD i d := by
  intro l
  induction l with
  | nil => intro n i; simp
  | cons x xs ih =>
    intro n i
    cases n with
    | zero =>
      cases i with
      | zero => simp
      | succ j => simp [List.getD]
    | succ m =>
      cases i with
      | zero => simp [List.getD]
      | succ j =>
        simp only [List.set, List.getD_cons_succ, List.length_cons, ih m j]
        by_cases h : j = m ∧ m < xs.length
        · rw [if_pos h, if_pos (by omega)]
        · rw [if_neg h, if_neg (by omega)]

theorem length_setLabel (asg : List Assignment) (n : Nat) (l : Int) :
    (setLabel asg n l).length = asg.length := by
  simp [setLabel]

theorem mustInferAt_setLabel (asg : List Assignment) (n : Nat) (l : Int) (i : Nat) :
    mustInferAt (setLabel asg n l) i = mustInferAt asg i := by
  unfold mustInferAt setLabel
  rw [getD_set]
  by_cases h : i = n ∧ n < asg.length
  · rw [if_pos h]
    obtain ⟨rfl, _⟩ := h
    rfl
  · rw [if_neg h]

theorem labelAt_setLabel (asg : List Assignment) (n : Nat) (l : Int) (i : Nat) :
    labelAt (setLabel asg n l) i
      = if i = n ∧ n < asg.length then l else labelAt asg i := by
  unfold labelAt setLabel
  rw [getD_set]
  by_cases h : i = n ∧ n < asg.length
  · rw [if_pos h, if_pos h]
  · rw [if_neg h, if_neg h]

theorem gp_refl (asg : List Assignment) : givenPreserved asg asg :=
  ⟨rfl, fun _ => ⟨rfl, fun _ => rfl⟩⟩

theorem gp_trans {a b c : List Assignment} (h1 : givenPreserved a b)
    (h2 : givenPreserved b c) : givenPreserved a c := by
  refine ⟨h2.1.trans h1.1, fun i => ⟨(h2.2 i).1.trans (h1.2 i).1, fun hg => ?_⟩⟩
  have hb : mustInferAt b i = false := (h1.2 i).1.trans hg
  exact ((h2.2 i).2 hb).trans ((h1.2 i).2 hg)

theorem gp_setLabel (asg : List Assignment) (n : Nat) (l : Int)
    (h : mustInferAt asg n = true) : givenPreserved asg (setLabel asg n l) := by
  refine ⟨length_setLabel asg n l, fun i => ⟨mustInferAt_setLabel asg n l i, fun hg => ?_⟩⟩
  rw [labelAt_setLabel]
  rw [if_neg (fun hc => by rw [hc.1] at hg; rw [hg] at h; exact Bool.false_ne_true h)]

theorem gp_foldl_step {α : Type} (step : List Assignment → α → List Assignment)
    (h : ∀ a x, givenPreserved a (step a x)) :
    ∀ (l : List α) (a : List Assignment), givenPreserved a (l.foldl step a) := by
  intro l
  induction l with
  | nil => intro a; exact gp_refl a
  | cons x rest ih =>
    intro a
    rw [List.foldl_cons]
    exact gp_trans (h a x) (ih (step a x))

theorem foldl_invariant {α β : Type} (P : β → Prop) (f : β → α → β)
    (h : ∀ b a, P b → P (f b a)) :
    ∀ (l : List α) (b : β), P b → P (l.foldl f b) := by
  intro l
  induction l with
  | nil => intro b hb; exact hb
  | cons x rest ih =>
    intro b hb
    rw [List.foldl_cons]
    exact ih (f b x) (h b x hb)

theorem gp_setPairs (asg0 : List Assignment) :
    ∀ (pairs : List (Nat × Int)) (a : List Assignment),
      (∀ p ∈ pairs, mustInferAt asg0 p.1 = true) →
      givenPreserved asg0 a →
      givenPreserved asg0 (pairs.foldl (fun a p => setLabel a p.1 p.2) a) := by
  intro pairs
  induction pairs with
  | nil => intro a _ ha; exact ha
  | cons p rest ih =>
    intro a hinf ha
    rw [List.foldl_cons]
    have hfl : mustInferAt a p.1 = true := by
      rw [(ha.2 p.1).1]
      exact hinf p (List.mem_cons_self _ _)
    exact ih (setLabel a p.1 p.2) (fun p' hp' => hinf p' (List.mem_cons_of_mem _ hp'))
      (gp_trans ha (gp_setLabel a p.1 p.2 hfl))

theorem gp_perNodeStep (e : Engine) (q : GraphQuery) (pens : List LabelPenalty)
    (beam : Nat) (asg : List Assignment) (node : Nat) :
    givenPreserved asg (perNodeStep e q pens beam asg node) := by
  by_cases h : mustInferAt asg node = true
  · simp only [perNodeStep]
    rw [if_neg (fun hn => hn h)]
    split
    · exact gp_refl asg
    · exact gp_setLabel asg node _ h
  · simp only [perNodeStep]
    rw [if_pos h]
    exact gp_refl asg

theorem gp_perNodePass (e : Engine) (q : GraphQuery) (pens : List LabelPenalty)
    (beam : Nat) (asg : List Assignment) :
    givenPreserved asg (LocalPerNodeOptimizationPass e q pens beam asg) :=
  gp_foldl_step (perNodeStep e q pens beam) (gp_perNodeStep e q pens beam) _ asg

theorem dupCandidateStep_inv (e : Engine) (q : GraphQuery) (pens : List LabelPenalty)
    (asg : List Assignment) (node : Nat) (il : Int) (best : ℚ × Int × Int) (c : Int)
    (hb : best.2.2 = -1 ∨ mustInferAt asg best.2.2.toNat = true) :
    (dupCandidateStep e q pens asg node il best c).2.2 = -1 ∨
      mustInferAt asg (dupCandidateStep e q pens asg node il best c).2.2.toNat = true := by
  simp only [dupCandidateStep]
  split
  · exact hb
  · split
    · split
      · exact hb
      · rename_i hguard
        split
        · split
          · refine Or.inr ?_
            rw [← mustInferAt_setLabel asg node c]
            have := not_or.mp hguard
            exact not_not.mp this.2
          · exact hb
        · exact hb
    · split
      · exact Or.inl rfl
      · exact hb

theorem gp_perNodeDupStep (e : Engine) (q : GraphQuery) (pens : List LabelPenalty)
    (beam : Nat) (asg : List Assignment) (node : Nat) :
    givenPreserved asg (perNodeDupStep e q pens beam asg node) := by
  by_cases h : mustInferAt asg node = true
  · simp only [perNodeDupStep]
    rw [if_neg (fun hn => hn h)]
    split
    · exact gp_refl asg
    · have hP := foldl_invariant
        (fun b : ℚ × Int × Int => b.2.2 = -1 ∨ mustInferAt asg b.2.2.toNat = true)
        (dupCandidateStep e q pens asg node (labelAt asg node))
        (fun b c hb => dupCandidateStep_inv e q pens asg node (labelAt asg node) b c hb)
        (GetLabelCandidates e q asg node beam)
        (GetNodeScore e q asg pens node, labelAt asg node, -1)
        (Or.inl rfl)
      split
      · rename_i hne
        rcases hP with hP | hP
        · exact absurd hP hne
        · exact gp_trans (gp_setLabel asg node _ h)
            (gp_setLabel _ _ _ (by rw [mustInferAt_setLabel]; exact hP))
      · exact gp_setLabel asg node _ h
  · simp only [perNodeDupStep]
    rw [if_pos h]
    exact gp_refl asg

theorem gp_perNodeDupPass (e : Engine) (q : GraphQuery) (pens : List LabelPenalty)
    (beam : Nat) (asg : List Assignment) :
    givenPreserved asg
      (LocalPerNodeOptimizationPassWithDuplicateNameResolution e q pens beam asg) :=
  gp_foldl_step (perNodeDupStep e q pens beam) (gp_perNodeDupStep e q pens beam) _ asg

theorem gp_perArcStep (e : Engine) (q : GraphQuery) (pens : List LabelPenalty)
    (beam : Nat) (skip : Int) (asg : List Assignment) (arc : Arc) :
    givenPreserved asg (perArcStep e q pens beam skip asg arc) := by
  simp only [perArcStep]
  split
  · exact gp_refl asg
  · split
    · exact gp_refl asg
    · rename_i hinf
      have hab := not_or.mp hinf
      have ha : mustInferAt asg arc.node_a = true := not_not.mp hab.1
      have hb : mustInferAt asg arc.node_b = true := not_not.mp hab.2
      split
      · exact gp_refl asg
      · split
        · exact gp_refl asg
        · split
          · exact gp_refl asg
          · exact gp_trans (gp_setLabel asg arc.node_a _ ha)
              (gp_setLabel _ _ _ (by rw [mustInferAt_setLabel]; exact hb))

theorem gp_perArcPass (e : Engine) (q : GraphQuery) (pens : List LabelPenalty)
    (beam : Nat) (skip : Int) (asg : List Assignment) :
    givenPreserved asg (LocalPerArcOptimizationPass e q pens beam skip asg) :=
  gp_foldl_step (perArcStep e q pens beam skip) (gp_perArcStep e q pens beam skip) _ asg

theorem gp_PPO (e : Engine) (q : GraphQuery) (pens : List LabelPenalty)
    (asg0 : List Assignment) (inf_nodes : List Nat)
    (hinf : ∀ n ∈ inf_nodes, mustInferAt asg0 n = true)
    (perm : List Int) (st : List Assignment × List Int × ℚ)
    (hst : givenPreserved asg0 st.1) :
    givenPreserved asg0 (PerformPermutationOptimization e q pens inf_nodes perm st).1 := by
  simp only [PerformPermutationOptimization]
  have hasg : givenPreserved asg0
      ((inf_nodes.zip perm).foldl (fun a p => setLabel a p.1 p.2) st.1) :=
    gp_setPairs asg0 _ st.1 (fun p hp => hinf p.1 (List.of_mem_zip hp).1) hst
  split
  · exact hasg
  · split
    · exact hasg
    · exact hasg

theorem gp_factorCandidateStep (e : Engine) (q : GraphQuery) (pens : List LabelPenalty)
    (pbs : Nat) (shuffle : Nat → List Int → List Int) (asg0 : List Assignment)
    (inf_nodes : List Nat) (giv_labels : List Int)
    (hinf : ∀ n ∈ inf_nodes, mustInferAt asg0 n = true)
    (st : List Assignment × List Int × ℚ) (fc : List Int)
    (hst : givenPreserved asg0 st.1) :
    givenPreserved asg0
      (factorCandidateStep e q pens pbs shuffle inf_nodes giv_labels st fc).1 := by
  simp only [factorCandidateStep]
  split
  · exact hst
  · exact foldl_invariant
      (fun s : List Assignment × List Int × ℚ => givenPreserved asg0 s.1)
      (fun st perm => PerformPermutationOptimization e q pens inf_nodes perm st)
      (fun s perm h => gp_PPO e q pens asg0 inf_nodes hinf perm s h) _ st hst

theorem gp_perFactorStep (e : Engine) (q : GraphQuery) (pens : List LabelPenalty)
    (fl pbs : Nat) (shuffle : Nat → List Int → List Int) (asg : List Assignment)
    (factor : List Nat) :
    givenPreserved asg (perFactorStep e q pens fl pbs shuffle asg factor) := by
  simp only [perFactorStep]
  have hinf : ∀ n ∈ factor.filter (fun v => mustInferAt asg v),
      mustInferAt asg n = true :=
    fun n hn => (List.mem_filter.mp hn).2
  refine gp_setPairs asg _ _ (fun p hp => hinf p.1 (List.of_mem_zip hp).1) ?_
  exact foldl_invariant
    (fun s : List Assignment × List Int × ℚ => givenPreserved asg s.1)
    (factorCandidateStep e q pens pbs shuffle (factor.filter (fun v => mustInferAt asg v))
      (factor.foldl
        (fun g v => if mustInferAt asg v then g else insertSortedInt (labelAt asg v) g) []))
    (fun s fc h => gp_factorCandidateStep e q pens pbs shuffle asg _ _ hinf s fc h)
    _ _ (gp_refl asg)

theorem gp_perFactorPass (e : Engine) (q : GraphQuery) (pens : List LabelPenalty)
    (fl pbs : Nat) (shuffle : Nat → List Int → List Int) (asg : List Assignment) :
    givenPreserved asg (LocalPerFactorOptimizationPass e q pens fl pbs shuffle asg) :=
  gp_foldl_step (perFactorStep e q pens fl pbs shuffle)
    (gp_perFactorStep e q pens fl pbs shuffle) _ asg

theorem gp_greedyStep (e : Engine) (q : GraphQuery) (pens : List LabelPenalty)
    (asg0 : List Assignment) (st : UPQueue × List Bool × List Assignment)
    (hst : givenPreserved asg0 st.2.2) :
    givenPreserved asg0 (greedyStep e q pens st).2.2 := by
  obtain ⟨pq, assigned, asg⟩ := st
  simp only [greedyStep]
  split
  · exact hst
  · rename_i h
    have hm : mustInferAt asg pq.GetKeyWithMinValue = true := not_not.mp h
    split
    · exact hst
    · exact gp_trans hst (gp_setLabel asg _ _ hm)

theorem gp_greedyLoop (e : Engine) (q : GraphQuery) (pens : List LabelPenalty)
    (asg0 : List Assignment) :
    ∀ (fuel : Nat) (st : UPQueue × List Bool × List Assignment),
      givenPreserved asg0 st.2.2 →
      givenPreserved asg0 (greedyLoop e q pens fuel st).2.2 := by
  intro fuel
  induction fuel with
  | zero => intro st hst; exact hst
  | succ fuel ih =>
    intro st hst
    simp only [greedyLoop]
    split
    · exact hst
    · exact ih (greedyStep e q pens st) (gp_greedyStep e q pens asg0 st hst)

theorem gp_greedyPass (e : Engine) (q : GraphQuery) (pens : List LabelPenalty)
    (asg : List Assignment) :
    givenPreserved asg (InitialGreedyAssignmentPass e q pens asg) := by
  simp only [InitialGreedyAssignmentPass]
  exact gp_greedyLoop e q pens asg _ _ (gp_refl asg)

theorem gp_traceBFS (a0 : List Assignment) (st : BPState) :
    ∀ (fuel : Nat) (queue : List (Nat × Int)) (visited : List Bool)
      (a : List Assignment),
      givenPreserved a0 a →
      givenPreserved a0 (traceBFS a0 st fuel queue visited a).2 := by
  intro fuel
  induction fuel with
  | zero => intro queue visited a ha; exact ha
  | succ fuel ih =>
    intro queue visited a ha
    match queue with
    | [] => exact ha
    | (node, label) :: rest =>
      simp only [traceBFS]
      split
      · exact ih rest visited a ha
      · refine ih _ _ _ ?_
        split
        · rename_i hm
          exact gp_trans ha (gp_setLabel a node label (((ha.2 node).1).trans hm))
        · exact ha

theorem gp_TraceBack (asg : List Assignment) (st : BPState) :
    givenPreserved asg (TraceBack asg st) := by
  simp only [TraceBack]
  exact foldl_invariant
    (fun acc : List Bool × List Assignment => givenPreserved asg acc.2)
    _ (fun acc sc h => gp_traceBFS asg st _ [sc.2] acc.1 acc.2 h) _ _ (gp_refl asg)

theorem gp_LoopyBPRun (e : Engine) (q : GraphQuery) (pens : List LabelPenalty)
    (steps : Nat) (asg : List Assignment) :
    givenPreserved asg (LoopyBPRun e q pens steps asg) := by
  simp only [LoopyBPRun]
  exact gp_TraceBack asg _

theorem gp_optLoop (e : Engine) (q : GraphQuery) (pens : List LabelPenalty)
    (flags : Flags) (shuffle : Nat → List Int → List Int) :
    ∀ (fuel pass : Nat) (score : ℚ) (nb ab : Nat) (asg : List Assignment),
      givenPreserved asg
        (optimizationLoop e q pens flags shuffle fuel pass score nb ab asg) := by
  intro fuel
  induction fuel with
  | zero => intro pass score nb ab asg; exact gp_refl asg
  | succ fuel ih =>
    intro pass score nb ab asg
    simp only [optimizationLoop]
    generalize hA1 : (if pass < flags.graph_loopy_bp_passes then
        LoopyBPRun e q pens flags.graph_loopy_bp_steps_per_pass asg else asg) = A1
    have h1 : givenPreserved asg A1 := by
      rw [← hA1]
      split
      · exact gp_LoopyBPRun e q pens _ asg
      · exact gp_refl asg
    generalize hA2 : (if pass < flags.graph_per_node_passes then
        if flags.duplicate_name_resolution then
          LocalPerNodeOptimizationPassWithDuplicateNameResolution e q pens nb A1
        else LocalPerNodeOptimizationPass e q pens nb A1
      else A1) = A2
    have h2 : givenPreserved A1 A2 := by
      rw [← hA2]
      split
      · split
        · exact gp_perNodeDupPass e q pens nb A1
        · exact gp_perNodePass e q pens nb A1
      · exact gp_refl A1
    generalize hA3 : (if pass < flags.graph_per_arc_passes then
        LocalPerArcOptimizationPass e q pens ab
          flags.skip_per_arc_optimization_for_nodes_above_degree A2
      else A2) = A3
    have h3 : givenPreserved A2 A3 := by
      rw [← hA3]
      split
      · exact gp_perArcPass e q pens ab _ A2
      · exact gp_refl A2
    generalize hA4 : (if pass < flags.graph_per_factor_passes then
        LocalPerFactorOptimizationPass e q pens flags.factors_limit
          flags.permutations_beam_size shuffle A3
      else A3) = A4
    have h4 : givenPreserved A3 A4 := by
      rw [← hA4]
      split
      · exact gp_perFactorPass e q pens _ _ shuffle A3
      · exact gp_refl A3
    have h14 := gp_trans (gp_trans (gp_trans h1 h2) h3) h4
    split
    · exact h14
    · exact gp_trans h14 (ih _ _ _ _ A4)

theorem getD_map_lt {α β : Type} (f : α → β) (d : β) (d' : α) :
    ∀ (l : List α) (i : Nat), i < l.length → (l.map f).getD i d = f (l.getD i d') := by
  intro l
  induction l with
  | nil => intro i h; exact absurd h (by simp)
  | cons x xs ih =>
    intro i h
    cases i with
    | zero => rfl
    | succ j => exact ih j (by simpa using h)

theorem getD_ge {α : Type} (d : α) :
    ∀ (l : List α) (i : Nat), l.length ≤ i → l.getD i d = d := by
  intro l
  induction l with
  | nil => intro i _; rfl
  | cons x xs ih =>
    intro i h
    cases i with
    | zero => exact absurd h (by simp)
    | succ j => exact ih j (by simpa using h)

theorem replace_mustInferAt (e : Engine) (asg : List Assignment) (i : Nat) :
    mustInferAt (ReplaceLabelsWithUnknown e asg) i = mustInferAt asg i := by
  unfold mustInferAt ReplaceLabelsWithUnknown
  by_cases h : i < asg.length
  · rw [getD_map_lt _ _ defaultAssignment asg i h]
    split <;> rfl
  · rw [getD_ge _ _ i (by simpa using not_lt.mp h),
      getD_ge _ _ i (not_lt.mp h)]

theorem replace_labelAt (e : Engine) (asg : List Assignment) (i : Nat)
    (h : i < asg.length) :
    labelAt (ReplaceLabelsWithUnknown e asg) i
      = if alookup (labelAt asg i) e.label_frequency_ = none then e.unknown_label_
        else labelAt asg i := by
  unfold labelAt ReplaceLabelsWithUnknown
  rw [getD_map_lt _ _ defaultAssignment asg i h]
  by_cases hc : alookup (asg.getD i defaultAssignment).label e.label_frequency_ = none
  · rw [if_pos hc, if_pos hc]
  · rw [if_neg hc, if_neg hc]

theorem mapInference_given_formula (e : Engine) (q : GraphQuery) (flags : Flags)
    (shuffle : Nat → List Int → List Int) (asg : List Assignment)
    (pens : List LabelPenalty) (i : Nat) (hi : i < asg.length)
    (hg : mustInferAt asg i = false) :
    mustInferAt (MapInference e q flags shuffle asg pens) i = false ∧
    labelAt (MapInference e q flags shuffle asg pens) i
      = if e.unknown_label_ ≥ 0 ∧ alookup (labelAt asg i) e.label_frequency_ = none
        then e.unknown_label_ else labelAt asg i := by
  simp only [MapInference, PerformAssignmentOptimization]
  generalize hA1 : (if e.unknown_label_ ≥ 0 then ReplaceLabelsWithUnknown e asg
      else asg) = A1
  have hflag : mustInferAt A1 i = mustInferAt asg i := by
    rw [← hA1]
    split
    · exact replace_mustInferAt e asg i
    · rfl
  have hlab : labelAt A1 i
      = if e.unknown_label_ ≥ 0 ∧ alookup (labelAt asg i) e.label_frequency_ = none
        then e.unknown_label_ else labelAt asg i := by
    rw [← hA1]
    by_cases hu : e.unknown_label_ ≥ 0
    · rw [if_pos hu, replace_labelAt e asg i hi]
      by_cases hl : alookup (labelAt asg i) e.label_frequency_ = none
      · rw [if_pos hl, if_pos ⟨hu, hl⟩]
      · rw [if_neg hl, if_neg (fun hc => hl hc.2)]
    · rw [if_neg hu, if_neg (fun hc => hu hc.1)]
  generalize hA2 : (if flags.initial_greedy_assignment_pass then
      InitialGreedyAssignmentPass e q pens A1 else A1) = A2
  have h2 : givenPreserved A1 A2 := by
    rw [← hA2]
    split
    · exact gp_greedyPass e q pens A1
    · exact gp_refl A1
  have h3 := gp_optLoop e q pens flags shuffle
    (max flags.graph_per_node_passes
      (max flags.graph_loopy_bp_passes flags.graph_per_arc_passes))
    0 (GetTotalScore e q A2 pens) kStartBeamSize kStartBeamSize A2
  have h := gp_trans h2 h3
  have hgA1 : mustInferAt A1 i = false := hflag.trans hg
  constructor
  · rw [(h.2 i).1, hflag]
    exact hg
  · rw [(h.2 i).2 hgA1]
    exact hlab

/-- Claim C1 (amended): MapInference (and so the inference inside learning)
never changes a given node's `infer` flag, and returns every given node with
exactly the label produced by the rare-label-replacement prepass: when an
unknown label is configured and the given label is absent from the
label-frequency table, the returned label is the unknown label; otherwise it
is the caller's label.  The optimization passes themselves never mutate a
given node, but the replacement prepass does. -/
theorem map_inference_given_label_policy (e : Engine) (q : GraphQuery)
    (flags : Flags) (shuffle : Nat → List Int → List Int) (asg : List Assignment)
    (pens : List LabelPenalty) :
    ∀ i, i < asg.length → mustInferAt asg i = false →
      mustInferAt (MapInference e q flags shuffle asg pens) i = false ∧
      labelAt (MapInference e q flags shuffle asg pens) i
        = if e.unknown_label_ ≥ 0 ∧ alookup (labelAt asg i) e.label_frequency_ = none
          then e.unknown_label_ else labelAt asg i :=
  fun i hi hg => mapInference_given_formula e q flags shuffle asg pens i hi hg

/-- Witness for the amended C1 at a concrete engine in unknown-label mode with
one given node carrying a rare label. -/
theorem map_inference_given_label_policy_witness :
    (0 : Nat) < c1asg.length ∧ mustInferAt c1asg 0 = false ∧
    (mustInferAt (MapInference c1e c1q defaultFlags (fun _ l => l) c1asg []) 0 = false ∧
      labelAt (MapInference c1e c1q defaultFlags (fun _ l => l) c1asg []) 0
        = if c1e.unknown_label_ ≥ 0 ∧ alookup (labelAt c1asg 0) c1e.label_frequency_ = none
          then c1e.unknown_label_ else labelAt c1asg 0) :=
  ⟨by decide, by decide,
    map_inference_given_label_policy c1e c1q defaultFlags (fun _ l => l) c1asg []
      0 (by decide) (by decide)⟩

/-- Counterexample for C1 as stated: the rare-label-replacement prepass of
`PerformAssignmentOptimization` rewrites the given node's rare label 9 to the
unknown label 7, so the run does not return the caller's label. -/
theorem given_label_mutated_counterexample :
    mustInferAt c1asg 0 = false ∧ labelAt c1asg 0 = 9 ∧
    labelAt (MapInference c1e c1q defaultFlags (fun _ l => l) c1asg []) 0 = 7 := by
  have h := mapInference_given_formula c1e c1q defaultFlags (fun _ l => l) c1asg []
    0 (by decide) (by decide)
  refine ⟨by decide, by decide, ?_⟩
  rw [h.2]
  decide

end N2P
